import Mathlib

/-!
Food delivery route optimizer: grid graph and route optimizer.

A shallow embedding of `src/food_delivery_optimizer.cpp`.

Modelling conventions.

* Every C++ `int` is a Lean `Int`; no claim below depends on wrap-around.
* A C++ array indexed by node id is a total function on `Int` (`dist`, `pred`, `adj`);
  a write is a point update.  Growing buffers (`queue`, `temp`, `path`, `allOrds`,
  `assignments[r]`, `routes[r]`) are lists whose length is the C++ fill counter
  (`rear`, `tlen`, `len`, `numOrds`, `assignCounts[r]`, `routeLens[r]`).  The allocation
  sizes `MAX_NODES`, `MAX_REST`, `MAX_ORD` are kept as constants but buffer capacity is
  not enforced by the list model.
* A pointer `Restaurant*` is the index of the restaurant in `rests`; a pointer `Order*`
  is the pair (restaurant index, order index).  Dereferencing reads the current `rests`.
* Array indices and counts that are never negative (`numRiders`, rider ids, loop counters over
  `allOrds`, `uRests`, `rOrds`) are `Nat`; an index variable that starts at the sentinel `-1`
  (`idx`, `nearIdx`, `nearOrd`) is an `Option Nat` with `none` for `-1`.
* The `name` of an unnamed `RouteStop` is never written by the program; it is modelled as `""`.
* The two `while` loops (`bfs` and the predecessor walk of `getPath`) run on fuel and
  return `none` when the fuel is used up while the loop guard still holds, so every
  result `some _` below is a result of the real loop.
-/

namespace FoodDelivery

/-! ## Constants -/

def MAX_NODES : Int := 10000
def MAX_REST : Int := 50
def MAX_ORD : Int := 100
def MAX_RID : Int := 20
def INT_MAX : Int := 2147483647

/-! ## Basic helpers -/

/-- The integers `lo, lo+1, ..., hi` in increasing order: the values taken by the counter of
`for (int i = lo; i <= hi; i++)`. -/
def intRange (lo hi : Int) : List Int :=
  (List.range (hi + 1 - lo).toNat).map (fun (k : Nat) => lo + (k : Int))

/-- Point update of an `int`-indexed array: `a[i] = v`. -/
def upd (a : Int → Int) (i v : Int) : Int → Int :=
  fun j => if j = i then v else a j

/-- Point update of the adjacency matrix: `adj[u][v] = x`. -/
def upd2 (adj : Int → Int → Int) (u v x : Int) : Int → Int → Int :=
  fun a b => if a = u ∧ b = v then x else adj a b

/-! ## GridGraph -/

/-- The class `GridGraph`: `size`, `total`, the dense matrix `adj` and the two scratch
buffers `dist` and `pred` shared by all queries. -/
structure GridGraph where
  size : Int
  total : Int
  adj : Int → Int → Int
  dist : Int → Int
  pred : Int → Int

/-- The C++ expression `(node - 1) / size` (truncating division). -/
def rowOf (size node : Int) : Int := (node - 1).tdiv size

/-- The C++ expression `(node - 1) % size` (remainder of truncating division). -/
def colOf (size node : Int) : Int := (node - 1).tmod size

/-- One iteration of the loop of `createGraph` (lines 62-74). -/
def createGraphStep (size : Int) (adj : Int → Int → Int) (node : Int) : Int → Int → Int :=
  let row := rowOf size node
  let col := colOf size node
  let adj1 :=
    if col < size - 1 then
      let right := node + 1
      upd2 (upd2 adj right node 1) node right 1
    else adj
  if row < size - 1 then
    let bottom := node + size
    upd2 (upd2 adj1 bottom node 1) node bottom 1
  else adj1

/-- Method `createGraph`: `for (node = 1; node <= total; node++)` over the matrix. -/
def createGraph (size total : Int) (adj : Int → Int → Int) : Int → Int → Int :=
  (intRange 1 total).foldl (createGraphStep size) adj

/-- The constructor `GridGraph(int n)`: a zero-initialised matrix filled by `createGraph`;
`dist` and `pred` are allocated without initialisation, so their initial contents `d0`, `p0`
are arbitrary. -/
def GridGraph.init (n : Int) (d0 p0 : Int → Int) : GridGraph :=
  { size := n, total := n * n, adj := createGraph n (n * n) (fun _ _ => 0),
    dist := d0, pred := p0 }

/-- The constructor with all-zero scratch buffers. -/
def GridGraph.new (n : Int) : GridGraph := GridGraph.init n (fun _ => 0) (fun _ => 0)

/-- State of the `while` loop of `bfs`: the scratch buffers, the queue (its length is `rear`)
and `front`. -/
structure BfsState where
  dist : Int → Int
  pred : Int → Int
  queue : List Int
  front : Nat

/-- Body of the inner `for (i = 1; i <= total; i++)` loop of `bfs` (lines 92-96). -/
def scanStep (adj : Int → Int → Int) (curr : Int) (st : BfsState) (i : Int) : BfsState :=
  if adj curr i = 1 ∧ st.dist i = -1 then
    { st with dist := upd st.dist i (st.dist curr + 1),
              pred := upd st.pred i curr,
              queue := st.queue ++ [i] }
  else st

/-- One iteration of `while (front < rear)`: pop `curr`, then scan `i = 1..total`. -/
def bfsIter (g : GridGraph) (st : BfsState) : BfsState :=
  let curr := st.queue.getD st.front 0
  (intRange 1 g.total).foldl (scanStep g.adj curr) { st with front := st.front + 1 }

/-- The loop `while (front < rear)` of `bfs` on fuel: `none` when the fuel runs out while
`front < rear` still holds. -/
def bfsLoop (g : GridGraph) : Nat → BfsState → Option BfsState
  | 0, st => if st.front < st.queue.length then none else some st
  | fuel + 1, st =>
    if st.front < st.queue.length then bfsLoop g fuel (bfsIter g st) else some st

/-- The reset loop of `bfs` (lines 78-81): `dist[i] = pred[i] = -1` for `i = 0..total`. -/
def bfsReset (g : GridGraph) : BfsState :=
  (intRange 0 g.total).foldl
    (fun st i => { st with dist := upd st.dist i (-1), pred := upd st.pred i (-1) })
    { dist := g.dist, pred := g.pred, queue := [], front := 0 }

/-- State of `bfs` on entry to the `while` loop: `dist[start] = 0; queue[rear++] = start`. -/
def bfsInit (g : GridGraph) (start : Int) : BfsState :=
  let st := bfsReset g
  { st with dist := upd st.dist start 0, queue := st.queue ++ [start] }

/-- Method `bfs(start)`; the result is the graph with its scratch buffers overwritten. -/
def bfs (g : GridGraph) (start : Int) : Option GridGraph :=
  match bfsLoop g (g.total.toNat + 1) (bfsInit g start) with
  | none => none
  | some st => some { g with dist := st.dist, pred := st.pred }

/-- Method `getDistance(s, d)`; returns the distance and the graph after the query. -/
def getDistance (g : GridGraph) (s d : Int) : Option (Int × GridGraph) :=
  if s = d then some (0, g)
  else
    match bfs g s with
    | none => none
    | some g1 => some (g1.dist d, g1)

/-- The loop `while (curr != -1) { temp[tlen++] = curr; curr = pred[curr]; }` of `getPath`
on fuel: `none` when the fuel runs out before `curr` reaches `-1`. -/
def predWalk (pred : Int → Int) : Nat → Int → List Int → Option (List Int)
  | 0, curr, temp => if curr = -1 then some temp else none
  | fuel + 1, curr, temp =>
    if curr = -1 then some temp else predWalk pred fuel (pred curr) (temp ++ [curr])

/-- The copy loop of `getPath` (lines 124-127): `path[i] = temp[len - 1 - i]`. -/
def reverseCopy (temp : List Int) : List Int :=
  (List.range temp.length).map (fun i => temp.getD (temp.length - 1 - i) 0)

/-- Method `getPath(s, d, path, len)`; returns `path[0..len)` and the graph after the query. -/
def getPath (g : GridGraph) (s d : Int) : Option (List Int × GridGraph) :=
  if s = d then some ([s], g)
  else
    match bfs g s with
    | none => none
    | some g1 =>
      match predWalk g1.pred (g1.total.toNat + 1) d [] with
      | none => none
      | some temp => some (reverseCopy temp, g1)

/-! ## Data model -/

/-- The struct `Order`. -/
structure Order where
  name : String
  location : Int
  timeLimit : Int
  assigned : Bool
  deriving DecidableEq

/-- The struct `Restaurant`; `orders` is `orders[0..orderCount)`. -/
structure Restaurant where
  name : String
  location : Int
  orders : List Order
  deriving DecidableEq

instance : Inhabited Order := ⟨⟨"", 0, 0, false⟩⟩

instance : Inhabited Restaurant := ⟨⟨"", 0, []⟩⟩

/-- The struct `RouteStop`; the `name` of a stop with `isNamed = false` is never written by
the program and is modelled as the empty string. -/
structure RouteStop where
  location : Int
  name : String
  isNamed : Bool
  deriving DecidableEq

/-- A pointer `Order*` into `rests[rest].orders[idx]`. -/
structure OrderRef where
  rest : Nat
  idx : Nat
  deriving DecidableEq

instance : Inhabited OrderRef := ⟨⟨0, 0⟩⟩

/-- The local struct `OrdInfo` of `optimize`: a `Restaurant*` (index into `rests`) and an
`Order*`. -/
structure OrdInfo where
  rest : Nat
  order : OrderRef
  deriving DecidableEq

instance : Inhabited OrdInfo := ⟨⟨0, default⟩⟩

/-- The struct `Assign`. -/
structure Assign where
  rest : Nat
  order : OrderRef
  deriving DecidableEq

/-- Dereference of a `Restaurant*`. -/
def derefRest (rests : List Restaurant) (i : Nat) : Restaurant := rests.getD i default

/-- Dereference of an `Order*`. -/
def derefOrder (rests : List Restaurant) (p : OrderRef) : Order :=
  (derefRest rests p.rest).orders.getD p.idx default

/-- The write `ord->assigned = true`. -/
def setAssigned (rests : List Restaurant) (p : OrderRef) : List Restaurant :=
  let r := derefRest rests p.rest
  let o := derefOrder rests p
  rests.set p.rest { r with orders := r.orders.set p.idx { o with assigned := true } }

/-- Point update of a per-rider array. -/
def updAt {α : Type} (a : Nat → α) (i : Nat) (v : α) : Nat → α :=
  fun j => if j = i then v else a j

/-- Left fold whose step may fail. -/
def foldlOpt {σ α : Type} (f : σ → α → Option σ) : σ → List α → Option σ
  | s, [] => some s
  | s, a :: as =>
    match f s a with
    | none => none
    | some s1 => foldlOpt f s1 as

/-! ## RouteOptimizer -/

/-- The class `RouteOptimizer`.  `routes r` is `routes[r][0..routeLens[r])` and
`assignments r` is `assignments[r][0..assignCounts[r])`; `numRests` is `rests.length`. -/
structure RouteOptimizer where
  graph : GridGraph
  rests : List Restaurant
  numRiders : Nat
  routes : Nat → List RouteStop
  routeTimes : Nat → Int
  assignments : Nat → List Assign

/-- The constructor `RouteOptimizer(g, r, nr, nrid)`: all counters and times value-initialised
to zero. -/
def RouteOptimizer.new (g : GridGraph) (r : List Restaurant) (nrid : Nat) : RouteOptimizer :=
  { graph := g, rests := r, numRiders := nrid, routes := fun _ => [],
    routeTimes := fun _ => 0, assignments := fun _ => [] }

/-- The flattening loops of `optimize` (lines 196-202). -/
def flattenOrders (rests : List Restaurant) : List OrdInfo :=
  (List.range rests.length).flatMap (fun i =>
    (List.range (derefRest rests i).orders.length).map (fun j => ⟨i, ⟨i, j⟩⟩))

/-- The sort key `allOrds[j].order->timeLimit`. -/
def ordKey (rests : List Restaurant) (x : OrdInfo) : Int := (derefOrder rests x.order).timeLimit

/-- Body of the inner loop of the bubble sort (lines 207-211). -/
def bubbleStep (rests : List Restaurant) (a : List OrdInfo) (j : Nat) : List OrdInfo :=
  if ordKey rests (a.getD j default) > ordKey rests (a.getD (j + 1) default) then
    let temp := a.getD j default
    (a.set j (a.getD (j + 1) default)).set (j + 1) temp
  else a

/-- Iteration `i` of the outer loop of the bubble sort: `for (j = 0; j < numOrds - i - 1; j++)`. -/
def bubblePass (rests : List Restaurant) (a : List OrdInfo) (i : Nat) : List OrdInfo :=
  (List.range (a.length - i - 1)).foldl (bubbleStep rests) a

/-- The bubble sort of `optimize`: `for (i = 0; i < numOrds - 1; i++)`. -/
def bubbleSort (rests : List Restaurant) (a : List OrdInfo) : List OrdInfo :=
  (List.range (a.length - 1)).foldl (bubblePass rests) a

/-- The rider-selection loop (lines 223-231); the result is `bestRider`. -/
def selectRider (numRiders : Nat) (routeTimes : Nat → Int) : Nat :=
  ((List.range' 1 (numRiders - 1)).foldl
    (fun (acc : Nat × Int) (r : Nat) =>
      if routeTimes r < acc.2 then (r, routeTimes r) else acc)
    (0, routeTimes 0)).1

/-- Body of the assignment loop of `optimize` (lines 217-236). -/
def assignStep (ro : RouteOptimizer) (x : OrdInfo) : Option RouteOptimizer :=
  let rest := derefRest ro.rests x.rest
  let ord := derefOrder ro.rests x.order
  match getDistance ro.graph rest.location ord.location with
  | none => none
  | some (timeDist, g1) =>
    if timeDist > ord.timeLimit then some { ro with graph := g1 }
    else
      let bestRider := selectRider ro.numRiders ro.routeTimes
      some { ro with
        graph := g1
        assignments := updAt ro.assignments bestRider
          (ro.assignments bestRider ++ [⟨x.rest, x.order⟩])
        rests := setAssigned ro.rests x.order }

/-- The assignment loop of `optimize` over the sorted `allOrds`. -/
def assignLoop (ro : RouteOptimizer) (allOrds : List OrdInfo) : Option RouteOptimizer :=
  foldlOpt assignStep ro allOrds

/-- The arrays `uRests`, `rOrds` of `buildRoute`; `numUR` is `uRests.length` and
`rOrdCnts[i]` is the length of `rOrds[i]`. -/
structure Groups where
  uRests : List Nat
  rOrds : List (List OrderRef)

/-- The search loop of lines 259-265; `none` stands for `idx == -1`. -/
def findRest : List Nat → Nat → Option Nat
  | [], _ => none
  | r :: rs, rest => if r = rest then some 0 else (findRest rs rest).map (· + 1)

/-- Body of the grouping loop of `buildRoute` (lines 256-274). -/
def groupStep (gs : Groups) (a : Assign) : Groups :=
  match findRest gs.uRests a.rest with
  | some idx => { gs with rOrds := gs.rOrds.set idx (gs.rOrds.getD idx [] ++ [a.order]) }
  | none => { uRests := gs.uRests ++ [a.rest], rOrds := gs.rOrds ++ [[a.order]] }

/-- The grouping loop of `buildRoute`. -/
def groupAssignments (as : List Assign) : Groups := as.foldl groupStep ⟨[], []⟩

/-- Running state of a nearest-candidate scan: `nearIdx`/`nearOrd` (`none` for `-1`),
`minDist`/`minODist`, and the graph, whose scratch buffers each distance query overwrites. -/
structure Sel where
  nearIdx : Option Nat
  minDist : Int
  graph : GridGraph

/-- The local state of `buildRoute` shared by its loops: the graph, `curLoc`,
`routes[rid][0..routeLens[rid])` and `routeTimes[rid]`. -/
structure BuildState where
  graph : GridGraph
  curLoc : Int
  route : List RouteStop
  time : Int

/-- The stops appended for one leg: `path[1..plen)`, a stop being named exactly when its
location is the target location (lines 304-313 and 350-359). -/
def legStops (path : List Int) (target : Int) (name : String) : List RouteStop :=
  (path.drop 1).map (fun p => if p = target then ⟨p, name, true⟩ else ⟨p, "", false⟩)

/-- Body of the restaurant scan (lines 286-293) at index `j`. -/
def selectRestStep (rests : List Restaurant) (uRests : List Nat) (visited : Nat → Bool)
    (curLoc : Int) (acc : Sel) (j : Nat) : Option Sel :=
  if visited j then some acc
  else
    let q := if curLoc = 0 then some (0, acc.graph)
      else getDistance acc.graph curLoc (derefRest rests (uRests.getD j 0)).location
    match q with
    | none => none
    | some (d, g1) =>
      if d < acc.minDist then some ⟨some j, d, g1⟩ else some { acc with graph := g1 }

/-- Body of the order scan (lines 333-340) at index `k`. -/
def selectOrderStep (rests : List Restaurant) (ords : List OrderRef) (deliv : Nat → Bool)
    (curLoc : Int) (acc : Sel) (k : Nat) : Option Sel :=
  if deliv k then some acc
  else
    match getDistance acc.graph curLoc (derefOrder rests (ords.getD k default)).location with
    | none => none
    | some (d, g1) =>
      if d < acc.minDist then some ⟨some k, d, g1⟩ else some { acc with graph := g1 }

/-- The delivery loop of `buildRoute` at one restaurant (lines 329-365); the first argument
counts the remaining iterations of `for (j = 0; j < nOrds; j++)`. -/
def deliverLoop (rests : List Restaurant) (ords : List OrderRef) :
    Nat → (Nat → Bool) → BuildState → Option BuildState
  | 0, _, st => some st
  | j + 1, deliv, st =>
    match foldlOpt (selectOrderStep rests ords deliv st.curLoc) ⟨none, INT_MAX, st.graph⟩
        (List.range ords.length) with
    | none => none
    | some sel =>
      match sel.nearIdx with
      | none => some { st with graph := sel.graph }
      | some nearOrd =>
        let ord := derefOrder rests (ords.getD nearOrd default)
        match getPath sel.graph st.curLoc ord.location with
        | none => none
        | some (path, g2) =>
          deliverLoop rests ords j (updAt deliv nearOrd true)
            { graph := g2, curLoc := ord.location,
              route := st.route ++ legStops path ord.location ord.name,
              time := st.time + sel.minDist }

/-- The leg to the chosen restaurant (lines 299-321), up to but excluding `curLoc = ...`. -/
def restLeg (rest : Restaurant) (sel : Sel) (st : BuildState) : Option BuildState :=
  if st.curLoc ≠ 0 then
    match getPath sel.graph st.curLoc rest.location with
    | none => none
    | some (path, g2) =>
      some { graph := g2, curLoc := st.curLoc,
             route := st.route ++ legStops path rest.location rest.name,
             time := st.time + sel.minDist }
  else
    some { graph := sel.graph, curLoc := st.curLoc,
           route := st.route ++ [⟨rest.location, rest.name, true⟩], time := st.time }

/-- The restaurant loop of `buildRoute` (lines 282-366); the first argument counts the
remaining iterations of `for (i = 0; i < numUR; i++)`. -/
def restLoop (rests : List Restaurant) (gs : Groups) :
    Nat → (Nat → Bool) → BuildState → Option BuildState
  | 0, _, st => some st
  | i + 1, visited, st =>
    match foldlOpt (selectRestStep rests gs.uRests visited st.curLoc)
        ⟨none, INT_MAX, st.graph⟩ (List.range gs.uRests.length) with
    | none => none
    | some sel =>
      match sel.nearIdx with
      | none => some { st with graph := sel.graph }
      | some nearIdx =>
        let rest := derefRest rests (gs.uRests.getD nearIdx 0)
        match restLeg rest sel st with
        | none => none
        | some st1 =>
          let ords := gs.rOrds.getD nearIdx []
          match deliverLoop rests ords ords.length (fun _ => false)
              { st1 with curLoc := rest.location } with
          | none => none
          | some st2 => restLoop rests gs i (updAt visited nearIdx true) st2

/-- Method `buildRoute(rid)`. -/
def buildRoute (ro : RouteOptimizer) (rid : Nat) : Option RouteOptimizer :=
  let gs := groupAssignments (ro.assignments rid)
  match restLoop ro.rests gs gs.uRests.length (fun _ => false)
      { graph := ro.graph, curLoc := 0, route := [], time := 0 } with
  | none => none
  | some st =>
    some { ro with
      graph := st.graph
      routes := updAt ro.routes rid st.route
      routeTimes := updAt ro.routeTimes rid st.time }

/-- Body of the route-building loop of `optimize` (lines 242-246). -/
def buildStep (ro : RouteOptimizer) (i : Nat) : Option RouteOptimizer :=
  if (ro.assignments i).length > 0 then buildRoute ro i else some ro

/-- Method `optimize`. -/
def optimize (ro : RouteOptimizer) : Option RouteOptimizer :=
  let allOrds := bubbleSort ro.rests (flattenOrders ro.rests)
  match assignLoop ro allOrds with
  | none => none
  | some ro1 => foldlOpt buildStep ro1 (List.range ro1.numRiders)

/-! ## Input records and one test case of `main` -/

/-- One order record of the input file: name, location, time limit. -/
structure OrderInput where
  name : String
  location : Int
  timeLimit : Int

/-- One restaurant record of the input file with its order records. -/
structure RestaurantInput where
  name : String
  location : Int
  orders : List OrderInput

/-- The reading loops of `main` (lines 430-441): every order starts with `assigned = false`. -/
def readRestaurants (inp : List RestaurantInput) : List Restaurant :=
  inp.map (fun r =>
    { name := r.name, location := r.location,
      orders := r.orders.map (fun o =>
        { name := o.name, location := o.location, timeLimit := o.timeLimit,
          assigned := false }) })

/-- One test case of `main`: build the graph (scratch buffers initially `d0`, `p0`), read the
restaurants, construct the optimizer and run `optimize`. -/
def runTestCase (gridSz : Int) (numRid : Nat) (inp : List RestaurantInput)
    (d0 p0 : Int → Int) : Option RouteOptimizer :=
  optimize (RouteOptimizer.new (GridGraph.init gridSz d0 p0) (readRestaurants inp) numRid)

/-! ## Specification-side notions -/

/-- A node id is valid for a graph with `total` nodes when it lies in `[1, total]`. -/
def ValidNode (total v : Int) : Prop := 1 ≤ v ∧ v ≤ total

instance (total v : Int) : Decidable (ValidNode total v) := by
  unfold ValidNode; infer_instance

/-- Manhattan distance between two node ids on the `n × n` grid, with
`row(id) = (id-1)/n` and `col(id) = (id-1)%n`. -/
def manhattan (n a b : Int) : Int :=
  |rowOf n a - rowOf n b| + |colOf n a - colOf n b|

/-- Two node ids are grid-adjacent: same row and columns differing by one, or same column and
rows differing by one. -/
def GridAdjacent (n a b : Int) : Prop :=
  (rowOf n a = rowOf n b ∧ |colOf n a - colOf n b| = 1) ∨
  (colOf n a = colOf n b ∧ |rowOf n a - rowOf n b| = 1)

instance (n a b : Int) : Decidable (GridAdjacent n a b) := by
  unfold GridAdjacent; infer_instance

/-- The writes made by iteration `node` of `createGraph` touch the matrix cell `(u, v)`. -/
def EdgeFrom (size node u v : Int) : Prop :=
  (colOf size node < size - 1 ∧ ((u = node ∧ v = node + 1) ∨ (u = node + 1 ∧ v = node))) ∨
  (rowOf size node < size - 1 ∧ ((u = node ∧ v = node + size) ∨ (u = node + size ∧ v = node)))

/-! ## Invariants used in the analysis of `bfs` -/

/-- A level function for source `s`: zero at `s`, changing by exactly one along every edge,
and every other valid node has a neighbour one level lower. -/
structure Levels (g : GridGraph) (s : Int) (m : Int → Int) : Prop where
  src : ValidNode g.total s
  zero : m s = 0
  nonneg : ∀ v, ValidNode g.total v → 0 ≤ m v
  step : ∀ u v, ValidNode g.total u → ValidNode g.total v → g.adj u v = 1 →
    m v = m u + 1 ∨ m u = m v + 1
  parent : ∀ v, ValidNode g.total v → v ≠ s →
    ∃ w, ValidNode g.total w ∧ g.adj w v = 1 ∧ m w + 1 = m v

/-- The part of the loop invariant of `bfs` that speaks about the queue as a whole. -/
structure BfsCore (g : GridGraph) (s : Int) (m : Int → Int) (q : List Int)
    (dist pred : Int → Int) : Prop where
  valid : ∀ v ∈ q, ValidNode g.total v
  nodup : q.Nodup
  vis : ∀ v, ValidNode g.total v → dist v ≠ -1 → v ∈ q
  distEq : ∀ v ∈ q, dist v = m v
  sorted : q.Pairwise (fun a b => m a ≤ m b)
  src : s ∈ q
  predS : pred s = -1
  predOk : ∀ v ∈ q, v ≠ s →
    ValidNode g.total (pred v) ∧ g.adj (pred v) v = 1 ∧ m (pred v) + 1 = m v

/-- Invariant of the inner scan of `bfs` while node `u` is being expanded; `d0` is the part of
the queue popped before `u`, and `P` the set of indices `i` already scanned. -/
structure ScanInv (g : GridGraph) (s : Int) (m : Int → Int) (u : Int) (d0 : List Int)
    (P : Int → Prop) (st : BfsState) : Prop where
  decomp : ∃ pend, st.queue = d0 ++ u :: pend
  front : st.front = d0.length + 1
  core : BfsCore g s m st.queue st.dist st.pred
  span : ∀ v ∈ st.queue, m v ≤ m u + 1
  low : ∀ v, ValidNode g.total v → m v ≤ m u → v ∈ st.queue
  doneAdj : ∀ w ∈ d0, ∀ v, ValidNode g.total v → g.adj w v = 1 → v ∈ st.queue
  scanned : ∀ v, P v → ValidNode g.total v → g.adj u v = 1 → v ∈ st.queue

/-- Invariant of the `while` loop of `bfs`. -/
structure LoopInv (g : GridGraph) (s : Int) (m : Int → Int) (st : BfsState) : Prop where
  front_le : st.front ≤ st.queue.length
  core : BfsCore g s m st.queue st.dist st.pred
  span : ∀ u, st.queue[st.front]? = some u → ∀ v ∈ st.queue, m v ≤ m u + 1
  low : ∀ u, st.queue[st.front]? = some u →
    ∀ v, ValidNode g.total v → m v ≤ m u → v ∈ st.queue
  doneAdj : ∀ w ∈ st.queue.take st.front,
    ∀ v, ValidNode g.total v → g.adj w v = 1 → v ∈ st.queue

/-- The graph `g` is the `n × n` grid built by the constructor, whatever its scratch buffers
currently hold. -/
def IsGrid (n : Int) (g : GridGraph) : Prop :=
  g.size = n ∧ g.total = n * n ∧ g.adj = createGraph n (n * n) (fun _ _ => 0)

/-- One bubble pass of `k` adjacent comparisons, written by recursion on the list; used to
analyse `bubblePass`. -/
def bubbleRec {α : Type} (key : α → Int) : Nat → List α → List α
  | 0, l => l
  | _ + 1, [] => []
  | _ + 1, [x] => [x]
  | k + 1, x :: y :: r =>
    if key x > key y then y :: bubbleRec key k (x :: r) else x :: bubbleRec key k (y :: r)

/-- Invariant of the `while` loop of `bfs` that holds for every graph and every start value:
behind its first cell the queue holds distinct valid nodes, and queued nodes have a
non-negative `dist`. -/
structure QueueInv (g : GridGraph) (st : BfsState) : Prop where
  shape : ∃ hd tl, st.queue = hd :: tl ∧ tl.Nodup ∧ ∀ v ∈ tl, ValidNode g.total v
  distNonneg : ∀ v ∈ st.queue, 0 ≤ st.dist v

/-! ## Specification-side notions for the optimizer -/

/-- The order pointer `p` points at an existing order of `rests`. -/
def InRange (rests : List Restaurant) (p : OrderRef) : Prop :=
  p.rest < rests.length ∧ p.idx < (derefRest rests p.rest).orders.length

instance (rests : List Restaurant) (p : OrderRef) : Decidable (InRange rests p) := by
  unfold InRange; infer_instance

/-- Two restaurant arrays agree on everything except the `assigned` flags. -/
structure SameData (r1 r2 : List Restaurant) : Prop where
  len : r2.length = r1.length
  restLoc : ∀ i, (derefRest r2 i).location = (derefRest r1 i).location
  restName : ∀ i, (derefRest r2 i).name = (derefRest r1 i).name
  ordLen : ∀ i, (derefRest r2 i).orders.length = (derefRest r1 i).orders.length
  ordLoc : ∀ q, (derefOrder r2 q).location = (derefOrder r1 q).location
  ordTime : ∀ q, (derefOrder r2 q).timeLimit = (derefOrder r1 q).timeLimit
  ordName : ∀ q, (derefOrder r2 q).name = (derefOrder r1 q).name

/-- The order of entry `x` is feasible: the Manhattan distance from its restaurant to its
location does not exceed its time limit. -/
def Feasible (n : Int) (rests : List Restaurant) (x : OrdInfo) : Prop :=
  manhattan n (derefRest rests x.rest).location (derefOrder rests x.order).location ≤
    (derefOrder rests x.order).timeLimit

instance (n : Int) (rests : List Restaurant) (x : OrdInfo) : Decidable (Feasible n rests x) := by
  unfold Feasible; infer_instance

/-- The entry `x` of `allOrds` as the `Assign` record written for it. -/
def toAssign (x : OrdInfo) : Assign := ⟨x.rest, x.order⟩

/-- Entry `x` points at an existing order of its own restaurant, and both locations are valid
nodes of the `n × n` grid. -/
def EntryOK (n : Int) (rests : List Restaurant) (x : OrdInfo) : Prop :=
  x.rest = x.order.rest ∧ InRange rests x.order ∧
    ValidNode (n * n) (derefRest rests x.rest).location ∧
    ValidNode (n * n) (derefOrder rests x.order).location

/-- A valid test case: grid size at least one, at least one rider, and every location of the
input inside `[1, gridSz * gridSz]`. -/
def ValidInput (gridSz : Int) (numRid : Nat) (inp : List RestaurantInput) : Prop :=
  1 ≤ gridSz ∧ 1 ≤ numRid ∧
    ∀ r ∈ inp, ValidNode (gridSz * gridSz) r.location ∧
      ∀ o ∈ r.orders, ValidNode (gridSz * gridSz) o.location

/-- Both locations referenced by a pending entry are valid nodes of the `n × n` grid. -/
def AssignOK (n : Int) (rests : List Restaurant) (a : Assign) : Prop :=
  ValidNode (n * n) (derefRest rests a.rest).location ∧
    ValidNode (n * n) (derefOrder rests a.order).location

/-- All restaurants and orders referenced by the groups of `buildRoute` have valid locations
on the `n × n` grid. -/
def GroupsOK (n : Int) (rests : List Restaurant) (gs : Groups) : Prop :=
  (∀ r ∈ gs.uRests, ValidNode (n * n) (derefRest rests r).location) ∧
    (∀ os ∈ gs.rOrds, ∀ p ∈ os, ValidNode (n * n) (derefOrder rests p).location)

instance (gridSz : Int) (numRid : Nat) (inp : List RestaurantInput) :
    Decidable (ValidInput gridSz numRid inp) := by
  unfold ValidInput; infer_instance

/-- Every restaurant and order location of `rests` is a valid node of the `n × n` grid. -/
def RestsValid (n : Int) (rests : List Restaurant) : Prop :=
  ∀ r ∈ rests, ValidNode (n * n) r.location ∧ ∀ o ∈ r.orders, ValidNode (n * n) o.location

/-- A sample optimizer state after the assignment pass: 3 × 3 grid, one rider, restaurant `R1`
at node 5 with the order `O1` at node 9 pending for rider 0. -/
def sampleOptimizer : RouteOptimizer :=
  { RouteOptimizer.new (GridGraph.new 3) (readRestaurants [⟨"R1", 5, [⟨"O1", 9, 10⟩]⟩]) 1 with
    assignments := fun _ => [⟨0, ⟨0, 0⟩⟩] }

/-! ## Specification-side notions for the route builder -/

instance (n : Int) (rests : List Restaurant) (a : Assign) : Decidable (AssignOK n rests a) := by
  unfold AssignOK; infer_instance

/-- An input within the declared capacities that fills rider 0's pending list beyond
`MAX_ORD`: 1 × 1 grid, two restaurants at node 1, with 100 orders and 1 order, all at node 1
with deadline 0. -/
def overflowInput : List RestaurantInput :=
  [⟨"R1", 1, List.replicate 100 ⟨"O", 1, 0⟩⟩, ⟨"R2", 1, [⟨"P", 1, 0⟩]⟩]

/-- The input of the late-delivery scenario: restaurant `R1` at node 1 with the orders `O1` at
node 3 and `O2` at node 7, both with deadline 2. -/
def lateInput : List RestaurantInput :=
  [⟨"R1", 1, [⟨"O1", 3, 2⟩, ⟨"O2", 7, 2⟩]⟩]

/-- Two states of the `while` loop of `bfs` on a graph with `total` nodes agree on everything
the loop can read: the queue, `front`, and `dist`/`pred` on the cells `0..total` and on the
queued nodes. -/
structure BufAgree (total : Int) (st st1 : BfsState) : Prop where
  queue : st.queue = st1.queue
  front : st.front = st1.front
  onRange : ∀ v, 0 ≤ v → v ≤ total → st.dist v = st1.dist v ∧ st.pred v = st1.pred v
  onQueue : ∀ v ∈ st.queue, st.dist v = st1.dist v

/-- The value `getDistance(a, b)` returns on the `n × n` grid graph (`-1` if the query does
not return). -/
def gridDist (n a b : Int) : Int :=
  match getDistance (GridGraph.new n) a b with
  | some (d, _) => d
  | none => -1

/-- The path `getPath(a, b)` returns on the `n × n` grid graph (empty if the query does not
return). -/
def gridPath (n a b : Int) : List Int :=
  match getPath (GridGraph.new n) a b with
  | some (p, _) => p
  | none => []

/-- Location of the restaurant of group `r` of `buildRoute`: `uRests[r]->location`. -/
def restLocOf (rests : List Restaurant) (gs : Groups) (r : Nat) : Int :=
  (derefRest rests (gs.uRests.getD r 0)).location

/-- Name of the restaurant of group `r` of `buildRoute`: `uRests[r]->name`. -/
def restNameOf (rests : List Restaurant) (gs : Groups) (r : Nat) : String :=
  (derefRest rests (gs.uRests.getD r 0)).name

/-- Location of the `k`-th pending order of a group: `rOrds[r][k]->location`. -/
def ordLocOf (rests : List Restaurant) (ords : List OrderRef) (k : Nat) : Int :=
  (derefOrder rests (ords.getD k default)).location

/-- Name of the `k`-th pending order of a group: `rOrds[r][k]->name`. -/
def ordNameOf (rests : List Restaurant) (ords : List OrderRef) (k : Nat) : String :=
  (derefOrder rests (ords.getD k default)).name

/-- Among the indices below `n` that are not yet done, `k` has the least value of `d`, and it
is the lowest index with that value. -/
def NearestFirst (d : Nat → Int) (done : Nat → Bool) (n k : Nat) : Prop :=
  k < n ∧ done k = false ∧ (∀ j, j < n → done j = false → d k ≤ d j) ∧
    (∀ j, j < k → done j = false → d k < d j)

/-- Stops appended when the pending orders `order` of one restaurant are delivered in this
sequence starting at `cur`: for each order the path from the current location to the order's
location without its first node, then on from the order's location. -/
def orderLegs (n : Int) (rests : List Restaurant) (ords : List OrderRef) :
    Int → List Nat → List RouteStop
  | _, [] => []
  | cur, k :: ks =>
    legStops (gridPath n cur (ordLocOf rests ords k)) (ordLocOf rests ords k)
        (ordNameOf rests ords k) ++
      orderLegs n rests ords (ordLocOf rests ords k) ks

/-- Time accumulated when the orders `order` are delivered in this sequence starting at
`cur`: the sum of the distances of the successive legs. -/
def orderTime (n : Int) (rests : List Restaurant) (ords : List OrderRef) :
    Int → List Nat → Int
  | _, [] => 0
  | cur, k :: ks =>
    gridDist n cur (ordLocOf rests ords k) + orderTime n rests ords (ordLocOf rests ords k) ks

/-- Location reached after the orders `order` are delivered in this sequence from `cur`. -/
def orderEnd (rests : List Restaurant) (ords : List OrderRef) : Int → List Nat → Int
  | cur, [] => cur
  | _, k :: ks => orderEnd rests ords (ordLocOf rests ords k) ks

/-- Every order of the sequence is, at its turn, the nearest undelivered order from the current
location, ties going to the lowest index. -/
def GreedyOrders (n : Int) (rests : List Restaurant) (ords : List OrderRef) :
    (Nat → Bool) → Int → List Nat → Prop
  | _, _, [] => True
  | deliv, cur, k :: ks =>
    NearestFirst (fun j => gridDist n cur (ordLocOf rests ords j)) deliv ords.length k ∧
      GreedyOrders n rests ords (updAt deliv k true) (ordLocOf rests ords k) ks

/-- Stops appended by a tour that starts at the real location `cur`: for each visited group
`(r, os)` the leg to restaurant `r`, then the legs of its orders `os`. -/
def tourFromStops (n : Int) (rests : List Restaurant) (gs : Groups) :
    Int → List (Nat × List Nat) → List RouteStop
  | _, [] => []
  | cur, p :: t =>
    legStops (gridPath n cur (restLocOf rests gs p.1)) (restLocOf rests gs p.1)
        (restNameOf rests gs p.1) ++
      (orderLegs n rests (gs.rOrds.getD p.1 []) (restLocOf rests gs p.1) p.2 ++
        tourFromStops n rests gs
          (orderEnd rests (gs.rOrds.getD p.1 []) (restLocOf rests gs p.1) p.2) t)

/-- Time accumulated by a tour that starts at the real location `cur`. -/
def tourFromTime (n : Int) (rests : List Restaurant) (gs : Groups) :
    Int → List (Nat × List Nat) → Int
  | _, [] => 0
  | cur, p :: t =>
    gridDist n cur (restLocOf rests gs p.1) +
      (orderTime n rests (gs.rOrds.getD p.1 []) (restLocOf rests gs p.1) p.2 +
        tourFromTime n rests gs
          (orderEnd rests (gs.rOrds.getD p.1 []) (restLocOf rests gs p.1) p.2) t)

/-- The route of a whole tour from the depot: the first restaurant's labelled stop, its order
legs, then the rest of the tour. -/
def tourStops (n : Int) (rests : List Restaurant) (gs : Groups) :
    List (Nat × List Nat) → List RouteStop
  | [] => []
  | p :: t =>
    ⟨restLocOf rests gs p.1, restNameOf rests gs p.1, true⟩ ::
      (orderLegs n rests (gs.rOrds.getD p.1 []) (restLocOf rests gs p.1) p.2 ++
        tourFromStops n rests gs
          (orderEnd rests (gs.rOrds.getD p.1 []) (restLocOf rests gs p.1) p.2) t)

/-- The total time of a whole tour from the depot: reaching the first restaurant costs
nothing. -/
def tourTime (n : Int) (rests : List Restaurant) (gs : Groups) :
    List (Nat × List Nat) → Int
  | [] => 0
  | p :: t =>
    orderTime n rests (gs.rOrds.getD p.1 []) (restLocOf rests gs p.1) p.2 +
      tourFromTime n rests gs
        (orderEnd rests (gs.rOrds.getD p.1 []) (restLocOf rests gs p.1) p.2) t

/-- Every group of the tour is, at its turn, the nearest unvisited restaurant from the current
location (the location of the last order delivered), ties going to the lowest group index. -/
def GreedyRests (n : Int) (rests : List Restaurant) (gs : Groups) :
    (Nat → Bool) → Int → List (Nat × List Nat) → Prop
  | _, _, [] => True
  | visited, cur, p :: t =>
    NearestFirst (fun j => gridDist n cur (restLocOf rests gs j)) visited gs.uRests.length p.1 ∧
      GreedyRests n rests gs (updAt visited p.1 true)
        (orderEnd rests (gs.rOrds.getD p.1 []) (restLocOf rests gs p.1) p.2) t

/-- A walk on the grid from `a` through the nodes of the list to `b`: consecutive nodes are
grid-adjacent, all nodes of the list are valid, and the last node is `b`. -/
def IsWalk (n : Int) : Int → List Int → Int → Prop
  | a, [], b => a = b
  | a, x :: xs, b => GridAdjacent n a x ∧ ValidNode (n * n) x ∧ IsWalk n x xs b

/-- The indices below `len` that are not yet done, in increasing order. -/
def pendingIdx (done : Nat → Bool) (len : Nat) : List Nat :=
  (List.range len).filter (fun k => !done k)

/-- Facts about one visited group `p = (r, os)` of a tour: `r` is a group, `os` are indices of
its pending orders, chosen nearest-first from the restaurant's location, and, when
`n * n ≤ INT_MAX`, every pending order of the group occurs in `os` exactly once. -/
def GroupVisit (n : Int) (rests : List Restaurant) (gs : Groups) (p : Nat × List Nat) : Prop :=
  p.1 < gs.uRests.length ∧ (∀ k ∈ p.2, k < (gs.rOrds.getD p.1 []).length) ∧
    GreedyOrders n rests (gs.rOrds.getD p.1 []) (fun _ => false) (restLocOf rests gs p.1) p.2 ∧
    (n * n ≤ INT_MAX → p.2.Perm (List.range (gs.rOrds.getD p.1 []).length))


/-- One leg of a route: the location it starts from (`currentLocation` when the leg is
appended), and the location and name of its destination. -/
structure Leg where
  src : Int
  dst : Int
  name : String

/-- The stops of one leg: `getPath(src, dst)` on the `n × n` grid, turned into stops by the
labelling loop of `buildRoute`. -/
def legRoute (n : Int) (l : Leg) : List RouteStop :=
  legStops (gridPath n l.src l.dst) l.dst l.name

/-- The legs toward the orders `order` of one restaurant, delivered in this sequence from
`cur`. -/
def orderLegList (rests : List Restaurant) (ords : List OrderRef) : Int → List Nat → List Leg
  | _, [] => []
  | cur, k :: ks =>
    ⟨cur, ordLocOf rests ords k, ordNameOf rests ords k⟩ ::
      orderLegList rests ords (ordLocOf rests ords k) ks

/-- The legs of a tour that starts at the real location `cur`. -/
def tourFromLegList (rests : List Restaurant) (gs : Groups) :
    Int → List (Nat × List Nat) → List Leg
  | _, [] => []
  | cur, p :: t =>
    ⟨cur, restLocOf rests gs p.1, restNameOf rests gs p.1⟩ ::
      (orderLegList rests (gs.rOrds.getD p.1 []) (restLocOf rests gs p.1) p.2 ++
        tourFromLegList rests gs
          (orderEnd rests (gs.rOrds.getD p.1 []) (restLocOf rests gs p.1) p.2) t)

/-- The legs of a whole tour from the depot, in the sequence they are appended: the first
restaurant is reached without a leg. -/
def tourLegList (rests : List Restaurant) (gs : Groups) : List (Nat × List Nat) → List Leg
  | [] => []
  | p :: t =>
    orderLegList rests (gs.rOrds.getD p.1 []) (restLocOf rests gs p.1) p.2 ++
      tourFromLegList rests gs
        (orderEnd rests (gs.rOrds.getD p.1 []) (restLocOf rests gs p.1) p.2) t

/-- The restaurants of the sample state `tourOptimizer`: on the 3 × 3 grid, `R1` at node 1
with the orders `A` at node 2 and `B` at node 4 (both at distance 1 from `R1`), `R2` at node 9
with the order `C` at node 7, `R3` at node 3 with the order `D` at node 2, and `R4` at node 5
with the order `E` at node 6 (from where `R2` and `R3` are both at distance 1). -/
def tourInput : List RestaurantInput :=
  [⟨"R1", 1, [⟨"A", 2, 10⟩, ⟨"B", 4, 12⟩]⟩, ⟨"R2", 9, [⟨"C", 7, 11⟩]⟩,
    ⟨"R3", 3, [⟨"D", 2, 13⟩]⟩, ⟨"R4", 5, [⟨"E", 6, 14⟩]⟩]

/-- A sample optimizer state after the assignment pass with several restaurants, several
orders and ties: 3 × 3 grid, one rider, the restaurants of `tourInput`, and all five orders
pending for rider 0 in the sequence of their deadlines `A, C, B, D, E`, so that the groups are
`R1: [A, B]`, `R2: [C]`, `R3: [D]`, `R4: [E]`. -/
def tourOptimizer : RouteOptimizer :=
  { RouteOptimizer.new (GridGraph.new 3) (readRestaurants tourInput) 1 with
    assignments := fun _ =>
      [⟨0, ⟨0, 0⟩⟩, ⟨1, ⟨1, 0⟩⟩, ⟨0, ⟨0, 1⟩⟩, ⟨2, ⟨2, 0⟩⟩, ⟨3, ⟨3, 0⟩⟩] }
/-! ## Lemmas: ranges and point updates -/

theorem mem_intRange (lo hi x : Int) : x ∈ intRange lo hi ↔ lo ≤ x ∧ x ≤ hi := by
  unfold intRange
  simp only [List.mem_map, List.mem_range]
  constructor
  · rintro ⟨k, hk, rfl⟩
    omega
  · rintro ⟨h1, h2⟩
    exact ⟨(x - lo).toNat, by omega, by omega⟩

theorem upd_same (a : Int → Int) (i v : Int) : upd a i v i = v := by simp [upd]

theorem upd_other (a : Int → Int) (i v j : Int) (h : j ≠ i) : upd a i v j = a j := by
  simp [upd, h]

/-- A duplicate-free list of integers inside `[1, t]` has at most `t` elements. -/
theorem length_le_of_nodup_valid (l : List Int) (t : Int) (hn : l.Nodup)
    (hv : ∀ v ∈ l, ValidNode t v) : l.length ≤ t.toNat := by
  have h1 : l.toFinset ⊆ Finset.Icc 1 t := by
    intro x hx
    rw [List.mem_toFinset] at hx
    rw [Finset.mem_Icc]
    exact hv x hx
  have h2 := Finset.card_le_card h1
  rw [List.toFinset_card_of_nodup hn, Int.card_Icc] at h2
  omega

/-! ## Lemmas: the adjacency matrix built by `createGraph` -/

theorem createGraphStep_eq_one (size : Int) (adj : Int → Int → Int) (node u v : Int) :
    createGraphStep size adj node u v = 1 ↔ adj u v = 1 ∨ EdgeFrom size node u v := by
  unfold createGraphStep EdgeFrom upd2
  by_cases hc : colOf size node < size - 1 <;> by_cases hr : rowOf size node < size - 1 <;>
    simp only [hc, hr, if_true, if_false, true_and, false_and, or_false, false_or]
  · by_cases h1 : u = node ∧ v = node + size
    · simp [h1]
    · by_cases h2 : u = node + size ∧ v = node
      · simp [h2]
      · by_cases h3 : u = node ∧ v = node + 1
        · simp [h3]
        · by_cases h4 : u = node + 1 ∧ v = node
          · simp [h4]
          · simp [h1, h2, h3, h4]
  · by_cases h3 : u = node ∧ v = node + 1
    · simp [h3]
    · by_cases h4 : u = node + 1 ∧ v = node
      · simp [h4]
      · simp [h3, h4]
  · by_cases h1 : u = node ∧ v = node + size
    · simp [h1]
    · by_cases h2 : u = node + size ∧ v = node
      · simp [h2]
      · simp [h1, h2]

theorem foldl_createGraphStep_eq_one (size : Int) (l : List Int) (adj : Int → Int → Int)
    (u v : Int) :
    l.foldl (createGraphStep size) adj u v = 1 ↔
      adj u v = 1 ∨ ∃ node ∈ l, EdgeFrom size node u v := by
  induction l generalizing adj with
  | nil => simp
  | cons x xs ih =>
    rw [List.foldl_cons, ih, createGraphStep_eq_one]
    simp only [List.mem_cons, exists_eq_or_imp]
    tauto

/-- Characterisation of the matrix of a freshly constructed graph. -/
theorem adj_eq_one_iff (n : Int) (d0 p0 : Int → Int) (u v : Int) :
    (GridGraph.init n d0 p0).adj u v = 1 ↔
      ∃ node, ValidNode (n * n) node ∧ EdgeFrom n node u v := by
  unfold GridGraph.init createGraph
  simp only
  rw [foldl_createGraphStep_eq_one]
  simp [mem_intRange, ValidNode]

/-! ## Lemmas: row and column coordinates -/

theorem coords_of_valid (n v : Int) (hn : 1 ≤ n) (hv : ValidNode (n * n) v) :
    0 ≤ rowOf n v ∧ rowOf n v < n ∧ 0 ≤ colOf n v ∧ colOf n v < n ∧
      v = rowOf n v * n + colOf n v + 1 := by
  obtain ⟨h1, h2⟩ := hv
  have hv0 : 0 ≤ v - 1 := by omega
  have hn0 : (0 : Int) ≤ n := by omega
  have hnpos : (0 : Int) < n := by omega
  unfold rowOf colOf
  rw [Int.tdiv_eq_ediv hv0 hn0, Int.tmod_eq_emod hv0 hn0]
  have e := Int.ediv_add_emod (v - 1) n
  have hm1 := Int.emod_nonneg (v - 1) (show n ≠ 0 by omega)
  have hm2 := Int.emod_lt_of_pos (v - 1) hnpos
  have hd1 : 0 ≤ (v - 1) / n := Int.ediv_nonneg hv0 hn0
  have hd2 : (v - 1) / n < n := Int.ediv_lt_of_lt_mul hnpos (by omega)
  refine ⟨hd1, hd2, hm1, hm2, ?_⟩
  have : n * ((v - 1) / n) = (v - 1) / n * n := mul_comm _ _
  omega

theorem coords_of_node (n r c : Int) (hr : 0 ≤ r) (hc0 : 0 ≤ c) (hc : c < n) :
    rowOf n (r * n + c + 1) = r ∧ colOf n (r * n + c + 1) = c := by
  have hn0 : (0 : Int) ≤ n := by omega
  have hrn : 0 ≤ r * n := mul_nonneg hr hn0
  have hv0 : 0 ≤ r * n + c + 1 - 1 := by omega
  unfold rowOf colOf
  rw [Int.tdiv_eq_ediv hv0 hn0, Int.tmod_eq_emod hv0 hn0]
  have e : r * n + c + 1 - 1 = c + r * n := by ring
  rw [e]
  constructor
  · rw [Int.add_mul_ediv_right _ _ (show n ≠ 0 by omega), Int.ediv_eq_zero_of_lt hc0 hc]
    simp
  · rw [Int.add_mul_emod_self, Int.emod_eq_of_lt hc0 hc]

theorem valid_of_coords (n r c : Int) (hr : 0 ≤ r) (hrn : r < n) (hc0 : 0 ≤ c) (hc : c < n) :
    ValidNode (n * n) (r * n + c + 1) := by
  have h1 : 0 ≤ r * n := mul_nonneg hr (by omega)
  have h2 : (r + 1) * n ≤ n * n := by
    apply mul_le_mul_of_nonneg_right <;> omega
  have h3 : (r + 1) * n = r * n + n := by ring
  constructor <;> omega

/-! ## Lemmas: correctness of `bfs` for a graph with a level function -/

theorem mem_of_getElem?_eq_some {α : Type} {l : List α} {i : Nat} {a : α}
    (h : l[i]? = some a) : a ∈ l := by
  rw [List.getElem?_eq_some] at h
  obtain ⟨hi, rfl⟩ := h
  exact List.getElem_mem hi

theorem scanStep_inv (g : GridGraph) (s : Int) (m : Int → Int) (L : Levels g s m)
    (u : Int) (d0 : List Int) (P : Int → Prop) (st : BfsState) (i : Int)
    (hi : ValidNode g.total i) (h : ScanInv g s m u d0 P st) :
    ScanInv g s m u d0 (fun v => P v ∨ v = i) (scanStep g.adj u st i) := by
  obtain ⟨pend, hq⟩ := h.decomp
  have hu : u ∈ st.queue := by rw [hq]; simp
  have huv : ValidNode g.total u := h.core.valid u hu
  unfold scanStep
  by_cases hc : g.adj u i = 1 ∧ st.dist i = -1
  · rw [if_pos hc]
    obtain ⟨hadj, hdi⟩ := hc
    have hiq : i ∉ st.queue := by
      intro hmem
      have := h.core.distEq i hmem
      have := L.nonneg i hi
      omega
    have hmi : m i = m u + 1 := by
      rcases L.step u i huv hi hadj with h1 | h1
      · exact h1
      · exact absurd (h.low i hi (by omega)) hiq
    have hdu : st.dist u = m u := h.core.distEq u hu
    have his : i ≠ s := fun e => hiq (e ▸ h.core.src)
    refine ⟨⟨pend ++ [i], by simp [hq]⟩, h.front, ?_, ?_, ?_, ?_, ?_⟩ <;> dsimp only
    · refine ⟨?_, ?_, ?_, ?_, ?_, ?_, ?_, ?_⟩
      · intro v hv
        rcases List.mem_append.1 hv with hv | hv
        · exact h.core.valid v hv
        · rw [List.mem_singleton.1 hv]; exact hi
      · rw [List.nodup_append]
        refine ⟨h.core.nodup, List.nodup_singleton i, ?_⟩
        intro x hx hx2
        rw [List.mem_singleton.1 hx2] at hx
        exact hiq hx
      · intro v hv hd
        by_cases e : v = i
        · simp [e]
        · rw [upd_other _ _ _ _ e] at hd
          exact List.mem_append_left _ (h.core.vis v hv hd)
      · intro v hv
        rcases List.mem_append.1 hv with hv | hv
        · have e : v ≠ i := fun e => hiq (e ▸ hv)
          rw [upd_other _ _ _ _ e]
          exact h.core.distEq v hv
        · rw [List.mem_singleton.1 hv, upd_same, hdu, hmi]
      · rw [List.pairwise_append]
        refine ⟨h.core.sorted, List.pairwise_singleton _ _, ?_⟩
        intro a ha b hb
        rw [List.mem_singleton.1 hb, hmi]
        exact h.span a ha
      · exact List.mem_append_left _ h.core.src
      · rw [upd_other _ _ _ _ (Ne.symm his)]
        exact h.core.predS
      · intro v hv hvs
        rcases List.mem_append.1 hv with hv | hv
        · have e : v ≠ i := fun e => hiq (e ▸ hv)
          rw [upd_other _ _ _ _ e]
          exact h.core.predOk v hv hvs
        · rw [List.mem_singleton.1 hv, upd_same]
          exact ⟨huv, hadj, by omega⟩
    · intro v hv
      rcases List.mem_append.1 hv with hv | hv
      · exact h.span v hv
      · rw [List.mem_singleton.1 hv]; omega
    · intro v hv hm
      exact List.mem_append_left _ (h.low v hv hm)
    · intro w hw v hv ha
      exact List.mem_append_left _ (h.doneAdj w hw v hv ha)
    · intro v hp hv ha
      rcases hp with hp | hp
      · exact List.mem_append_left _ (h.scanned v hp hv ha)
      · rw [hp]; simp
  · rw [if_neg hc]
    refine ⟨h.decomp, h.front, h.core, h.span, h.low, h.doneAdj, ?_⟩
    intro v hp hv ha
    rcases hp with hp | hp
    · exact h.scanned v hp hv ha
    · subst hp
      have hd : st.dist v ≠ -1 := fun hd => hc ⟨ha, hd⟩
      exact h.core.vis v hv hd

theorem scanInv_mono (g : GridGraph) (s : Int) (m : Int → Int) (u : Int) (d0 : List Int)
    (P Q : Int → Prop) (st : BfsState) (hPQ : ∀ v, Q v → P v)
    (h : ScanInv g s m u d0 P st) : ScanInv g s m u d0 Q st :=
  ⟨h.decomp, h.front, h.core, h.span, h.low, h.doneAdj,
    fun v hq hv ha => h.scanned v (hPQ v hq) hv ha⟩

theorem scanFold_inv (g : GridGraph) (s : Int) (m : Int → Int) (L : Levels g s m)
    (u : Int) (d0 : List Int) (l : List Int) (hl : ∀ i ∈ l, ValidNode g.total i)
    (P : Int → Prop) (st : BfsState) (h : ScanInv g s m u d0 P st) :
    ScanInv g s m u d0 (fun v => P v ∨ v ∈ l) (l.foldl (scanStep g.adj u) st) := by
  induction l generalizing P st with
  | nil => exact scanInv_mono g s m u d0 P _ st (by simp) h
  | cons x xs ih =>
    rw [List.foldl_cons]
    have h1 := scanStep_inv g s m L u d0 P st x (hl x (by simp)) h
    have h2 := ih (fun i hi => hl i (List.mem_cons_of_mem _ hi)) _ _ h1
    refine scanInv_mono g s m u d0 _ _ _ ?_ h2
    intro v hv
    simp only [List.mem_cons] at hv
    tauto

theorem bfsIter_inv (g : GridGraph) (s : Int) (m : Int → Int) (L : Levels g s m)
    (st : BfsState) (h : LoopInv g s m st) (hlt : st.front < st.queue.length) :
    LoopInv g s m (bfsIter g st) ∧ (bfsIter g st).front = st.front + 1 := by
  have hget : st.queue[st.front]? = some st.queue[st.front] := List.getElem?_eq_getElem hlt
  set u := st.queue[st.front] with hu
  have hdec : st.queue = st.queue.take st.front ++ u :: st.queue.drop (st.front + 1) := by
    rw [hu, List.getElem_cons_drop, List.take_append_drop]
  have hlen : (st.queue.take st.front).length = st.front := by
    rw [List.length_take]; omega
  have hcurr : st.queue.getD st.front 0 = u := by
    rw [List.getD_eq_getElem _ _ hlt]
  have h0 : ScanInv g s m u (st.queue.take st.front) (fun _ => False)
      { st with front := st.front + 1 } :=
    ⟨⟨_, hdec⟩, by simp [hlen], h.core, h.span u hget, h.low u hget, h.doneAdj,
      fun v hp _ _ => hp.elim⟩
  have h1 := scanFold_inv g s m L u (st.queue.take st.front) (intRange 1 g.total)
    (fun i hi => (mem_intRange 1 g.total i).1 hi) _ _ h0
  unfold bfsIter
  rw [hcurr]
  set st1 := (intRange 1 g.total).foldl (scanStep g.adj u) { st with front := st.front + 1 }
    with hst1
  obtain ⟨pend, hq⟩ := h1.decomp
  have hf : st1.front = st.front + 1 := by rw [h1.front, hlen]
  refine ⟨⟨?_, h1.core, ?_, ?_, ?_⟩, hf⟩
  · rw [hf, hq]; simp [hlen]
  · intro u1 hu1 v hv
    have hu1mem : u1 ∈ pend := by
      rw [hf, hq, List.getElem?_append_right (by omega), hlen] at hu1
      simp at hu1
      exact mem_of_getElem?_eq_some hu1
    have hs := h1.core.sorted
    rw [hq, List.pairwise_append] at hs
    have := (List.pairwise_cons.1 hs.2.1).1 u1 hu1mem
    have := h1.span v hv
    omega
  · intro u1 hu1 v hv hm
    have hu1get : pend[0]? = some u1 := by
      rw [hf, hq, List.getElem?_append_right (by omega), hlen] at hu1
      simpa using hu1
    have hu1mem : u1 ∈ pend := mem_of_getElem?_eq_some hu1get
    have hu1q : u1 ∈ st1.queue := by rw [hq]; simp [hu1mem]
    have hsp := h1.span u1 hu1q
    by_cases hle : m v ≤ m u
    · exact h1.low v hv hle
    · have hvs : v ≠ s := by
        intro e
        have := L.zero
        have := L.nonneg u (h1.core.valid u (by rw [hq]; simp))
        rw [e] at hle
        omega
      obtain ⟨w, hwv, hwa, hwm⟩ := L.parent v hv hvs
      have hwq : w ∈ st1.queue := h1.low w hwv (by omega)
      rw [hq] at hwq
      rcases List.mem_append.1 hwq with hw | hw
      · exact h1.doneAdj w hw v hv hwa
      · rcases List.mem_cons.1 hw with hw | hw
        · rw [hw] at hwa
          exact h1.scanned v (Or.inr ((mem_intRange 1 g.total v).2 hv)) hv hwa
        · exfalso
          have hs := h1.core.sorted
          rw [hq, List.pairwise_append] at hs
          have hs2 := (List.pairwise_cons.1 hs.2.1)
          have h3 : m u ≤ m u1 := hs2.1 u1 hu1mem
          have h4 : m u1 ≤ m w := by
            cases pend with
            | nil => simp at hu1mem
            | cons p ps =>
              simp at hu1get
              subst hu1get
              rcases List.mem_cons.1 hw with hw | hw
              · rw [hw]
              · exact (List.pairwise_cons.1 hs2.2).1 w hw
          omega
  · intro w hw v hv ha
    rw [hf, hq] at hw
    have e : List.take (st.front + 1) (List.take st.front st.queue ++ u :: pend) =
        List.take st.front st.queue ++ [u] := by
      rw [List.take_append_eq_append_take, hlen]
      simp [List.take_take]
    rw [e] at hw
    rcases List.mem_append.1 hw with hw | hw
    · exact h1.doneAdj w hw v hv ha
    · rw [List.mem_singleton.1 hw] at ha
      exact h1.scanned v (Or.inr ((mem_intRange 1 g.total v).2 hv)) hv ha

theorem bfsLoop_inv (g : GridGraph) (s : Int) (m : Int → Int) (L : Levels g s m) :
    ∀ (fuel : Nat) (st : BfsState), LoopInv g s m st → g.total.toNat ≤ fuel + st.front →
      ∃ st1, bfsLoop g fuel st = some st1 ∧ LoopInv g s m st1 ∧
        st1.front = st1.queue.length := by
  intro fuel
  induction fuel with
  | zero =>
    intro st h hf
    have hlen := length_le_of_nodup_valid st.queue g.total h.core.nodup h.core.valid
    have hfl := h.front_le
    have hnot : ¬ st.front < st.queue.length := by omega
    exact ⟨st, by simp [bfsLoop, hnot], h, by omega⟩
  | succ f ih =>
    intro st h hf
    by_cases hlt : st.front < st.queue.length
    · obtain ⟨h1, h2⟩ := bfsIter_inv g s m L st h hlt
      obtain ⟨st1, e, r⟩ := ih (bfsIter g st) h1 (by omega)
      exact ⟨st1, by simp [bfsLoop, hlt, e], r⟩
    · have hfl := h.front_le
      exact ⟨st, by simp [bfsLoop, hlt], h, by omega⟩

theorem loopInv_all_visited (g : GridGraph) (s : Int) (m : Int → Int) (L : Levels g s m)
    (st : BfsState) (h : LoopInv g s m st) (hdone : st.front = st.queue.length) :
    ∀ v, ValidNode g.total v → v ∈ st.queue := by
  have key : ∀ (k : Nat) (v : Int), ValidNode g.total v → m v = k → v ∈ st.queue := by
    intro k
    induction k with
    | zero =>
      intro v hv hm
      by_cases e : v = s
      · rw [e]; exact h.core.src
      · obtain ⟨w, hwv, _, hwm⟩ := L.parent v hv e
        have := L.nonneg w hwv
        simp at hm
        omega
    | succ k ih =>
      intro v hv hm
      have e : v ≠ s := by
        intro e
        rw [e, L.zero] at hm
        push_cast at hm
        omega
      obtain ⟨w, hwv, hwa, hwm⟩ := L.parent v hv e
      have hw : w ∈ st.queue := ih w hwv (by push_cast at hm; omega)
      have hw2 : w ∈ st.queue.take st.front := by
        rw [hdone, List.take_length]; exact hw
      exact h.doneAdj w hw2 v hv hwa
  intro v hv
  have hnn := L.nonneg v hv
  exact key (m v).toNat v hv (by omega)

theorem bfsReset_spec (g : GridGraph) :
    (bfsReset g).queue = [] ∧ (bfsReset g).front = 0 ∧
      (∀ v, 0 ≤ v → v ≤ g.total → (bfsReset g).dist v = -1 ∧ (bfsReset g).pred v = -1) := by
  unfold bfsReset
  have key : ∀ (l : List Int) (st : BfsState),
      let r := l.foldl (fun (st : BfsState) (i : Int) =>
        { st with dist := upd st.dist i (-1), pred := upd st.pred i (-1) }) st
      r.queue = st.queue ∧ r.front = st.front ∧
        (∀ v, (v ∈ l → r.dist v = -1 ∧ r.pred v = -1) ∧
          (v ∉ l → r.dist v = st.dist v ∧ r.pred v = st.pred v)) := by
    intro l
    induction l with
    | nil => intro st; simp
    | cons x xs ih =>
      intro st
      simp only [List.foldl_cons]
      obtain ⟨h1, h2, h3⟩ := ih { st with dist := upd st.dist x (-1), pred := upd st.pred x (-1) }
      refine ⟨h1, h2, ?_⟩
      intro v
      by_cases hx : v ∈ xs
      · exact ⟨fun _ => (h3 v).1 hx, fun hn => absurd (List.mem_cons_of_mem _ hx) hn⟩
      · have := (h3 v).2 hx
        constructor
        · intro hv
          have e : v = x := by
            rcases List.mem_cons.1 hv with e | e
            · exact e
            · exact absurd e hx
          rw [this.1, this.2, e]
          simp [upd_same]
        · intro hv
          have e : v ≠ x := fun e => hv (by simp [e])
          rw [this.1, this.2]
          simp [upd_other _ _ _ _ e]
  obtain ⟨h1, h2, h3⟩ := key (intRange 0 g.total)
    { dist := g.dist, pred := g.pred, queue := [], front := 0 }
  exact ⟨h1, h2, fun v hv0 hv1 => (h3 v).1 ((mem_intRange 0 g.total v).2 ⟨hv0, hv1⟩)⟩

theorem bfsInit_inv (g : GridGraph) (s : Int) (m : Int → Int) (L : Levels g s m) :
    LoopInv g s m (bfsInit g s) ∧ (bfsInit g s).front = 0 := by
  obtain ⟨hq, hf, hr⟩ := bfsReset_spec g
  have hsv := L.src
  have hqi : (bfsInit g s).queue = [s] := by simp [bfsInit, hq]
  have hfi : (bfsInit g s).front = 0 := by simp [bfsInit, hf]
  have hdi : (bfsInit g s).dist = upd (bfsReset g).dist s 0 := rfl
  have hpi : (bfsInit g s).pred = (bfsReset g).pred := rfl
  have hzero : ∀ v, ValidNode g.total v → m v ≤ 0 → v = s := by
    intro v hv hm
    by_contra e
    obtain ⟨w, hwv, _, hwm⟩ := L.parent v hv e
    have := L.nonneg w hwv
    omega
  refine ⟨⟨by rw [hfi]; omega, ?_, ?_, ?_, ?_⟩, hfi⟩
  · rw [hqi, hdi, hpi]
    refine ⟨?_, List.nodup_singleton s, ?_, ?_, List.pairwise_singleton _ _, by simp, ?_, ?_⟩
    · intro v hv; rw [List.mem_singleton.1 hv]; exact hsv
    · intro v hv hd
      by_cases e : v = s
      · simp [e]
      · rw [upd_other _ _ _ _ e] at hd
        exact absurd (hr v (by have := hv.1; omega) hv.2).1 hd
    · intro v hv
      rw [List.mem_singleton.1 hv, upd_same, L.zero]
    · exact (hr s (by have := hsv.1; omega) hsv.2).2
    · intro v hv hvs
      exact absurd (List.mem_singleton.1 hv) hvs
  · intro u hu v hv
    rw [hqi] at hv
    rw [hqi, hfi] at hu
    simp at hu
    rw [List.mem_singleton.1 hv, hu]
    omega
  · intro u hu v hv hm
    rw [hqi, hfi] at hu
    simp at hu
    subst hu
    rw [L.zero] at hm
    rw [hqi, hzero v hv hm]
    simp
  · intro w hw
    rw [hfi] at hw
    simp at hw

/-- On a graph with a level function `m` for `s`, `bfs(s)` returns, leaves the matrix alone,
stores `m` in `dist`, and stores in `pred` a neighbour one level lower. -/
theorem bfs_levels (g : GridGraph) (s : Int) (m : Int → Int) (L : Levels g s m) :
    ∃ g1, bfs g s = some g1 ∧ g1.size = g.size ∧ g1.total = g.total ∧ g1.adj = g.adj ∧
      (∀ v, ValidNode g.total v → g1.dist v = m v) ∧ g1.pred s = -1 ∧
      (∀ v, ValidNode g.total v → v ≠ s →
        ValidNode g.total (g1.pred v) ∧ g.adj (g1.pred v) v = 1 ∧ m (g1.pred v) + 1 = m v) := by
  obtain ⟨h0, hf0⟩ := bfsInit_inv g s m L
  obtain ⟨st, e, h, hd⟩ := bfsLoop_inv g s m L (g.total.toNat + 1) (bfsInit g s) h0 (by omega)
  have hall := loopInv_all_visited g s m L st h hd
  refine ⟨{ g with dist := st.dist, pred := st.pred }, by simp [bfs, e], rfl, rfl, rfl, ?_, ?_, ?_⟩
  · intro v hv
    exact h.core.distEq v (hall v hv)
  · exact h.core.predS
  · intro v hv hvs
    exact h.core.predOk v (hall v hv) hvs

/-! ## Lemmas: `bfs` returns on every graph and every start value -/

theorem scanStep_queueInv (g : GridGraph) (curr : Int) (st : BfsState) (i : Int)
    (hi : ValidNode g.total i) (hc : curr ∈ st.queue) (h : QueueInv g st) :
    QueueInv g (scanStep g.adj curr st i) ∧ curr ∈ (scanStep g.adj curr st i).queue ∧
      (scanStep g.adj curr st i).front = st.front := by
  unfold scanStep
  by_cases hcond : g.adj curr i = 1 ∧ st.dist i = -1
  · rw [if_pos hcond]
    dsimp only
    obtain ⟨hd, tl, hq, hn, hv⟩ := h.shape
    have hiq : i ∉ st.queue := by
      intro hmem
      have := h.distNonneg i hmem
      omega
    have hitl : i ∉ tl := fun hmem => hiq (by rw [hq]; exact List.mem_cons_of_mem _ hmem)
    refine ⟨⟨⟨hd, tl ++ [i], by simp [hq], ?_, ?_⟩, ?_⟩, List.mem_append_left _ hc, rfl⟩
    · rw [List.nodup_append]
      refine ⟨hn, List.nodup_singleton i, ?_⟩
      intro x hx hx2
      rw [List.mem_singleton.1 hx2] at hx
      exact hitl hx
    · intro v hv2
      rcases List.mem_append.1 hv2 with hv2 | hv2
      · exact hv v hv2
      · rw [List.mem_singleton.1 hv2]; exact hi
    · intro v hv2
      dsimp only
      rcases List.mem_append.1 hv2 with hv2 | hv2
      · have e : v ≠ i := fun e => hiq (e ▸ hv2)
        rw [upd_other _ _ _ _ e]
        exact h.distNonneg v hv2
      · rw [List.mem_singleton.1 hv2, upd_same]
        have := h.distNonneg curr hc
        omega
  · rw [if_neg hcond]
    exact ⟨h, hc, rfl⟩

theorem scanFold_queueInv (g : GridGraph) (curr : Int) (l : List Int)
    (hl : ∀ i ∈ l, ValidNode g.total i) (st : BfsState) (hc : curr ∈ st.queue)
    (h : QueueInv g st) :
    QueueInv g (l.foldl (scanStep g.adj curr) st) ∧
      (l.foldl (scanStep g.adj curr) st).front = st.front := by
  induction l generalizing st with
  | nil => exact ⟨h, rfl⟩
  | cons x xs ih =>
    rw [List.foldl_cons]
    obtain ⟨h1, h2, h3⟩ := scanStep_queueInv g curr st x (hl x (by simp)) hc h
    obtain ⟨r1, r2⟩ := ih (fun i hi => hl i (List.mem_cons_of_mem _ hi)) _ h2 h1
    exact ⟨r1, by rw [r2, h3]⟩

theorem bfsIter_queueInv (g : GridGraph) (st : BfsState) (h : QueueInv g st)
    (hlt : st.front < st.queue.length) :
    QueueInv g (bfsIter g st) ∧ (bfsIter g st).front = st.front + 1 := by
  unfold bfsIter
  have hc : st.queue.getD st.front 0 ∈ st.queue := by
    rw [List.getD_eq_getElem _ _ hlt]
    exact List.getElem_mem hlt
  exact scanFold_queueInv g _ (intRange 1 g.total)
    (fun i hi => (mem_intRange 1 g.total i).1 hi) { st with front := st.front + 1 } hc
    ⟨h.shape, h.distNonneg⟩

theorem bfsLoop_total (g : GridGraph) :
    ∀ (fuel : Nat) (st : BfsState), QueueInv g st → g.total.toNat + 1 ≤ fuel + st.front →
      ∃ st1, bfsLoop g fuel st = some st1 := by
  intro fuel
  induction fuel with
  | zero =>
    intro st h hf
    obtain ⟨hd, tl, hq, hn, hv⟩ := h.shape
    have hlen := length_le_of_nodup_valid tl g.total hn hv
    have hnot : ¬ st.front < st.queue.length := by
      rw [hq, List.length_cons]; omega
    exact ⟨st, by simp [bfsLoop, hnot]⟩
  | succ f ih =>
    intro st h hf
    by_cases hlt : st.front < st.queue.length
    · obtain ⟨h1, h2⟩ := bfsIter_queueInv g st h hlt
      obtain ⟨st1, e⟩ := ih (bfsIter g st) h1 (by omega)
      exact ⟨st1, by simp [bfsLoop, hlt, e]⟩
    · exact ⟨st, by simp [bfsLoop, hlt]⟩

/-- For every graph value and every start value the loop of `bfs` ends within its fuel, and
`bfs` changes nothing but the scratch buffers. -/
theorem bfs_total (g : GridGraph) (s : Int) :
    ∃ g1, bfs g s = some g1 ∧ g1.size = g.size ∧ g1.total = g.total ∧ g1.adj = g.adj := by
  obtain ⟨hq, hf, _⟩ := bfsReset_spec g
  have hqi : (bfsInit g s).queue = [s] := by simp [bfsInit, hq]
  have hfi : (bfsInit g s).front = 0 := by simp [bfsInit, hf]
  have hdi : (bfsInit g s).dist = upd (bfsReset g).dist s 0 := rfl
  have h0 : QueueInv g (bfsInit g s) := by
    refine ⟨⟨s, [], hqi, List.nodup_nil, by simp⟩, ?_⟩
    intro v hv
    rw [hqi] at hv
    rw [List.mem_singleton.1 hv, hdi, upd_same]
  obtain ⟨st, e⟩ := bfsLoop_total g (g.total.toNat + 1) (bfsInit g s) h0 (by omega)
  exact ⟨{ g with dist := st.dist, pred := st.pred }, by simp [bfs, e], rfl, rfl, rfl⟩

theorem getDistance_total (g : GridGraph) (s d : Int) :
    ∃ r g1, getDistance g s d = some (r, g1) ∧ g1.size = g.size ∧ g1.total = g.total ∧
      g1.adj = g.adj := by
  unfold getDistance
  by_cases e : s = d
  · exact ⟨0, g, by simp [e], rfl, rfl, rfl⟩
  · obtain ⟨g1, e1, h⟩ := bfs_total g s
    exact ⟨g1.dist d, g1, by simp [e, e1], h⟩

/-! ## Lemmas: the grid has Manhattan levels -/

theorem isGrid_init (n : Int) (d0 p0 : Int → Int) : IsGrid n (GridGraph.init n d0 p0) :=
  ⟨rfl, rfl, rfl⟩

theorem isGrid_adj (n : Int) (g : GridGraph) (hg : IsGrid n g) (u v : Int) :
    g.adj u v = 1 ↔ ∃ node, ValidNode (n * n) node ∧ EdgeFrom n node u v := by
  rw [hg.2.2]
  exact adj_eq_one_iff n (fun _ => 0) (fun _ => 0) u v

theorem abs_one_iff (x : Int) : |x| = 1 ↔ x = 1 ∨ x = -1 := by
  rcases abs_cases x with ⟨h, _⟩ | ⟨h, _⟩ <;> rw [h] <;> omega

theorem node_right (n node : Int) (hn : 1 ≤ n) (hv : ValidNode (n * n) node)
    (hc : colOf n node < n - 1) :
    ValidNode (n * n) (node + 1) ∧ rowOf n (node + 1) = rowOf n node ∧
      colOf n (node + 1) = colOf n node + 1 := by
  obtain ⟨h1, h2, h3, h4, h5⟩ := coords_of_valid n node hn hv
  have e : node + 1 = rowOf n node * n + (colOf n node + 1) + 1 := by omega
  have hc2 := coords_of_node n (rowOf n node) (colOf n node + 1) h1 (by omega) (by omega)
  have hv2 := valid_of_coords n (rowOf n node) (colOf n node + 1) h1 h2 (by omega) (by omega)
  rw [← e] at hc2 hv2
  exact ⟨hv2, hc2.1, hc2.2⟩

theorem node_below (n node : Int) (hn : 1 ≤ n) (hv : ValidNode (n * n) node)
    (hr : rowOf n node < n - 1) :
    ValidNode (n * n) (node + n) ∧ rowOf n (node + n) = rowOf n node + 1 ∧
      colOf n (node + n) = colOf n node := by
  obtain ⟨h1, h2, h3, h4, h5⟩ := coords_of_valid n node hn hv
  have e : node + n = (rowOf n node + 1) * n + colOf n node + 1 := by
    have : (rowOf n node + 1) * n = rowOf n node * n + n := by ring
    omega
  have hc2 := coords_of_node n (rowOf n node + 1) (colOf n node) (by omega) h3 h4
  have hv2 := valid_of_coords n (rowOf n node + 1) (colOf n node) (by omega) (by omega) h3 h4
  rw [← e] at hc2 hv2
  exact ⟨hv2, hc2.1, hc2.2⟩

theorem node_eq_of_coords (n a b : Int) (hn : 1 ≤ n) (ha : ValidNode (n * n) a)
    (hb : ValidNode (n * n) b) (hr : rowOf n a = rowOf n b) (hc : colOf n a = colOf n b) :
    a = b := by
  have h1 := (coords_of_valid n a hn ha).2.2.2.2
  have h2 := (coords_of_valid n b hn hb).2.2.2.2
  rw [h1, h2, hr, hc]

/-- The matrix of the grid graph holds a `1` exactly between valid 4-neighbours. -/
theorem isGrid_adj_iff (n : Int) (hn : 1 ≤ n) (g : GridGraph) (hg : IsGrid n g) (u v : Int) :
    g.adj u v = 1 ↔ ValidNode (n * n) u ∧ ValidNode (n * n) v ∧ GridAdjacent n u v := by
  rw [isGrid_adj n g hg]
  constructor
  · rintro ⟨node, hv, he⟩
    unfold GridAdjacent
    rcases he with ⟨hc, he⟩ | ⟨hr, he⟩
    · obtain ⟨q1, q2, q3⟩ := node_right n node hn hv hc
      rcases he with ⟨rfl, rfl⟩ | ⟨rfl, rfl⟩
      · refine ⟨hv, q1, Or.inl ⟨q2.symm, ?_⟩⟩
        rw [abs_one_iff]; omega
      · refine ⟨q1, hv, Or.inl ⟨q2, ?_⟩⟩
        rw [abs_one_iff]; omega
    · obtain ⟨q1, q2, q3⟩ := node_below n node hn hv hr
      rcases he with ⟨rfl, rfl⟩ | ⟨rfl, rfl⟩
      · refine ⟨hv, q1, Or.inr ⟨q3.symm, ?_⟩⟩
        rw [abs_one_iff]; omega
      · refine ⟨q1, hv, Or.inr ⟨q3, ?_⟩⟩
        rw [abs_one_iff]; omega
  · rintro ⟨hu, hv, ha⟩
    obtain ⟨u1, u2, u3, u4, u5⟩ := coords_of_valid n u hn hu
    obtain ⟨v1, v2, v3, v4, v5⟩ := coords_of_valid n v hn hv
    unfold GridAdjacent at ha
    rcases ha with ⟨hr, hc⟩ | ⟨hc, hr⟩
    · rw [abs_one_iff] at hc
      rcases hc with hc | hc
      · -- `u` is the right neighbour of `v`
        have hcv : colOf n v < n - 1 := by omega
        obtain ⟨q1, q2, q3⟩ := node_right n v hn hv hcv
        have e : u = v + 1 := node_eq_of_coords n u (v + 1) hn hu q1 (by omega) (by omega)
        exact ⟨v, hv, Or.inl ⟨hcv, Or.inr ⟨e, rfl⟩⟩⟩
      · have hcu : colOf n u < n - 1 := by omega
        obtain ⟨q1, q2, q3⟩ := node_right n u hn hu hcu
        have e : v = u + 1 := node_eq_of_coords n v (u + 1) hn hv q1 (by omega) (by omega)
        exact ⟨u, hu, Or.inl ⟨hcu, Or.inl ⟨rfl, e⟩⟩⟩
    · rw [abs_one_iff] at hr
      rcases hr with hr | hr
      · have hrv : rowOf n v < n - 1 := by omega
        obtain ⟨q1, q2, q3⟩ := node_below n v hn hv hrv
        have e : u = v + n := node_eq_of_coords n u (v + n) hn hu q1 (by omega) (by omega)
        exact ⟨v, hv, Or.inr ⟨hrv, Or.inr ⟨e, rfl⟩⟩⟩
      · have hru : rowOf n u < n - 1 := by omega
        obtain ⟨q1, q2, q3⟩ := node_below n u hn hu hru
        have e : v = u + n := node_eq_of_coords n v (u + n) hn hv q1 (by omega) (by omega)
        exact ⟨u, hu, Or.inr ⟨hru, Or.inl ⟨rfl, e⟩⟩⟩

theorem manhattan_step (n s u v : Int) (h : GridAdjacent n u v) :
    manhattan n s v = manhattan n s u + 1 ∨ manhattan n s u = manhattan n s v + 1 := by
  unfold manhattan
  unfold GridAdjacent at h
  rcases h with ⟨hr, hc⟩ | ⟨hc, hr⟩
  · rw [abs_one_iff] at hc
    rw [hr]
    rcases abs_cases (colOf n s - colOf n u) with ⟨e1, _⟩ | ⟨e1, _⟩ <;>
      rcases abs_cases (colOf n s - colOf n v) with ⟨e2, _⟩ | ⟨e2, _⟩ <;>
      rw [e1, e2] <;> omega
  · rw [abs_one_iff] at hr
    rw [hc]
    rcases abs_cases (rowOf n s - rowOf n u) with ⟨e1, _⟩ | ⟨e1, _⟩ <;>
      rcases abs_cases (rowOf n s - rowOf n v) with ⟨e2, _⟩ | ⟨e2, _⟩ <;>
      rw [e1, e2] <;> omega

theorem manhattan_self (n a : Int) : manhattan n a a = 0 := by
  simp [manhattan]

theorem manhattan_nonneg (n a b : Int) : 0 ≤ manhattan n a b := by
  unfold manhattan
  have := abs_nonneg (rowOf n a - rowOf n b)
  have := abs_nonneg (colOf n a - colOf n b)
  omega

/-- Every valid node other than `s` has a valid grid neighbour one step closer to `s`. -/
theorem manhattan_parent (n s v : Int) (hn : 1 ≤ n) (hs : ValidNode (n * n) s)
    (hv : ValidNode (n * n) v) (hne : v ≠ s) :
    ∃ w, ValidNode (n * n) w ∧ GridAdjacent n w v ∧ manhattan n s w + 1 = manhattan n s v := by
  obtain ⟨s1, s2, s3, s4, s5⟩ := coords_of_valid n s hn hs
  obtain ⟨v1, v2, v3, v4, v5⟩ := coords_of_valid n v hn hv
  have mk : ∀ r c, 0 ≤ r → r < n → 0 ≤ c → c < n →
      ((r = rowOf n v ∧ (c - colOf n v = 1 ∨ c - colOf n v = -1)) ∨
        (c = colOf n v ∧ (r - rowOf n v = 1 ∨ r - rowOf n v = -1))) →
      |rowOf n s - r| + |colOf n s - c| + 1 =
        |rowOf n s - rowOf n v| + |colOf n s - colOf n v| →
      ∃ w, ValidNode (n * n) w ∧ GridAdjacent n w v ∧
        manhattan n s w + 1 = manhattan n s v := by
    intro r c hr0 hr1 hc0 hc1 hadj hm
    obtain ⟨e1, e2⟩ := coords_of_node n r c hr0 hc0 hc1
    refine ⟨r * n + c + 1, valid_of_coords n r c hr0 hr1 hc0 hc1, ?_, ?_⟩
    · unfold GridAdjacent
      rw [e1, e2, abs_one_iff, abs_one_iff]
      exact hadj
    · unfold manhattan
      rw [e1, e2]
      exact hm
  by_cases hr : rowOf n v = rowOf n s
  · have hc : colOf n v ≠ colOf n s := fun hc => hne (node_eq_of_coords n v s hn hv hs hr hc)
    rcases lt_or_gt_of_ne hc with hlt | hgt
    · apply mk (rowOf n v) (colOf n v + 1) v1 v2 (by omega) (by omega) (by omega)
      rcases abs_cases (colOf n s - (colOf n v + 1)) with ⟨e1, _⟩ | ⟨e1, _⟩ <;>
        rcases abs_cases (colOf n s - colOf n v) with ⟨e2, _⟩ | ⟨e2, _⟩ <;>
        rw [e1, e2] <;> omega
    · apply mk (rowOf n v) (colOf n v - 1) v1 v2 (by omega) (by omega) (by omega)
      rcases abs_cases (colOf n s - (colOf n v - 1)) with ⟨e1, _⟩ | ⟨e1, _⟩ <;>
        rcases abs_cases (colOf n s - colOf n v) with ⟨e2, _⟩ | ⟨e2, _⟩ <;>
        rw [e1, e2] <;> omega
  · rcases lt_or_gt_of_ne hr with hlt | hgt
    · apply mk (rowOf n v + 1) (colOf n v) (by omega) (by omega) v3 v4 (by omega)
      rcases abs_cases (rowOf n s - (rowOf n v + 1)) with ⟨e1, _⟩ | ⟨e1, _⟩ <;>
        rcases abs_cases (rowOf n s - rowOf n v) with ⟨e2, _⟩ | ⟨e2, _⟩ <;>
        rw [e1, e2] <;> omega
    · apply mk (rowOf n v - 1) (colOf n v) (by omega) (by omega) v3 v4 (by omega)
      rcases abs_cases (rowOf n s - (rowOf n v - 1)) with ⟨e1, _⟩ | ⟨e1, _⟩ <;>
        rcases abs_cases (rowOf n s - rowOf n v) with ⟨e2, _⟩ | ⟨e2, _⟩ <;>
        rw [e1, e2] <;> omega

theorem grid_levels (n : Int) (hn : 1 ≤ n) (g : GridGraph) (hg : IsGrid n g) (s : Int)
    (hs : ValidNode (n * n) s) : Levels g s (fun v => manhattan n s v) := by
  have ht : g.total = n * n := hg.2.1
  refine ⟨by rw [ht]; exact hs, manhattan_self n s, fun v _ => manhattan_nonneg n s v, ?_, ?_⟩
  · intro u v _ _ ha
    exact manhattan_step n s u v ((isGrid_adj_iff n hn g hg u v).1 ha).2.2
  · intro v hv hne
    rw [ht] at hv
    obtain ⟨w, hw, ha, hm⟩ := manhattan_parent n s v hn hs hv hne
    exact ⟨w, by rw [ht]; exact hw, (isGrid_adj_iff n hn g hg w v).2 ⟨hw, hv, ha⟩, hm⟩

/-- On the grid, `bfs(s)` from a valid node returns, keeps the graph a grid, fills `dist` with
Manhattan distances and `pred` with a grid neighbour one step closer to `s`. -/
theorem bfs_grid (n : Int) (hn : 1 ≤ n) (g : GridGraph) (hg : IsGrid n g) (s : Int)
    (hs : ValidNode (n * n) s) :
    ∃ g1, bfs g s = some g1 ∧ IsGrid n g1 ∧
      (∀ v, ValidNode (n * n) v → g1.dist v = manhattan n s v) ∧ g1.pred s = -1 ∧
      (∀ v, ValidNode (n * n) v → v ≠ s →
        ValidNode (n * n) (g1.pred v) ∧ GridAdjacent n (g1.pred v) v ∧
          manhattan n s (g1.pred v) + 1 = manhattan n s v) := by
  obtain ⟨g1, e, h1, h2, h3, h4, h5, h6⟩ := bfs_levels g s _ (grid_levels n hn g hg s hs)
  have ht : g.total = n * n := hg.2.1
  refine ⟨g1, e, ⟨by rw [h1]; exact hg.1, by rw [h2]; exact ht, by rw [h3]; exact hg.2.2⟩,
    ?_, h5, ?_⟩
  · intro v hv
    exact h4 v (by rw [ht]; exact hv)
  · intro v hv hne
    obtain ⟨q1, q2, q3⟩ := h6 v (by rw [ht]; exact hv) hne
    rw [ht] at q1
    exact ⟨q1, ((isGrid_adj_iff n hn g hg _ v).1 q2).2.2, q3⟩

theorem getDistance_grid (n : Int) (hn : 1 ≤ n) (g : GridGraph) (hg : IsGrid n g) (a b : Int)
    (ha : ValidNode (n * n) a) (hb : ValidNode (n * n) b) :
    ∃ g1, getDistance g a b = some (manhattan n a b, g1) ∧ IsGrid n g1 := by
  unfold getDistance
  by_cases e : a = b
  · subst e
    exact ⟨g, by simp [manhattan_self], hg⟩
  · obtain ⟨g1, e1, h1, h2, _⟩ := bfs_grid n hn g hg a ha
    exact ⟨g1, by simp [e, e1, h2 b hb], h1⟩

/-! ## Lemmas: path reconstruction -/

theorem reverseCopy_eq_reverse (temp : List Int) : reverseCopy temp = temp.reverse := by
  unfold reverseCopy
  apply List.ext_getElem
  · simp
  · intro i h1 h2
    simp only [List.length_map, List.length_range] at h1
    rw [List.getElem_map, List.getElem_range, List.getElem_reverse,
      List.getD_eq_getElem _ _ (by omega)]

theorem manhattan_le (n a b : Int) (hn : 1 ≤ n) (ha : ValidNode (n * n) a)
    (hb : ValidNode (n * n) b) : manhattan n a b < n * n := by
  obtain ⟨a1, a2, a3, a4, _⟩ := coords_of_valid n a hn ha
  obtain ⟨b1, b2, b3, b4, _⟩ := coords_of_valid n b hn hb
  have h1 : |rowOf n a - rowOf n b| ≤ n - 1 := by
    rw [abs_le]; constructor <;> omega
  have h2 : |colOf n a - colOf n b| ≤ n - 1 := by
    rw [abs_le]; constructor <;> omega
  unfold manhattan
  nlinarith [sq_nonneg (n - 1)]

/-- The predecessor walk of `getPath` from a valid node `v` at distance `k` from `s` ends within
`k + 1` iterations and appends to `temp` the nodes `v, pred v, ..., s`. -/
theorem predWalk_grid (n s : Int) (pred : Int → Int) (hps : pred s = -1)
    (hs : ValidNode (n * n) s)
    (hp : ∀ v, ValidNode (n * n) v → v ≠ s →
      ValidNode (n * n) (pred v) ∧ GridAdjacent n (pred v) v ∧
        manhattan n s (pred v) + 1 = manhattan n s v) :
    ∀ (k fuel : Nat) (v : Int) (temp : List Int), ValidNode (n * n) v →
      manhattan n s v = k → k < fuel →
      ∃ ch, predWalk pred fuel v temp = some (temp ++ ch) ∧ ch.length = k + 1 ∧
        ch.head? = some v ∧ ch.getLast? = some s ∧
        ch.Chain' (fun x y => GridAdjacent n y x) ∧
        (∀ (i : Nat) (hi : i < ch.length), manhattan n s ch[i] + i = k) := by
  intro k
  induction k with
  | zero =>
    intro fuel v temp hv hm hk
    have e : v = s := by
      by_contra e
      obtain ⟨_, _, h3⟩ := hp v hv e
      have := manhattan_nonneg n s (pred v)
      simp at hm
      omega
    subst e
    have hne : v ≠ -1 := by have := hv.1; omega
    obtain ⟨f, rfl⟩ : ∃ f, fuel = f + 1 := ⟨fuel - 1, by omega⟩
    refine ⟨[v], ?_, rfl, rfl, rfl, List.chain'_singleton v, ?_⟩
    · rw [predWalk, if_neg hne, hps]
      cases f <;> simp [predWalk]
    · intro i hi
      simp only [List.length_singleton, Nat.lt_one_iff] at hi
      subst hi
      simpa using hm
  | succ k ih =>
    intro fuel v temp hv hm hk
    have e : v ≠ s := by
      intro e
      rw [e, manhattan_self] at hm
      push_cast at hm
      omega
    obtain ⟨h1, h2, h3⟩ := hp v hv e
    have hne : v ≠ -1 := by have := hv.1; omega
    obtain ⟨f, rfl⟩ : ∃ f, fuel = f + 1 := ⟨fuel - 1, by omega⟩
    obtain ⟨ch, c1, c2, c3, c4, c5, c6⟩ := ih f (pred v) (temp ++ [v]) h1
      (by push_cast at hm; omega) (by omega)
    refine ⟨v :: ch, ?_, by simp [c2], rfl, ?_, ?_, ?_⟩
    · rw [predWalk, if_neg hne, c1]
      simp
    · cases ch with
      | nil => simp at c2
      | cons x xs => simpa using c4
    · cases ch with
      | nil => simp at c2
      | cons x xs =>
        simp only [List.head?_cons, Option.some.injEq] at c3
        rw [List.chain'_cons]
        exact ⟨c3 ▸ h2, c5⟩
    · intro i hi
      cases i with
      | zero => simpa using hm
      | succ i =>
        simp only [List.length_cons, Nat.add_lt_add_iff_right] at hi
        have := c6 i hi
        simp only [List.getElem_cons_succ]
        push_cast
        omega

/-- On the grid, `getPath(a, b)` between valid nodes returns a walk of `manhattan a b + 1`
nodes from `a` to `b` whose consecutive nodes are grid-adjacent and whose `i`-th node is at
distance `i` from `a`. -/
theorem getPath_grid_full (n : Int) (hn : 1 ≤ n) (g : GridGraph) (hg : IsGrid n g) (a b : Int)
    (ha : ValidNode (n * n) a) (hb : ValidNode (n * n) b) :
    ∃ path g1, getPath g a b = some (path, g1) ∧ IsGrid n g1 ∧
      (path.length : Int) = manhattan n a b + 1 ∧ path.head? = some a ∧
      path.getLast? = some b ∧ path.Chain' (GridAdjacent n) ∧
      (∀ (i : Nat) (hi : i < path.length), manhattan n a path[i] = i) := by
  unfold getPath
  by_cases e : a = b
  · subst e
    refine ⟨[a], g, by simp, hg, by simp [manhattan_self], rfl, rfl, List.chain'_singleton a, ?_⟩
    intro i hi
    simp only [List.length_singleton, Nat.lt_one_iff] at hi
    subst hi
    simp [manhattan_self]
  · obtain ⟨g1, e1, h1, h2, h3, h4⟩ := bfs_grid n hn g hg a ha
    have hnn := manhattan_nonneg n a b
    have hle := manhattan_le n a b hn ha hb
    have ht : g1.total = n * n := h1.2.1
    obtain ⟨ch, c1, c2, c3, c4, c5, c6⟩ := predWalk_grid n a g1.pred h3 ha h4
      (manhattan n a b).toNat (g1.total.toNat + 1) b [] hb (by omega) (by rw [ht]; omega)
    refine ⟨ch.reverse, g1, ?_, h1, ?_, ?_, ?_, ?_, ?_⟩
    · simp [e, e1, c1, reverseCopy_eq_reverse]
    · rw [List.length_reverse, c2]; push_cast; omega
    · rw [List.head?_reverse]; exact c4
    · rw [List.getLast?_reverse]; exact c3
    · rw [List.chain'_reverse]; exact c5
    · intro i hi
      rw [List.length_reverse] at hi
      rw [List.getElem_reverse]
      have := c6 (ch.length - 1 - i) (by omega)
      have hlen : ((ch.length - 1 - i : Nat) : Int) = (manhattan n a b).toNat - i := by
        rw [c2]; omega
      omega

theorem getPath_grid (n : Int) (hn : 1 ≤ n) (g : GridGraph) (hg : IsGrid n g) (a b : Int)
    (ha : ValidNode (n * n) a) (hb : ValidNode (n * n) b) :
    ∃ path g1, getPath g a b = some (path, g1) ∧ IsGrid n g1 ∧
      (path.length : Int) = manhattan n a b + 1 ∧ path.head? = some a ∧
      path.getLast? = some b ∧ path.Chain' (GridAdjacent n) := by
  obtain ⟨path, g1, h1, h2, h3, h4, h5, h6, _⟩ := getPath_grid_full n hn g hg a b ha hb
  exact ⟨path, g1, h1, h2, h3, h4, h5, h6⟩

/-! ## Lemmas: the bubble sort of `optimize` -/

theorem bubbleStep_append (rests : List Restaurant) (pre : List OrdInfo) (x y : OrdInfo)
    (post : List OrdInfo) :
    bubbleStep rests (pre ++ x :: y :: post) pre.length =
      pre ++ (if ordKey rests x > ordKey rests y then y :: x :: post else x :: y :: post) := by
  have e1 : (pre ++ x :: y :: post).getD pre.length default = x := by
    rw [List.getD_append_right _ _ _ _ (le_refl _)]; simp
  have e2 : (pre ++ x :: y :: post).getD (pre.length + 1) default = y := by
    rw [List.getD_append_right _ _ _ _ (by omega)]; simp
  unfold bubbleStep
  rw [e1, e2]
  by_cases h : ordKey rests x > ordKey rests y
  · rw [if_pos h, if_pos h]
    simp only
    rw [List.set_append_right _ _ (le_refl _), Nat.sub_self, List.set_cons_zero,
      List.set_append_right _ _ (by omega)]
    simp
  · rw [if_neg h, if_neg h]

theorem foldl_bubbleStep (rests : List Restaurant) :
    ∀ (k : Nat) (pre l : List OrdInfo), k + 1 ≤ l.length →
      (List.range' pre.length k).foldl (bubbleStep rests) (pre ++ l) =
        pre ++ bubbleRec (ordKey rests) k l := by
  intro k
  induction k with
  | zero => intro pre l _; simp [bubbleRec]
  | succ k ih =>
    intro pre l hl
    match l, hl with
    | x :: y :: r, hl =>
      rw [List.range'_succ, List.foldl_cons, bubbleStep_append]
      simp only [List.length_cons] at hl
      by_cases h : ordKey rests x > ordKey rests y
      · rw [if_pos h]
        have := ih (pre ++ [y]) (x :: r) (by simp; omega)
        simp only [List.length_append, List.length_singleton, List.append_assoc,
          List.singleton_append] at this
        rw [this]
        simp [bubbleRec, h]
      · rw [if_neg h]
        have := ih (pre ++ [x]) (y :: r) (by simp; omega)
        simp only [List.length_append, List.length_singleton, List.append_assoc,
          List.singleton_append] at this
        rw [this]
        simp [bubbleRec, h]

theorem bubblePass_eq (rests : List Restaurant) (a : List OrdInfo) (i : Nat) :
    bubblePass rests a i = bubbleRec (ordKey rests) (a.length - i - 1) a := by
  unfold bubblePass
  by_cases h : a.length - i - 1 = 0
  · rw [h]; simp [bubbleRec]
  · have := foldl_bubbleStep rests (a.length - i - 1) [] a (by omega)
    simpa [List.range_eq_range'] using this

theorem bubbleRec_perm {α : Type} (key : α → Int) :
    ∀ (k : Nat) (l : List α), (bubbleRec key k l).Perm l := by
  intro k
  induction k with
  | zero => intro l; simp [bubbleRec]
  | succ k ih =>
    intro l
    match l with
    | [] => simp [bubbleRec]
    | [x] => simp [bubbleRec]
    | x :: y :: r =>
      simp only [bubbleRec]
      by_cases h : key x > key y
      · rw [if_pos h]
        exact ((ih (x :: r)).cons y).trans (List.Perm.swap x y r)
      · rw [if_neg h]
        exact (ih (y :: r)).cons x

theorem bubbleRec_filter {α : Type} (key : α → Int) (t : Int) :
    ∀ (k : Nat) (l : List α),
      (bubbleRec key k l).filter (fun x => decide (key x = t)) =
        l.filter (fun x => decide (key x = t)) := by
  intro k
  induction k with
  | zero => intro l; simp [bubbleRec]
  | succ k ih =>
    intro l
    match l with
    | [] => simp [bubbleRec]
    | [x] => simp [bubbleRec]
    | x :: y :: r =>
      simp only [bubbleRec]
      by_cases h : key x > key y
      · rw [if_pos h, List.filter_cons, ih (x :: r)]
        by_cases hx : key x = t
        · have hy : key y ≠ t := by omega
          simp [List.filter_cons, hx, hy]
        · simp [List.filter_cons, hx]
      · rw [if_neg h, List.filter_cons, ih (y :: r)]
        simp [List.filter_cons]

theorem bubbleRec_append {α : Type} (key : α → Int) :
    ∀ (k : Nat) (F B : List α), k + 1 ≤ F.length →
      bubbleRec key k (F ++ B) = bubbleRec key k F ++ B := by
  intro k
  induction k with
  | zero => intro F B _; simp [bubbleRec]
  | succ k ih =>
    intro F B h
    match F, h with
    | x :: y :: r, h =>
      simp only [List.length_cons] at h
      simp only [List.cons_append, bubbleRec]
      by_cases hk : key x > key y
      · rw [if_pos hk, if_pos hk]
        have := ih (x :: r) B (by simp; omega)
        simp only [List.cons_append] at this
        exact congrArg (List.cons y) this
      · rw [if_neg hk, if_neg hk]
        have := ih (y :: r) B (by simp; omega)
        simp only [List.cons_append] at this
        exact congrArg (List.cons x) this

theorem bubbleRec_max {α : Type} (key : α → Int) :
    ∀ (k : Nat) (l : List α), l.length = k + 1 →
      ∃ F mx, bubbleRec key k l = F ++ [mx] ∧ ∀ z ∈ l, key z ≤ key mx := by
  intro k
  induction k with
  | zero =>
    intro l h
    match l, h with
    | [x], _ => exact ⟨[], x, by simp [bubbleRec], by simp⟩
  | succ k ih =>
    intro l h
    match l, h with
    | x :: y :: r, h =>
      simp only [List.length_cons] at h
      simp only [bubbleRec]
      by_cases hk : key x > key y
      · rw [if_pos hk]
        obtain ⟨F, mx, e, hm⟩ := ih (x :: r) (by simp; omega)
        refine ⟨y :: F, mx, by rw [e]; simp, ?_⟩
        intro z hz
        simp only [List.mem_cons] at hz
        have hx := hm x (by simp)
        rcases hz with rfl | rfl | hz
        · exact hx
        · omega
        · exact hm z (by simp [hz])
      · rw [if_neg hk]
        obtain ⟨F, mx, e, hm⟩ := ih (y :: r) (by simp; omega)
        refine ⟨x :: F, mx, by rw [e]; simp, ?_⟩
        intro z hz
        simp only [List.mem_cons] at hz
        have hy := hm y (by simp)
        rcases hz with rfl | rfl | hz
        · omega
        · exact hy
        · exact hm z (by simp [hz])

/-- Invariant of the outer loop of the bubble sort: after the passes `i, i+1, ..., i+cnt-1` the
last `i + cnt` cells are sorted and dominate the rest. -/
theorem foldl_bubblePass (rests : List Restaurant) :
    ∀ (cnt i : Nat) (a F B : List OrdInfo), a = F ++ B → B.length = i →
      i + cnt + 1 ≤ a.length →
      B.Pairwise (fun x y => ordKey rests x ≤ ordKey rests y) →
      (∀ x ∈ F, ∀ y ∈ B, ordKey rests x ≤ ordKey rests y) →
      ∃ F2 B2, (List.range' i cnt).foldl (bubblePass rests) a = F2 ++ B2 ∧
        B2.length = i + cnt ∧ (F2 ++ B2).Perm a ∧
        B2.Pairwise (fun x y => ordKey rests x ≤ ordKey rests y) ∧
        (∀ x ∈ F2, ∀ y ∈ B2, ordKey rests x ≤ ordKey rests y) ∧
        (∀ t, (F2 ++ B2).filter (fun x => decide (ordKey rests x = t)) =
          a.filter (fun x => decide (ordKey rests x = t))) := by
  intro cnt
  induction cnt with
  | zero =>
    intro i a F B ha hB _ hs hd
    exact ⟨F, B, by simp [ha], by simp [hB], by rw [ha], hs, hd, fun t => by rw [ha]⟩
  | succ cnt ih =>
    intro i a F B ha hB hlen hs hd
    have hlenF : F.length = a.length - i := by
      rw [ha, List.length_append]; omega
    rw [List.range'_succ, List.foldl_cons, bubblePass_eq]
    have hk : a.length - i - 1 + 1 ≤ F.length := by omega
    have e1 : bubbleRec (ordKey rests) (a.length - i - 1) a =
        bubbleRec (ordKey rests) (a.length - i - 1) F ++ B := by
      rw [ha]
      have := bubbleRec_append (ordKey rests) ((F ++ B).length - i - 1) F B (by rw [← ha]; exact hk)
      exact this
    obtain ⟨F1, mx, e2, hmx⟩ := bubbleRec_max (ordKey rests) (a.length - i - 1) F (by omega)
    have hperm : (F1 ++ [mx]).Perm F := e2 ▸ bubbleRec_perm (ordKey rests) _ F
    have hfilt : ∀ t, (F1 ++ [mx]).filter (fun x => decide (ordKey rests x = t)) =
        F.filter (fun x => decide (ordKey rests x = t)) :=
      fun t => e2 ▸ bubbleRec_filter (ordKey rests) t _ F
    have hmemF : ∀ z, z ∈ F1 ++ [mx] → z ∈ F := fun z hz => hperm.subset hz
    have ea : bubbleRec (ordKey rests) (a.length - i - 1) a = F1 ++ mx :: B := by
      rw [e1, e2]; simp
    rw [ea]
    have hlen1 : F1.length + 1 = F.length := by
      have := hperm.length_eq
      simpa using this
    obtain ⟨F2, B2, r1, r2, r3, r4, r5, r6⟩ := ih (i + 1) (F1 ++ mx :: B) F1 (mx :: B) rfl
      (by simp [hB]) (by simp only [List.length_append, List.length_cons]; omega)
      (by
        rw [List.pairwise_cons]
        exact ⟨fun y hy => hd mx (hmemF mx (by simp)) y hy, hs⟩)
      (by
        intro x hx y hy
        rcases List.mem_cons.1 hy with rfl | hy
        · exact hmx x (hmemF x (by simp [hx]))
        · exact hd x (hmemF x (by simp [hx])) y hy)
    have hpa : (F1 ++ mx :: B).Perm a := by
      rw [ha]
      have : F1 ++ mx :: B = (F1 ++ [mx]) ++ B := by simp
      rw [this]
      exact hperm.append_right B
    refine ⟨F2, B2, r1, by omega, r3.trans hpa, r4, r5, ?_⟩
    intro t
    rw [r6 t, ha]
    have : F1 ++ mx :: B = (F1 ++ [mx]) ++ B := by simp
    rw [this, List.filter_append, hfilt t, List.filter_append]

theorem bubbleSort_spec (rests : List Restaurant) (a : List OrdInfo) :
    (bubbleSort rests a).Perm a ∧
      (bubbleSort rests a).Pairwise (fun x y => ordKey rests x ≤ ordKey rests y) ∧
      (∀ t, (bubbleSort rests a).filter (fun x => decide (ordKey rests x = t)) =
          a.filter (fun x => decide (ordKey rests x = t))) := by
  unfold bubbleSort
  by_cases h : a.length = 0
  · have : a = [] := List.length_eq_zero.1 h
    subst this
    simp
  · obtain ⟨F2, B2, r1, r2, r3, r4, r5, r6⟩ := foldl_bubblePass rests (a.length - 1) 0 a a []
      (by simp) rfl (by omega) List.Pairwise.nil (by simp)
    rw [List.range_eq_range', r1]
    refine ⟨r3, ?_, r6⟩
    rw [List.pairwise_append]
    refine ⟨?_, r4, r5⟩
    have hl : F2.length + B2.length = a.length := by
      have := r3.length_eq
      simpa using this
    have : F2.length ≤ 1 := by omega
    match F2, this with
    | [], _ => exact List.Pairwise.nil
    | [x], _ => exact List.pairwise_singleton _ _

/-! ## Lemmas: the restaurant array and the `assigned` flags -/

theorem getD_set {α : Type} (l : List α) (i j : Nat) (a d : α) :
    (l.set i a).getD j d = if i = j ∧ i < l.length then a else l.getD j d := by
  rw [List.getD_eq_getElem?_getD, List.getD_eq_getElem?_getD, List.getElem?_set]
  by_cases h : i = j
  · subst h
    by_cases h2 : i < l.length
    · simp [h2]
    · simp [h2, List.getElem?_eq_none (not_lt.1 h2)]
  · simp [h]

theorem derefRest_setAssigned (rests : List Restaurant) (p : OrderRef) (i : Nat) :
    derefRest (setAssigned rests p) i =
      if p.rest = i ∧ p.rest < rests.length then
        { derefRest rests p.rest with
          orders := (derefRest rests p.rest).orders.set p.idx
            { derefOrder rests p with assigned := true } }
      else derefRest rests i := by
  unfold setAssigned derefRest
  rw [getD_set]

theorem derefOrder_setAssigned (rests : List Restaurant) (p q : OrderRef) :
    derefOrder (setAssigned rests p) q =
      if p = q ∧ InRange rests p then { derefOrder rests q with assigned := true }
      else derefOrder rests q := by
  unfold derefOrder
  rw [derefRest_setAssigned]
  by_cases h1 : p.rest = q.rest ∧ p.rest < rests.length
  · rw [if_pos h1]
    dsimp only
    rw [getD_set]
    by_cases h2 : p.idx = q.idx ∧ p.idx < (derefRest rests p.rest).orders.length
    · have e : p = q := by
        cases p; cases q
        simp only [OrderRef.mk.injEq]
        exact ⟨h1.1, h2.1⟩
      rw [if_pos h2, if_pos ⟨e, h1.2, h2.2⟩]
      unfold derefOrder
      rw [e]
    · rw [if_neg h2, h1.1]
      have : ¬ (p = q ∧ InRange rests p) := by
        rintro ⟨e, hr⟩
        exact h2 ⟨by rw [e], hr.2⟩
      rw [if_neg this]
  · rw [if_neg h1]
    have : ¬ (p = q ∧ InRange rests p) := by
      rintro ⟨e, hr⟩
      exact h1 ⟨by rw [e], hr.1⟩
    rw [if_neg this]

theorem sameData_refl (r : List Restaurant) : SameData r r :=
  ⟨rfl, fun _ => rfl, fun _ => rfl, fun _ => rfl, fun _ => rfl, fun _ => rfl, fun _ => rfl⟩

theorem sameData_trans (r1 r2 r3 : List Restaurant) (h1 : SameData r1 r2)
    (h2 : SameData r2 r3) : SameData r1 r3 :=
  ⟨h2.len.trans h1.len, fun i => (h2.restLoc i).trans (h1.restLoc i),
    fun i => (h2.restName i).trans (h1.restName i),
    fun i => (h2.ordLen i).trans (h1.ordLen i),
    fun q => (h2.ordLoc q).trans (h1.ordLoc q),
    fun q => (h2.ordTime q).trans (h1.ordTime q),
    fun q => (h2.ordName q).trans (h1.ordName q)⟩

theorem sameData_setAssigned (rests : List Restaurant) (p : OrderRef) :
    SameData rests (setAssigned rests p) := by
  refine ⟨by simp [setAssigned], ?_, ?_, ?_, ?_, ?_, ?_⟩
  · intro i
    rw [derefRest_setAssigned]
    by_cases h : p.rest = i ∧ p.rest < rests.length
    · rw [if_pos h, h.1]
    · rw [if_neg h]
  · intro i
    rw [derefRest_setAssigned]
    by_cases h : p.rest = i ∧ p.rest < rests.length
    · rw [if_pos h, h.1]
    · rw [if_neg h]
  · intro i
    rw [derefRest_setAssigned]
    by_cases h : p.rest = i ∧ p.rest < rests.length
    · rw [if_pos h, ← h.1]; simp
    · rw [if_neg h]
  · intro q
    rw [derefOrder_setAssigned]
    by_cases h : p = q ∧ InRange rests p
    · rw [if_pos h]
    · rw [if_neg h]
  · intro q
    rw [derefOrder_setAssigned]
    by_cases h : p = q ∧ InRange rests p
    · rw [if_pos h]
    · rw [if_neg h]
  · intro q
    rw [derefOrder_setAssigned]
    by_cases h : p = q ∧ InRange rests p
    · rw [if_pos h]
    · rw [if_neg h]

theorem assigned_setAssigned (rests : List Restaurant) (p q : OrderRef) (hp : InRange rests p) :
    (derefOrder (setAssigned rests p) q).assigned = true ↔
      (derefOrder rests q).assigned = true ∨ p = q := by
  rw [derefOrder_setAssigned]
  by_cases h : p = q
  · simp [h, hp, h ▸ hp]
  · simp [h]

theorem sameData_inRange (r1 r2 : List Restaurant) (h : SameData r1 r2) (p : OrderRef) :
    InRange r2 p ↔ InRange r1 p := by
  unfold InRange
  rw [h.len, h.ordLen]

theorem sameData_feasible (n : Int) (r1 r2 : List Restaurant) (h : SameData r1 r2)
    (x : OrdInfo) : Feasible n r2 x ↔ Feasible n r1 x := by
  unfold Feasible
  rw [h.restLoc, h.ordLoc, h.ordTime]

theorem sameData_entryOK (n : Int) (r1 r2 : List Restaurant) (h : SameData r1 r2)
    (x : OrdInfo) : EntryOK n r2 x ↔ EntryOK n r1 x := by
  unfold EntryOK
  rw [sameData_inRange r1 r2 h, h.restLoc, h.ordLoc]

theorem updAt_same {α : Type} (a : Nat → α) (i : Nat) (v : α) : updAt a i v i = v := by
  simp [updAt]

theorem updAt_other {α : Type} (a : Nat → α) (i j : Nat) (v : α) (h : j ≠ i) :
    updAt a i v j = a j := by
  simp [updAt, h]

theorem updAt_updAt {α : Type} (a : Nat → α) (i : Nat) (v w : α) :
    updAt (updAt a i v) i w = updAt a i w := by
  funext j
  by_cases h : j = i <;> simp [updAt, h]

/-! ## Lemmas: the assignment loop of `optimize` -/

theorem selectRider_zero (numRiders : Nat) (routeTimes : Nat → Int)
    (h : ∀ r, routeTimes r = 0) : selectRider numRiders routeTimes = 0 := by
  unfold selectRider
  have key : ∀ (l : List Nat),
      l.foldl (fun (acc : Nat × Int) (r : Nat) =>
        if routeTimes r < acc.2 then (r, routeTimes r) else acc) (0, 0) = (0, 0) := by
    intro l
    induction l with
    | nil => rfl
    | cons x xs ih => rw [List.foldl_cons, h x]; simpa using ih
  rw [h 0, key]

theorem assignStep_valid (n : Int) (hn : 1 ≤ n) (ro : RouteOptimizer) (x : OrdInfo)
    (hg : IsGrid n ro.graph) (hx : EntryOK n ro.rests x) :
    ∃ g1, IsGrid n g1 ∧ assignStep ro x = some
      (if Feasible n ro.rests x then
        { ro with
          graph := g1
          assignments := updAt ro.assignments (selectRider ro.numRiders ro.routeTimes)
            (ro.assignments (selectRider ro.numRiders ro.routeTimes) ++ [toAssign x])
          rests := setAssigned ro.rests x.order }
      else { ro with graph := g1 }) := by
  obtain ⟨g1, e, h1⟩ := getDistance_grid n hn ro.graph hg _ _ hx.2.2.1 hx.2.2.2
  refine ⟨g1, h1, ?_⟩
  unfold assignStep
  simp only [e]
  by_cases hf : Feasible n ro.rests x
  · have : ¬ manhattan n (derefRest ro.rests x.rest).location
        (derefOrder ro.rests x.order).location > (derefOrder ro.rests x.order).timeLimit := by
      unfold Feasible at hf; omega
    rw [if_neg this, if_pos hf]
    rfl
  · have : manhattan n (derefRest ro.rests x.rest).location
        (derefOrder ro.rests x.order).location > (derefOrder ro.rests x.order).timeLimit := by
      unfold Feasible at hf; omega
    rw [if_pos this, if_neg hf]

/-- Effect of the assignment loop on a valid input: every feasible entry, in list order, is
appended to the pending list of the rider chosen by `selectRider`, and exactly the feasible
entries get their `assigned` flag set. -/
theorem assignLoop_valid (n : Int) (hn : 1 ≤ n) :
    ∀ (l : List OrdInfo) (ro : RouteOptimizer), IsGrid n ro.graph →
      (∀ x ∈ l, EntryOK n ro.rests x) →
      ∃ ro1, assignLoop ro l = some ro1 ∧ IsGrid n ro1.graph ∧
        ro1.numRiders = ro.numRiders ∧ ro1.routeTimes = ro.routeTimes ∧
        ro1.routes = ro.routes ∧ SameData ro.rests ro1.rests ∧
        (∀ q, (derefOrder ro1.rests q).assigned = true ↔
          (derefOrder ro.rests q).assigned = true ∨
            ∃ x ∈ l, x.order = q ∧ Feasible n ro.rests x) ∧
        ro1.assignments = updAt ro.assignments (selectRider ro.numRiders ro.routeTimes)
          (ro.assignments (selectRider ro.numRiders ro.routeTimes) ++
            (l.filter (fun x => decide (Feasible n ro.rests x))).map toAssign) := by
  intro l
  induction l with
  | nil =>
    intro ro hg _
    refine ⟨ro, rfl, hg, rfl, rfl, rfl, sameData_refl _, by simp, ?_⟩
    funext j
    by_cases h : j = selectRider ro.numRiders ro.routeTimes <;> simp [updAt, h]
  | cons x xs ih =>
    intro ro hg hl
    obtain ⟨g1, hg1, e⟩ := assignStep_valid n hn ro x hg (hl x (by simp))
    have hxok := hl x (by simp)
    by_cases hf : Feasible n ro.rests x
    · rw [if_pos hf] at e
      have hsd : SameData ro.rests (setAssigned ro.rests x.order) :=
        sameData_setAssigned _ _
      obtain ⟨ro1, r1, r2, r3, r4, r5, r6, r7, r8⟩ := ih
        { ro with
          graph := g1
          assignments := updAt ro.assignments (selectRider ro.numRiders ro.routeTimes)
            (ro.assignments (selectRider ro.numRiders ro.routeTimes) ++ [toAssign x])
          rests := setAssigned ro.rests x.order } hg1 (by
        intro y hy
        exact (sameData_entryOK n _ _ hsd y).2 (hl y (List.mem_cons_of_mem _ hy)))
      dsimp only at r3 r4 r5 r6 r7 r8
      refine ⟨ro1, by simp [assignLoop, foldlOpt, e]; exact r1, r2, r3, r4, r5,
        sameData_trans _ _ _ hsd r6, ?_, ?_⟩
      · intro q
        rw [r7 q, assigned_setAssigned _ _ _ hxok.2.1]
        simp only [List.mem_cons, exists_eq_or_imp]
        constructor
        · rintro ((h | h) | ⟨y, hy, hyq, hyf⟩)
          · exact Or.inl h
          · exact Or.inr (Or.inl ⟨h, hf⟩)
          · exact Or.inr (Or.inr ⟨y, hy, hyq, (sameData_feasible n _ _ hsd y).1 hyf⟩)
        · rintro (h | ⟨h, _⟩ | ⟨y, hy, hyq, hyf⟩)
          · exact Or.inl (Or.inl h)
          · exact Or.inl (Or.inr h)
          · exact Or.inr ⟨y, hy, hyq, (sameData_feasible n _ _ hsd y).2 hyf⟩
      · rw [r8, updAt_updAt, updAt_same]
        have e2 : (xs.filter (fun y => decide (Feasible n (setAssigned ro.rests x.order) y))) =
            xs.filter (fun y => decide (Feasible n ro.rests y)) := by
          apply List.filter_congr
          intro y _
          simp [sameData_feasible n _ _ hsd y]
        rw [e2]
        simp [List.filter_cons, hf]
    · rw [if_neg hf] at e
      obtain ⟨ro1, r1, r2, r3, r4, r5, r6, r7, r8⟩ := ih { ro with graph := g1 } hg1 (by
        intro y hy
        exact hl y (List.mem_cons_of_mem _ hy))
      dsimp only at r3 r4 r5 r6 r7 r8
      refine ⟨ro1, by simp [assignLoop, foldlOpt, e]; exact r1, r2, r3, r4, r5, r6, ?_, ?_⟩
      · intro q
        rw [r7 q]
        simp only [List.mem_cons, exists_eq_or_imp]
        constructor
        · rintro (h | h)
          · exact Or.inl h
          · exact Or.inr (Or.inr h)
        · rintro (h | ⟨_, h⟩ | h)
          · exact Or.inl h
          · exact absurd h hf
          · exact Or.inr h
      · rw [r8]
        simp [List.filter_cons, hf]

/-- On every input the assignment loop returns; the entries it appends form a subsequence of
`allOrds` and all go to the pending list of the rider chosen by `selectRider`. -/
theorem assignLoop_general :
    ∀ (l : List OrdInfo) (ro : RouteOptimizer),
      ∃ ro1 l1, assignLoop ro l = some ro1 ∧ List.Sublist l1 l ∧
        ro1.numRiders = ro.numRiders ∧ ro1.routeTimes = ro.routeTimes ∧
        ro1.routes = ro.routes ∧
        ro1.assignments = updAt ro.assignments (selectRider ro.numRiders ro.routeTimes)
          (ro.assignments (selectRider ro.numRiders ro.routeTimes) ++ l1.map toAssign) := by
  intro l
  induction l with
  | nil =>
    intro ro
    refine ⟨ro, [], rfl, List.Sublist.refl _, rfl, rfl, rfl, ?_⟩
    funext j
    by_cases h : j = selectRider ro.numRiders ro.routeTimes <;> simp [updAt, h]
  | cons x xs ih =>
    intro ro
    obtain ⟨d, g1, e, _⟩ := getDistance_total ro.graph (derefRest ro.rests x.rest).location
      (derefOrder ro.rests x.order).location
    by_cases hd : d > (derefOrder ro.rests x.order).timeLimit
    · obtain ⟨ro1, l1, r1, r2, r3, r4, r5, r6⟩ := ih { ro with graph := g1 }
      refine ⟨ro1, l1, ?_, r2.cons x, r3, r4, r5, r6⟩
      simp only [assignLoop, foldlOpt, assignStep, e, hd, if_true]
      exact r1
    · obtain ⟨ro1, l1, r1, r2, r3, r4, r5, r6⟩ := ih
        { ro with
          graph := g1
          assignments := updAt ro.assignments (selectRider ro.numRiders ro.routeTimes)
            (ro.assignments (selectRider ro.numRiders ro.routeTimes) ++ [toAssign x])
          rests := setAssigned ro.rests x.order }
      dsimp only at r3 r4 r5 r6
      refine ⟨ro1, x :: l1, ?_, r2.cons₂ x, r3, r4, r5, ?_⟩
      · simp only [assignLoop, foldlOpt, assignStep, e, hd, if_false]
        exact r1
      · rw [r6, updAt_updAt, updAt_same]
        simp

/-! ## Lemmas: `buildRoute` -/

theorem foldlOpt_cons {σ α : Type} (f : σ → α → Option σ) (s : σ) (a : α) (l : List α) :
    foldlOpt f s (a :: l) = (f s a).bind (fun s1 => foldlOpt f s1 l) := by
  rw [foldlOpt]
  cases f s a <;> rfl

theorem groupStep_ok (n : Int) (rests : List Restaurant) (gs : Groups) (a : Assign)
    (hgs : GroupsOK n rests gs) (ha : AssignOK n rests a) :
    GroupsOK n rests (groupStep gs a) := by
  unfold groupStep
  cases hf : findRest gs.uRests a.rest with
  | none =>
    dsimp only
    constructor
    · intro r hr
      rcases List.mem_append.1 hr with hr | hr
      · exact hgs.1 r hr
      · rw [List.mem_singleton.1 hr]; exact ha.1
    · intro os hos p hp
      rcases List.mem_append.1 hos with hos | hos
      · exact hgs.2 os hos p hp
      · rw [List.mem_singleton.1 hos] at hp
        rw [List.mem_singleton.1 hp]; exact ha.2
  | some idx =>
    dsimp only
    refine ⟨hgs.1, ?_⟩
    intro os hos p hp
    rcases List.mem_or_eq_of_mem_set hos with hos | hos
    · exact hgs.2 os hos p hp
    · rw [hos] at hp
      rcases List.mem_append.1 hp with hp | hp
      · by_cases hi : idx < gs.rOrds.length
        · rw [List.getD_eq_getElem _ _ hi] at hp
          exact hgs.2 _ (List.getElem_mem hi) p hp
        · rw [List.getD_eq_default _ _ (not_lt.1 hi)] at hp
          simp at hp
      · rw [List.mem_singleton.1 hp]; exact ha.2

theorem groupAssignments_ok (n : Int) (rests : List Restaurant) (as : List Assign)
    (h : ∀ a ∈ as, AssignOK n rests a) : GroupsOK n rests (groupAssignments as) := by
  unfold groupAssignments
  have key : ∀ (l : List Assign) (gs : Groups), GroupsOK n rests gs →
      (∀ a ∈ l, AssignOK n rests a) → GroupsOK n rests (l.foldl groupStep gs) := by
    intro l
    induction l with
    | nil => intro gs hgs _; exact hgs
    | cons x xs ih =>
      intro gs hgs hl
      rw [List.foldl_cons]
      exact ih _ (groupStep_ok n rests gs x hgs (hl x (by simp)))
        (fun a ha => hl a (List.mem_cons_of_mem _ ha))
  exact key as ⟨[], []⟩ ⟨by simp, by simp⟩ h

theorem selectOrderStep_valid (n : Int) (hn : 1 ≤ n) (rests : List Restaurant)
    (ords : List OrderRef) (deliv : Nat → Bool) (curLoc : Int)
    (hc : ValidNode (n * n) curLoc) (acc : Sel) (x : Nat) (hg : IsGrid n acc.graph)
    (hx : ValidNode (n * n) (derefOrder rests (ords.getD x default)).location) :
    ∃ acc1, selectOrderStep rests ords deliv curLoc acc x = some acc1 ∧ IsGrid n acc1.graph ∧
      ((acc1.nearIdx = acc.nearIdx ∧ acc1.minDist = acc.minDist) ∨
        (acc1.nearIdx = some x ∧ acc1.minDist =
          manhattan n curLoc (derefOrder rests (ords.getD x default)).location)) := by
  unfold selectOrderStep
  by_cases hd : deliv x = true
  · rw [if_pos hd]
    exact ⟨acc, rfl, hg, Or.inl ⟨rfl, rfl⟩⟩
  · rw [if_neg hd]
    obtain ⟨g1, e1, hg1⟩ := getDistance_grid n hn acc.graph hg curLoc _ hc hx
    simp only [e1]
    by_cases hlt : manhattan n curLoc (derefOrder rests (ords.getD x default)).location
        < acc.minDist
    · rw [if_pos hlt]
      exact ⟨_, rfl, hg1, Or.inr ⟨rfl, rfl⟩⟩
    · rw [if_neg hlt]
      exact ⟨_, rfl, hg1, Or.inl ⟨rfl, rfl⟩⟩

/-- The order scan returns on valid data; the index it reports was scanned, and `minODist`
is the distance from `curLoc` to that order. -/
theorem selectOrder_total (n : Int) (hn : 1 ≤ n) (rests : List Restaurant)
    (ords : List OrderRef) (deliv : Nat → Bool) (curLoc : Int)
    (hc : ValidNode (n * n) curLoc) :
    ∀ (l : List Nat) (acc : Sel), IsGrid n acc.graph →
      (∀ k ∈ l, ValidNode (n * n) (derefOrder rests (ords.getD k default)).location) →
      ∃ sel, foldlOpt (selectOrderStep rests ords deliv curLoc) acc l = some sel ∧
        IsGrid n sel.graph ∧
        ((sel.nearIdx = acc.nearIdx ∧ sel.minDist = acc.minDist) ∨
          ∃ k ∈ l, sel.nearIdx = some k ∧
            sel.minDist =
              manhattan n curLoc (derefOrder rests (ords.getD k default)).location) := by
  intro l
  induction l with
  | nil => intro acc hg _; exact ⟨acc, rfl, hg, Or.inl ⟨rfl, rfl⟩⟩
  | cons x xs ih =>
    intro acc hg hl
    have hxs : ∀ k ∈ xs,
        ValidNode (n * n) (derefOrder rests (ords.getD k default)).location :=
      fun k hk => hl k (List.mem_cons_of_mem _ hk)
    obtain ⟨acc1, e1, hg1, hacc⟩ := selectOrderStep_valid n hn rests ords deliv curLoc hc acc x
      hg (hl x (by simp))
    obtain ⟨sel, e, h1, h2⟩ := ih acc1 hg1 hxs
    refine ⟨sel, by rw [foldlOpt_cons, e1]; exact e, h1, ?_⟩
    rcases h2 with h2 | ⟨k, hk, h2⟩
    · rcases hacc with hacc | hacc
      · exact Or.inl ⟨h2.1.trans hacc.1, h2.2.trans hacc.2⟩
      · exact Or.inr ⟨x, by simp, h2.1.trans hacc.1, h2.2.trans hacc.2⟩
    · exact Or.inr ⟨k, List.mem_cons_of_mem _ hk, h2⟩

theorem selectRestStep_valid (n : Int) (hn : 1 ≤ n) (rests : List Restaurant)
    (uRests : List Nat) (visited : Nat → Bool) (curLoc : Int)
    (hc : curLoc = 0 ∨ ValidNode (n * n) curLoc) (acc : Sel) (x : Nat)
    (hg : IsGrid n acc.graph)
    (hx : ValidNode (n * n) (derefRest rests (uRests.getD x 0)).location) :
    ∃ acc1, selectRestStep rests uRests visited curLoc acc x = some acc1 ∧
      IsGrid n acc1.graph ∧ (acc1.nearIdx = acc.nearIdx ∨ acc1.nearIdx = some x) := by
  unfold selectRestStep
  by_cases hd : visited x = true
  · rw [if_pos hd]
    exact ⟨acc, rfl, hg, Or.inl rfl⟩
  · rw [if_neg hd]
    have hq : ∃ d g1, (if curLoc = 0 then some (0, acc.graph)
        else getDistance acc.graph curLoc (derefRest rests (uRests.getD x 0)).location) =
          some (d, g1) ∧ IsGrid n g1 := by
      by_cases h0 : curLoc = 0
      · exact ⟨0, acc.graph, by rw [if_pos h0], hg⟩
      · rcases hc with hc | hc
        · exact absurd hc h0
        · obtain ⟨g1, e1, hg1⟩ := getDistance_grid n hn acc.graph hg curLoc _ hc hx
          exact ⟨_, g1, by rw [if_neg h0, e1], hg1⟩
    obtain ⟨d, g1, e1, hg1⟩ := hq
    simp only [e1]
    by_cases hlt : d < acc.minDist
    · rw [if_pos hlt]
      exact ⟨_, rfl, hg1, Or.inr rfl⟩
    · rw [if_neg hlt]
      exact ⟨_, rfl, hg1, Or.inl rfl⟩

/-- The restaurant scan returns on valid data; the index it reports was scanned. -/
theorem selectRest_total (n : Int) (hn : 1 ≤ n) (rests : List Restaurant)
    (uRests : List Nat) (visited : Nat → Bool) (curLoc : Int)
    (hc : curLoc = 0 ∨ ValidNode (n * n) curLoc) :
    ∀ (l : List Nat) (acc : Sel), IsGrid n acc.graph →
      (∀ k ∈ l, ValidNode (n * n) (derefRest rests (uRests.getD k 0)).location) →
      ∃ sel, foldlOpt (selectRestStep rests uRests visited curLoc) acc l = some sel ∧
        IsGrid n sel.graph ∧ (sel.nearIdx = acc.nearIdx ∨ ∃ k ∈ l, sel.nearIdx = some k) := by
  intro l
  induction l with
  | nil => intro acc hg _; exact ⟨acc, rfl, hg, Or.inl rfl⟩
  | cons x xs ih =>
    intro acc hg hl
    have hxs : ∀ k ∈ xs, ValidNode (n * n) (derefRest rests (uRests.getD k 0)).location :=
      fun k hk => hl k (List.mem_cons_of_mem _ hk)
    obtain ⟨acc1, e1, hg1, hacc⟩ := selectRestStep_valid n hn rests uRests visited curLoc hc
      acc x hg (hl x (by simp))
    obtain ⟨sel, e, h1, h2⟩ := ih acc1 hg1 hxs
    refine ⟨sel, by rw [foldlOpt_cons, e1]; exact e, h1, ?_⟩
    rcases h2 with h2 | ⟨k, hk, h2⟩
    · rcases hacc with hacc | hacc
      · exact Or.inl (h2.trans hacc)
      · exact Or.inr ⟨x, by simp, h2.trans hacc⟩
    · exact Or.inr ⟨k, List.mem_cons_of_mem _ hk, h2⟩

theorem getD_valid_of_mem {α : Type} (l : List α) (d : α) (k : Nat) (hk : k < l.length) :
    l.getD k d ∈ l := by
  rw [List.getD_eq_getElem _ _ hk]
  exact List.getElem_mem hk

/-- The delivery loop returns on valid data and ends at a valid node. -/
theorem deliverLoop_total (n : Int) (hn : 1 ≤ n) (rests : List Restaurant)
    (ords : List OrderRef)
    (hords : ∀ p ∈ ords, ValidNode (n * n) (derefOrder rests p).location) :
    ∀ (j : Nat) (deliv : Nat → Bool) (st : BuildState), IsGrid n st.graph →
      ValidNode (n * n) st.curLoc →
      ∃ st1, deliverLoop rests ords j deliv st = some st1 ∧ IsGrid n st1.graph ∧
        ValidNode (n * n) st1.curLoc := by
  intro j
  induction j with
  | zero => intro deliv st hg hc; exact ⟨st, rfl, hg, hc⟩
  | succ j ih =>
    intro deliv st hg hc
    obtain ⟨sel, e, h1, h2⟩ := selectOrder_total n hn rests ords deliv st.curLoc hc
      (List.range ords.length) ⟨none, INT_MAX, st.graph⟩ hg (by
        intro k hk
        exact hords _ (getD_valid_of_mem ords default k (List.mem_range.1 hk)))
    rw [deliverLoop]
    simp only [e]
    cases hsel : sel.nearIdx with
    | none => exact ⟨{ st with graph := sel.graph }, rfl, h1, hc⟩
    | some nearOrd =>
      dsimp only
      have hk : nearOrd < ords.length := by
        rcases h2 with h2 | ⟨k, hk, h2, _⟩
        · rw [hsel] at h2; exact absurd h2.1 (by simp)
        · rw [hsel] at h2
          simp only [Option.some.injEq] at h2
          rw [h2]; exact List.mem_range.1 hk
      have hv := hords _ (getD_valid_of_mem ords default nearOrd hk)
      obtain ⟨path, g2, e2, hg2, _⟩ := getPath_grid n hn sel.graph h1 st.curLoc _ hc hv
      simp only [e2]
      exact ih _ _ hg2 hv

/-- The restaurant loop returns on valid data. -/
theorem restLoop_total (n : Int) (hn : 1 ≤ n) (rests : List Restaurant) (gs : Groups)
    (hgs : GroupsOK n rests gs) :
    ∀ (i : Nat) (visited : Nat → Bool) (st : BuildState), IsGrid n st.graph →
      (st.curLoc = 0 ∨ ValidNode (n * n) st.curLoc) →
      ∃ st1, restLoop rests gs i visited st = some st1 ∧ IsGrid n st1.graph := by
  intro i
  induction i with
  | zero => intro visited st hg _; exact ⟨st, rfl, hg⟩
  | succ i ih =>
    intro visited st hg hc
    obtain ⟨sel, e, h1, h2⟩ := selectRest_total n hn rests gs.uRests visited st.curLoc hc
      (List.range gs.uRests.length) ⟨none, INT_MAX, st.graph⟩ hg (by
        intro k hk
        exact hgs.1 _ (getD_valid_of_mem gs.uRests 0 k (List.mem_range.1 hk)))
    rw [restLoop]
    simp only [e]
    cases hsel : sel.nearIdx with
    | none => exact ⟨{ st with graph := sel.graph }, rfl, h1⟩
    | some nearIdx =>
      dsimp only
      have hk : nearIdx < gs.uRests.length := by
        rcases h2 with h2 | ⟨k, hk, h2⟩
        · rw [hsel] at h2; exact absurd h2 (by simp)
        · rw [hsel] at h2
          simp only [Option.some.injEq] at h2
          rw [h2]; exact List.mem_range.1 hk
      have hv := hgs.1 _ (getD_valid_of_mem gs.uRests 0 nearIdx hk)
      have hleg : ∃ st1, restLeg (derefRest rests (gs.uRests.getD nearIdx 0)) sel st =
          some st1 ∧ IsGrid n st1.graph := by
        unfold restLeg
        by_cases h0 : st.curLoc = 0
        · simp only [h0, ne_eq, not_true_eq_false, if_false]
          exact ⟨_, rfl, h1⟩
        · rcases hc with hc | hc
          · exact absurd hc h0
          · obtain ⟨path, g2, e2, hg2, _⟩ := getPath_grid n hn sel.graph h1 st.curLoc _ hc hv
            simp only [ne_eq, h0, not_false_eq_true, if_true, e2]
            exact ⟨_, rfl, hg2⟩
      obtain ⟨st1, e1, hg1⟩ := hleg
      simp only [e1]
      have hords : ∀ p ∈ gs.rOrds.getD nearIdx [],
          ValidNode (n * n) (derefOrder rests p).location := by
        intro p hp
        by_cases hi : nearIdx < gs.rOrds.length
        · exact hgs.2 _ (getD_valid_of_mem gs.rOrds [] nearIdx hi) p hp
        · rw [List.getD_eq_default _ _ (not_lt.1 hi)] at hp
          simp at hp
      obtain ⟨st2, e2, hg2, hc2⟩ := deliverLoop_total n hn rests (gs.rOrds.getD nearIdx [])
        hords (gs.rOrds.getD nearIdx []).length (fun _ => false)
        { st1 with curLoc := (derefRest rests (gs.uRests.getD nearIdx 0)).location } hg1 hv
      simp only [e2]
      exact ih _ _ hg2 (Or.inr hc2)

/-- On valid data `buildRoute(rid)` returns; it changes only the graph's scratch buffers and
the route and total time of rider `rid`. -/
theorem buildRoute_total (n : Int) (hn : 1 ≤ n) (ro : RouteOptimizer) (rid : Nat)
    (hg : IsGrid n ro.graph) (ha : ∀ a ∈ ro.assignments rid, AssignOK n ro.rests a) :
    ∃ st : BuildState, buildRoute ro rid = some
        { ro with
          graph := st.graph
          routes := updAt ro.routes rid st.route
          routeTimes := updAt ro.routeTimes rid st.time } ∧ IsGrid n st.graph := by
  have hgs := groupAssignments_ok n ro.rests (ro.assignments rid) ha
  obtain ⟨st, e, h⟩ := restLoop_total n hn ro.rests _ hgs
    (groupAssignments (ro.assignments rid)).uRests.length (fun _ => false)
    { graph := ro.graph, curLoc := 0, route := [], time := 0 } hg (Or.inl rfl)
  exact ⟨st, by simp only [buildRoute, e], h⟩

/-- On valid data the route-building loop of `optimize` returns; it leaves `rests` and the
pending lists alone, and leaves the route and total time of every rider with an empty pending
list alone. -/
theorem buildLoop_total (n : Int) (hn : 1 ≤ n) :
    ∀ (l : List Nat) (ro : RouteOptimizer), IsGrid n ro.graph →
      (∀ r, ∀ a ∈ ro.assignments r, AssignOK n ro.rests a) →
      ∃ ro1, foldlOpt buildStep ro l = some ro1 ∧ IsGrid n ro1.graph ∧
        ro1.rests = ro.rests ∧ ro1.assignments = ro.assignments ∧
        ro1.numRiders = ro.numRiders ∧
        (∀ r, ro.assignments r = [] → ro1.routes r = ro.routes r ∧
          ro1.routeTimes r = ro.routeTimes r) := by
  intro l
  induction l with
  | nil => intro ro hg _; exact ⟨ro, rfl, hg, rfl, rfl, rfl, fun _ _ => ⟨rfl, rfl⟩⟩
  | cons x xs ih =>
    intro ro hg ha
    rw [foldlOpt_cons]
    unfold buildStep
    by_cases hx : (ro.assignments x).length > 0
    · rw [if_pos hx]
      obtain ⟨st, e, hg1⟩ := buildRoute_total n hn ro x hg (ha x)
      rw [e]
      obtain ⟨ro1, r1, r2, r3, r4, r5, r6⟩ := ih
        { ro with
          graph := st.graph
          routes := updAt ro.routes x st.route
          routeTimes := updAt ro.routeTimes x st.time } hg1 ha
      dsimp only at r3 r4 r5 r6
      refine ⟨ro1, by simpa using r1, r2, r3, r4, r5, ?_⟩
      intro r hr
      have hrx : r ≠ x := by
        intro e2
        rw [e2] at hr
        rw [hr] at hx
        simp at hx
      obtain ⟨q1, q2⟩ := r6 r hr
      rw [q1, q2, updAt_other _ _ _ _ hrx, updAt_other _ _ _ _ hrx]
      exact ⟨rfl, rfl⟩
    · rw [if_neg hx]
      obtain ⟨ro1, r1, r⟩ := ih ro hg ha
      exact ⟨ro1, by simpa using r1, r⟩

/-! ## Lemmas: the flattened order list and the input records -/

theorem mem_flattenOrders (rests : List Restaurant) (x : OrdInfo) :
    x ∈ flattenOrders rests ↔ x.rest = x.order.rest ∧ InRange rests x.order := by
  unfold flattenOrders InRange
  simp only [List.mem_flatMap, List.mem_map, List.mem_range]
  constructor
  · rintro ⟨i, hi, j, hj, rfl⟩
    exact ⟨rfl, hi, hj⟩
  · rintro ⟨h1, h2, h3⟩
    refine ⟨x.order.rest, h2, x.order.idx, h3, ?_⟩
    cases x with
    | mk r o =>
      cases o
      simp only at h1
      simp [h1]

theorem flattenOrders_nodup (rests : List Restaurant) : (flattenOrders rests).Nodup := by
  unfold flattenOrders
  rw [List.nodup_flatMap]
  constructor
  · intro i _
    apply List.Nodup.map _ (List.nodup_range _)
    intro a b hab
    simp only [OrdInfo.mk.injEq, OrderRef.mk.injEq, true_and] at hab
    exact hab
  · apply List.Nodup.pairwise_of_forall_ne (List.nodup_range _)
    intro a _ b _ hab
    simp only [Function.onFun]
    rw [List.disjoint_left]
    intro x hx hx2
    simp only [List.mem_map, List.mem_range] at hx hx2
    obtain ⟨j, _, rfl⟩ := hx
    obtain ⟨k, _, hk⟩ := hx2
    simp only [OrdInfo.mk.injEq, OrderRef.mk.injEq] at hk
    exact hab hk.1.symm

theorem flattenOrders_nodup_order (rests : List Restaurant) :
    ((flattenOrders rests).map (fun x => x.order)).Nodup := by
  apply List.Nodup.map_on _ (flattenOrders_nodup rests)
  intro x hx y hy hxy
  have h1 := ((mem_flattenOrders rests x).1 hx).1
  have h2 := ((mem_flattenOrders rests y).1 hy).1
  cases x; cases y
  simp only at h1 h2 hxy
  simp only [OrdInfo.mk.injEq]
  exact ⟨by rw [h1, h2, hxy], hxy⟩

theorem restsValid_deref (n : Int) (rests : List Restaurant) (h : RestsValid n rests)
    (p : OrderRef) (hp : InRange rests p) :
    ValidNode (n * n) (derefRest rests p.rest).location ∧
      ValidNode (n * n) (derefOrder rests p).location := by
  have h1 : derefRest rests p.rest ∈ rests := getD_valid_of_mem rests default p.rest hp.1
  have h2 : derefOrder rests p ∈ (derefRest rests p.rest).orders :=
    getD_valid_of_mem _ default p.idx hp.2
  exact ⟨(h _ h1).1, (h _ h1).2 _ h2⟩

theorem restsValid_entryOK (n : Int) (rests : List Restaurant) (h : RestsValid n rests)
    (x : OrdInfo) (hx : x ∈ flattenOrders rests) : EntryOK n rests x := by
  obtain ⟨h1, h2⟩ := (mem_flattenOrders rests x).1 hx
  obtain ⟨h3, h4⟩ := restsValid_deref n rests h x.order h2
  exact ⟨h1, h2, by rw [h1]; exact h3, h4⟩

theorem readRestaurants_valid (gridSz : Int) (numRid : Nat) (inp : List RestaurantInput)
    (h : ValidInput gridSz numRid inp) : RestsValid gridSz (readRestaurants inp) := by
  intro r hr
  unfold readRestaurants at hr
  rw [List.mem_map] at hr
  obtain ⟨ri, hri, rfl⟩ := hr
  refine ⟨(h.2.2 ri hri).1, ?_⟩
  intro o ho
  dsimp only at ho
  rw [List.mem_map] at ho
  obtain ⟨oi, hoi, rfl⟩ := ho
  exact (h.2.2 ri hri).2 oi hoi

theorem unassigned_deref (rests : List Restaurant)
    (h : ∀ r ∈ rests, ∀ o ∈ r.orders, o.assigned = false) (q : OrderRef) :
    (derefOrder rests q).assigned = false := by
  unfold derefOrder
  by_cases h2 : q.idx < (derefRest rests q.rest).orders.length
  · have hm := getD_valid_of_mem _ (default : Order) q.idx h2
    by_cases h1 : q.rest < rests.length
    · exact h _ (getD_valid_of_mem rests default q.rest h1) _ hm
    · have : derefRest rests q.rest = default := by
        unfold derefRest
        exact List.getD_eq_default _ _ (not_lt.1 h1)
      rw [this] at h2
      simp [default] at h2
  · rw [List.getD_eq_default _ _ (not_lt.1 h2)]
    rfl

theorem readRestaurants_unassigned (inp : List RestaurantInput) (q : OrderRef) :
    (derefOrder (readRestaurants inp) q).assigned = false := by
  apply unassigned_deref
  intro r hr o ho
  unfold readRestaurants at hr
  rw [List.mem_map] at hr
  obtain ⟨ri, _, rfl⟩ := hr
  dsimp only at ho
  rw [List.mem_map] at ho
  obtain ⟨oi, _, rfl⟩ := ho
  rfl

/-- The state after the two passes of `optimize` on a valid test case. -/
theorem optimize_valid (gridSz : Int) (numRid : Nat) (inp : List RestaurantInput)
    (d0 p0 : Int → Int) (hv : ValidInput gridSz numRid inp) :
    ∃ ro, runTestCase gridSz numRid inp d0 p0 = some ro ∧
      SameData (readRestaurants inp) ro.rests ∧
      (∀ q, (derefOrder ro.rests q).assigned = true ↔
        InRange (readRestaurants inp) q ∧
          Feasible gridSz (readRestaurants inp) ⟨q.rest, q⟩) ∧
      ro.assignments = updAt (fun _ => []) 0
        (((bubbleSort (readRestaurants inp) (flattenOrders (readRestaurants inp))).filter
          (fun x => decide (Feasible gridSz (readRestaurants inp) x))).map toAssign) ∧
      (∀ r, ro.assignments r = [] → ro.routes r = [] ∧ ro.routeTimes r = 0) := by
  have hn := hv.1
  set rests := readRestaurants inp with hrests
  have hrv : RestsValid gridSz rests := readRestaurants_valid gridSz numRid inp hv
  obtain ⟨hperm, _, _⟩ := bubbleSort_spec rests (flattenOrders rests)
  set sorted := bubbleSort rests (flattenOrders rests) with hsorted
  have hok : ∀ x ∈ sorted, EntryOK gridSz rests x := fun x hx =>
    restsValid_entryOK gridSz rests hrv x (hperm.mem_iff.1 hx)
  obtain ⟨ro1, r1, r2, r3, r4, r5, r6, r7, r8⟩ := assignLoop_valid gridSz hn sorted
    (RouteOptimizer.new (GridGraph.init gridSz d0 p0) rests numRid)
    (isGrid_init gridSz d0 p0) hok
  have hsel : selectRider numRid (fun _ => (0 : Int)) = 0 :=
    selectRider_zero numRid _ (fun _ => rfl)
  simp only [RouteOptimizer.new] at r3 r4 r5 r6 r7 r8
  rw [hsel] at r8
  simp only [List.nil_append] at r8
  have hassignOK : ∀ r, ∀ a ∈ ro1.assignments r, AssignOK gridSz ro1.rests a := by
    intro r a ha
    rw [r8] at ha
    by_cases hr : r = 0
    · rw [hr, updAt_same, List.mem_map] at ha
      obtain ⟨x, hx, rfl⟩ := ha
      have hx2 := hok x (List.mem_filter.1 hx).1
      unfold AssignOK toAssign
      rw [r6.restLoc, r6.ordLoc]
      exact ⟨hx2.2.2.1, hx2.2.2.2⟩
    · rw [updAt_other _ _ _ _ hr] at ha
      simp at ha
  obtain ⟨ro2, b1, b2, b3, b4, b5, b6⟩ := buildLoop_total gridSz hn (List.range ro1.numRiders)
    ro1 r2 hassignOK
  refine ⟨ro2, ?_, by rw [b3]; exact r6, ?_, by rw [b4, r8], ?_⟩
  · unfold runTestCase optimize
    simp only [RouteOptimizer.new]
    simp only [RouteOptimizer.new] at r1
    rw [← hrests, ← hsorted, r1]
    exact b1
  · intro q
    rw [b3, r7 q]
    have hq0 : (derefOrder rests q).assigned = false := readRestaurants_unassigned inp q
    rw [hq0]
    constructor
    · rintro (h | ⟨x, hx, hxq, hf⟩)
      · exact absurd h (by simp)
      · have hx2 := hok x hx
        have e : x = ⟨q.rest, q⟩ := by
          cases x
          simp only at hxq
          simp only [OrdInfo.mk.injEq]
          exact ⟨by rw [← hxq]; exact hx2.1, hxq⟩
        rw [← hxq]
        refine ⟨hx2.2.1, ?_⟩
        rw [hxq, ← e]
        exact hf
    · rintro ⟨hq, hf⟩
      refine Or.inr ⟨⟨q.rest, q⟩, ?_, rfl, hf⟩
      exact hperm.mem_iff.2 ((mem_flattenOrders rests _).2 ⟨rfl, hq⟩)
  · intro r hr
    rw [b4] at hr
    obtain ⟨q1, q2⟩ := b6 r hr
    rw [q1, q2, r5, r4]
    exact ⟨rfl, rfl⟩

/-! ## Lemmas: one restaurant with one order -/

/-- Symbolic run of `optimize` on one rider, one restaurant and one feasible order, given the
results of the three graph queries it makes. -/
theorem run_single_order (gridSz : Int) (rn : String) (rl : Int) (onm : String) (ol tl : Int)
    (d0 p0 : Int → Int) (m : Int) (g1 g2 g3 : GridGraph) (path : List Int)
    (e1 : getDistance (GridGraph.init gridSz d0 p0) rl ol = some (m, g1))
    (e2 : getDistance g1 rl ol = some (m, g2))
    (e3 : getPath g2 rl ol = some (path, g3))
    (hm : m ≤ tl) (hlt : m < INT_MAX) :
    (runTestCase gridSz 1 [⟨rn, rl, [⟨onm, ol, tl⟩]⟩] d0 p0).map
        (fun ro => (ro.routes 0, ro.routeTimes 0)) =
      some (⟨rl, rn, true⟩ :: legStops path ol onm, m) := by
  have hm2 : ¬ m > tl := by omega
  have h0 : (0 : Int) < INT_MAX := by decide
  simp [runTestCase, optimize, readRestaurants, flattenOrders, bubbleSort, assignLoop, foldlOpt,
    assignStep, derefRest, derefOrder, RouteOptimizer.new, e1, hm2, selectRider, buildStep,
    updAt, buildRoute, groupAssignments, groupStep, findRest, restLoop, selectRestStep,
    restLeg, deliverLoop, selectOrderStep, setAssigned, e2, e3, hlt, h0, List.range_succ]

/-- Shape of the route made of a labelled first stop at `a` followed by the leg along `path`
from `a` to `b`, when no node of `path` before the last one is `b`. -/
theorem route_of_leg (path : List Int) (a b : Int) (rn onm : String) (route : List RouteStop)
    (hroute : route = (⟨a, rn, true⟩ : RouteStop) :: legStops path b onm)
    (hh : path.head? = some a) (hl : path.getLast? = some b) (hlen : 2 ≤ path.length)
    (hmid : ∀ (i : Nat) (hi : i < path.length), i + 1 < path.length → path[i] ≠ b) :
    route.length = path.length ∧
      route.map (fun s => s.location) = path ∧
      route.head? = some ⟨a, rn, true⟩ ∧
      route.getLast? = some ⟨b, onm, true⟩ ∧
      (∀ (i : Nat) (hi : i < route.length), 0 < i → i + 1 < route.length →
        (route[i]).isNamed = false) := by
  obtain ⟨x, y, rest, rfl⟩ : ∃ x y rest, path = x :: y :: rest := by
    match path, hlen with
    | x :: y :: rest, _ => exact ⟨x, y, rest, rfl⟩
  simp only [List.head?_cons, Option.some.injEq] at hh
  subst hh
  have hloc : ∀ p : Int, (if p = b then (⟨p, onm, true⟩ : RouteStop)
      else ⟨p, "", false⟩).location = p := by
    intro p; by_cases h : p = b <;> simp [h]
  have hl2 : (y :: rest).getLast? = some b := by
    rw [List.getLast?_cons_cons] at hl; exact hl
  have hlegs : legStops (x :: y :: rest) b onm =
      (y :: rest).map (fun p => if p = b then (⟨p, onm, true⟩ : RouteStop)
        else ⟨p, "", false⟩) := by
    simp [legStops]
  rw [hlegs] at hroute
  subst hroute
  refine ⟨by simp, ?_, rfl, ?_, ?_⟩
  · rw [List.map_cons, List.map_map]
    congr 1
    conv_rhs => rw [← List.map_id (y :: rest)]
    apply List.map_congr_left
    intro p _
    exact hloc p
  · have e : ∀ (s : RouteStop) (l : List RouteStop), l ≠ [] →
        (s :: l).getLast? = l.getLast? := by
      intro s l hne
      cases l with
      | nil => exact absurd rfl hne
      | cons c t => rw [List.getLast?_cons_cons]
    rw [e _ _ (by simp), List.getLast?_map, hl2]
    simp
  · intro i hi h0 h1
    obtain ⟨j, rfl⟩ : ∃ j, i = j + 1 := ⟨i - 1, by omega⟩
    simp only [List.length_cons, List.length_map] at hi h1
    rw [List.getElem_cons_succ, List.getElem_map]
    have := hmid (j + 1) (by simp only [List.length_cons]; omega)
      (by simp only [List.length_cons]; omega)
    simp only [List.getElem_cons_succ] at this
    rw [if_neg this]

/-! ## Lemmas: the first stop of a route -/

theorem foldl_groupStep_uRests (l : List Assign) (gs : Groups) :
    ∃ more, (l.foldl groupStep gs).uRests = gs.uRests ++ more := by
  induction l generalizing gs with
  | nil => exact ⟨[], by simp⟩
  | cons x xs ih =>
    rw [List.foldl_cons]
    obtain ⟨more, e⟩ := ih (groupStep gs x)
    rw [e]
    unfold groupStep
    cases findRest gs.uRests x.rest with
    | none => exact ⟨[x.rest] ++ more, by simp⟩
    | some idx => exact ⟨more, rfl⟩

theorem groupAssignments_cons (a : Assign) (as : List Assign) :
    ∃ more, (groupAssignments (a :: as)).uRests = a.rest :: more := by
  unfold groupAssignments
  rw [List.foldl_cons]
  obtain ⟨more, e⟩ := foldl_groupStep_uRests as (groupStep ⟨[], []⟩ a)
  exact ⟨more, by rw [e]; simp [groupStep, findRest]⟩

theorem selectRest_depot_stable (rests : List Restaurant) (uRests : List Nat)
    (visited : Nat → Bool) (g : GridGraph) (l : List Nat) :
    foldlOpt (selectRestStep rests uRests visited 0) ⟨some 0, 0, g⟩ l =
      some ⟨some 0, 0, g⟩ := by
  induction l with
  | nil => rfl
  | cons x xs ih =>
    rw [foldlOpt_cons]
    have : selectRestStep rests uRests visited 0 ⟨some 0, 0, g⟩ x = some ⟨some 0, 0, g⟩ := by
      unfold selectRestStep
      by_cases hv : visited x = true <;> simp [hv]
    rw [this]
    exact ih

/-- At the depot (`curLoc == 0`, nothing visited) the restaurant scan picks group 0 with
`minDist = 0` and makes no graph query. -/
theorem selectRest_depot (rests : List Restaurant) (uRests : List Nat) (g : GridGraph)
    (k : Nat) :
    foldlOpt (selectRestStep rests uRests (fun _ => false) 0) ⟨none, INT_MAX, g⟩
      (List.range (k + 1)) = some ⟨some 0, 0, g⟩ := by
  rw [List.range_succ_eq_map, foldlOpt_cons]
  have h0 : (0 : Int) < INT_MAX := by decide
  have : selectRestStep rests uRests (fun _ => false) 0 ⟨none, INT_MAX, g⟩ 0 =
      some ⟨some 0, 0, g⟩ := by
    simp [selectRestStep, h0]
  rw [this]
  exact selectRest_depot_stable rests uRests _ g _

theorem deliverLoop_appends (rests : List Restaurant) (ords : List OrderRef) :
    ∀ (j : Nat) (deliv : Nat → Bool) (st st1 : BuildState),
      deliverLoop rests ords j deliv st = some st1 → ∃ l, st1.route = st.route ++ l := by
  intro j
  induction j with
  | zero =>
    intro deliv st st1 h
    simp only [deliverLoop, Option.some.injEq] at h
    exact ⟨[], by rw [← h]; simp⟩
  | succ j ih =>
    intro deliv st st1 h
    rw [deliverLoop] at h
    cases hs : foldlOpt (selectOrderStep rests ords deliv st.curLoc)
        ⟨none, INT_MAX, st.graph⟩ (List.range ords.length) with
    | none => rw [hs] at h; exact absurd h (by simp)
    | some sel =>
      rw [hs] at h
      dsimp only at h
      cases hn : sel.nearIdx with
      | none =>
        rw [hn] at h
        simp only [Option.some.injEq] at h
        exact ⟨[], by rw [← h]; simp⟩
      | some k =>
        rw [hn] at h
        dsimp only at h
        cases hp : getPath sel.graph st.curLoc
            (derefOrder rests (ords.getD k default)).location with
        | none => rw [hp] at h; exact absurd h (by simp)
        | some pg =>
          obtain ⟨path, g2⟩ := pg
          rw [hp] at h
          dsimp only at h
          obtain ⟨l, hl⟩ := ih _ _ _ h
          exact ⟨legStops path (derefOrder rests (ords.getD k default)).location
            (derefOrder rests (ords.getD k default)).name ++ l, by
              rw [hl, List.append_assoc]⟩

theorem restLoop_appends (rests : List Restaurant) (gs : Groups) :
    ∀ (i : Nat) (visited : Nat → Bool) (st st1 : BuildState),
      restLoop rests gs i visited st = some st1 → ∃ l, st1.route = st.route ++ l := by
  intro i
  induction i with
  | zero =>
    intro visited st st1 h
    simp only [restLoop, Option.some.injEq] at h
    exact ⟨[], by rw [← h]; simp⟩
  | succ i ih =>
    intro visited st st1 h
    rw [restLoop] at h
    cases hs : foldlOpt (selectRestStep rests gs.uRests visited st.curLoc)
        ⟨none, INT_MAX, st.graph⟩ (List.range gs.uRests.length) with
    | none => rw [hs] at h; exact absurd h (by simp)
    | some sel =>
      rw [hs] at h
      dsimp only at h
      cases hn : sel.nearIdx with
      | none =>
        rw [hn] at h
        simp only [Option.some.injEq] at h
        exact ⟨[], by rw [← h]; simp⟩
      | some k =>
        rw [hn] at h
        dsimp only at h
        cases hleg : restLeg (derefRest rests (gs.uRests.getD k 0)) sel st with
        | none => rw [hleg] at h; exact absurd h (by simp)
        | some st2 =>
          rw [hleg] at h
          dsimp only at h
          have hpre : ∃ l, st2.route = st.route ++ l := by
            unfold restLeg at hleg
            by_cases h0 : st.curLoc = 0
            · rw [if_neg (not_not.2 h0)] at hleg
              simp only [Option.some.injEq] at hleg
              exact ⟨_, by rw [← hleg]⟩
            · rw [if_pos h0] at hleg
              cases hp : getPath sel.graph st.curLoc
                  (derefRest rests (gs.uRests.getD k 0)).location with
              | none => rw [hp] at hleg; exact absurd hleg (by simp)
              | some pg =>
                obtain ⟨path, g2⟩ := pg
                rw [hp] at hleg
                simp only [Option.some.injEq] at hleg
                exact ⟨_, by rw [← hleg]⟩
          cases hd : deliverLoop rests (gs.rOrds.getD k [])
              (gs.rOrds.getD k []).length (fun _ => false)
              { st2 with curLoc := (derefRest rests (gs.uRests.getD k 0)).location } with
          | none => rw [hd] at h; exact absurd h (by simp)
          | some st3 =>
            rw [hd] at h
            dsimp only at h
            obtain ⟨l1, e1⟩ := hpre
            obtain ⟨l2, e2⟩ := deliverLoop_appends rests _ _ _ _ _ hd
            obtain ⟨l3, e3⟩ := ih _ _ _ h
            exact ⟨l1 ++ (l2 ++ l3), by
              rw [e3, e2]
              simp only [e1, List.append_assoc]⟩

/-- The restaurant loop of `buildRoute`, entered at the depot with at least one group, first
appends the labelled stop of group 0 at no cost and then goes on with the deliveries of that
group. -/
theorem restLoop_depot (rests : List Restaurant) (gs : Groups) (g : GridGraph) (k : Nat)
    (hk : gs.uRests.length = k + 1) :
    restLoop rests gs gs.uRests.length (fun _ => false)
        { graph := g, curLoc := 0, route := [], time := 0 } =
      (deliverLoop rests (gs.rOrds.getD 0 []) (gs.rOrds.getD 0 []).length (fun _ => false)
        { graph := g, curLoc := (derefRest rests (gs.uRests.getD 0 0)).location,
          route := [⟨(derefRest rests (gs.uRests.getD 0 0)).location,
            (derefRest rests (gs.uRests.getD 0 0)).name, true⟩],
          time := 0 }).bind
        (fun st2 => restLoop rests gs k (updAt (fun _ => false) 0 true) st2) := by
  rw [hk, restLoop]
  simp only [hk, selectRest_depot, restLeg, ne_eq, not_true_eq_false, if_false,
    List.nil_append]
  cases deliverLoop rests (gs.rOrds.getD 0 []) (gs.rOrds.getD 0 []).length (fun _ => false)
      { graph := g, curLoc := (derefRest rests (gs.uRests.getD 0 0)).location,
        route := [⟨(derefRest rests (gs.uRests.getD 0 0)).location,
          (derefRest rests (gs.uRests.getD 0 0)).name, true⟩],
        time := 0 } <;> rfl

/-! ## Lemmas: values of the adjacency matrix -/

theorem createGraphStep_values (size : Int) (adj : Int → Int → Int) (node : Int)
    (h : ∀ u v, adj u v = 0 ∨ adj u v = 1) :
    ∀ u v, createGraphStep size adj node u v = 0 ∨ createGraphStep size adj node u v = 1 := by
  intro u v
  by_cases h1 : createGraphStep size adj node u v = 1
  · exact Or.inr h1
  · left
    have h2 : ¬ (adj u v = 1 ∨ EdgeFrom size node u v) :=
      fun hc => h1 ((createGraphStep_eq_one size adj node u v).2 hc)
    have h3 : adj u v = 0 := by
      rcases h u v with e | e
      · exact e
      · exact absurd (Or.inl e) h2
    have h4 : ¬ EdgeFrom size node u v := fun hc => h2 (Or.inr hc)
    unfold EdgeFrom at h4
    unfold createGraphStep upd2
    by_cases hc : colOf size node < size - 1 <;> by_cases hr : rowOf size node < size - 1 <;>
      simp only [hc, hr, if_true, if_false]
    · have a1 : ¬ (u = node ∧ v = node + size) := fun e => h4 (Or.inr ⟨hr, Or.inl e⟩)
      have a2 : ¬ (u = node + size ∧ v = node) := fun e => h4 (Or.inr ⟨hr, Or.inr e⟩)
      have a3 : ¬ (u = node ∧ v = node + 1) := fun e => h4 (Or.inl ⟨hc, Or.inl e⟩)
      have a4 : ¬ (u = node + 1 ∧ v = node) := fun e => h4 (Or.inl ⟨hc, Or.inr e⟩)
      rw [if_neg a1, if_neg a2, if_neg a3, if_neg a4]
      exact h3
    · have a3 : ¬ (u = node ∧ v = node + 1) := fun e => h4 (Or.inl ⟨hc, Or.inl e⟩)
      have a4 : ¬ (u = node + 1 ∧ v = node) := fun e => h4 (Or.inl ⟨hc, Or.inr e⟩)
      rw [if_neg a3, if_neg a4]
      exact h3
    · have a1 : ¬ (u = node ∧ v = node + size) := fun e => h4 (Or.inr ⟨hr, Or.inl e⟩)
      have a2 : ¬ (u = node + size ∧ v = node) := fun e => h4 (Or.inr ⟨hr, Or.inr e⟩)
      rw [if_neg a1, if_neg a2]
      exact h3
    · exact h3

theorem createGraph_values (size total : Int) (u v : Int) :
    createGraph size total (fun _ _ => 0) u v = 0 ∨
      createGraph size total (fun _ _ => 0) u v = 1 := by
  unfold createGraph
  have key : ∀ (l : List Int) (adj : Int → Int → Int),
      (∀ u v, adj u v = 0 ∨ adj u v = 1) →
      ∀ u v, l.foldl (createGraphStep size) adj u v = 0 ∨
        l.foldl (createGraphStep size) adj u v = 1 := by
    intro l
    induction l with
    | nil => intro adj h; exact h
    | cons x xs ih =>
      intro adj h
      rw [List.foldl_cons]
      exact ih _ (createGraphStep_values size adj x h)
  exact key _ _ (fun _ _ => Or.inl rfl) u v

theorem gridAdjacent_symm (n a b : Int) (h : GridAdjacent n a b) : GridAdjacent n b a := by
  unfold GridAdjacent at *
  rcases h with ⟨h1, h2⟩ | ⟨h1, h2⟩
  · exact Or.inl ⟨h1.symm, by rw [abs_sub_comm]; exact h2⟩
  · exact Or.inr ⟨h1.symm, by rw [abs_sub_comm]; exact h2⟩

theorem gridAdjacent_irrefl (n a : Int) : ¬ GridAdjacent n a a := by
  unfold GridAdjacent
  simp

/-! ## Lemmas: query results do not depend on the scratch buffers -/

theorem scanStep_agree (total : Int) (adj : Int → Int → Int) (curr : Int)
    (st st1 : BfsState) (i : Int) (hi : ValidNode total i) (hc : curr ∈ st.queue)
    (h : BufAgree total st st1) :
    BufAgree total (scanStep adj curr st i) (scanStep adj curr st1 i) ∧
      curr ∈ (scanStep adj curr st i).queue := by
  have hdi : st.dist i = st1.dist i := (h.onRange i (by have := hi.1; omega) hi.2).1
  have hdc : st.dist curr = st1.dist curr := h.onQueue curr hc
  unfold scanStep
  rw [← hdi]
  by_cases hcond : adj curr i = 1 ∧ st.dist i = -1
  · rw [if_pos hcond, if_pos hcond]
    refine ⟨⟨?_, h.front, ?_, ?_⟩, List.mem_append_left _ hc⟩
    · dsimp only; rw [h.queue]
    · intro v hv0 hv1
      dsimp only
      by_cases e : v = i
      · rw [e, upd_same, upd_same, upd_same, upd_same, hdc]
        exact ⟨rfl, rfl⟩
      · rw [upd_other _ _ _ _ e, upd_other _ _ _ _ e, upd_other _ _ _ _ e,
          upd_other _ _ _ _ e]
        exact h.onRange v hv0 hv1
    · intro v hv
      dsimp only at hv ⊢
      by_cases e : v = i
      · rw [e, upd_same, upd_same, hdc]
      · rw [upd_other _ _ _ _ e, upd_other _ _ _ _ e]
        rcases List.mem_append.1 hv with hv | hv
        · exact h.onQueue v hv
        · exact absurd (List.mem_singleton.1 hv) e
  · rw [if_neg hcond, if_neg hcond]
    exact ⟨h, hc⟩

theorem scanFold_agree (total : Int) (adj : Int → Int → Int) (curr : Int) (l : List Int)
    (hl : ∀ i ∈ l, ValidNode total i) (st st1 : BfsState) (hc : curr ∈ st.queue)
    (h : BufAgree total st st1) :
    BufAgree total (l.foldl (scanStep adj curr) st) (l.foldl (scanStep adj curr) st1) := by
  induction l generalizing st st1 with
  | nil => exact h
  | cons x xs ih =>
    rw [List.foldl_cons, List.foldl_cons]
    obtain ⟨h1, h2⟩ := scanStep_agree total adj curr st st1 x (hl x (by simp)) hc h
    exact ih (fun i hi => hl i (List.mem_cons_of_mem _ hi)) _ _ h2 h1

theorem bfsIter_agree (g g1 : GridGraph) (ht : g1.total = g.total) (ha : g1.adj = g.adj)
    (st st1 : BfsState) (h : BufAgree g.total st st1) (hlt : st.front < st.queue.length) :
    BufAgree g.total (bfsIter g st) (bfsIter g1 st1) := by
  unfold bfsIter
  rw [ht, ha, ← h.queue, ← h.front]
  have hc : st.queue.getD st.front 0 ∈ st.queue := getD_valid_of_mem _ _ _ hlt
  exact scanFold_agree g.total g.adj _ (intRange 1 g.total)
    (fun i hi => (mem_intRange 1 g.total i).1 hi) _ _ hc
    ⟨rfl, rfl, h.onRange, h.onQueue⟩

theorem bfsLoop_agree (g g1 : GridGraph) (ht : g1.total = g.total) (ha : g1.adj = g.adj) :
    ∀ (fuel : Nat) (st st1 r : BfsState), BufAgree g.total st st1 →
      bfsLoop g fuel st = some r →
      ∃ r1, bfsLoop g1 fuel st1 = some r1 ∧ BufAgree g.total r r1 := by
  intro fuel
  induction fuel with
  | zero =>
    intro st st1 r h hr
    unfold bfsLoop at hr ⊢
    rw [← h.queue, ← h.front]
    by_cases hlt : st.front < st.queue.length
    · rw [if_pos hlt] at hr; exact absurd hr (by simp)
    · rw [if_neg hlt] at hr
      rw [if_neg hlt]
      simp only [Option.some.injEq] at hr
      exact ⟨st1, rfl, hr ▸ h⟩
  | succ f ih =>
    intro st st1 r h hr
    unfold bfsLoop at hr ⊢
    rw [← h.queue, ← h.front]
    by_cases hlt : st.front < st.queue.length
    · rw [if_pos hlt] at hr
      rw [if_pos hlt]
      exact ih _ _ r (bfsIter_agree g g1 ht ha st st1 h hlt) hr
    · rw [if_neg hlt] at hr
      rw [if_neg hlt]
      simp only [Option.some.injEq] at hr
      exact ⟨st1, rfl, hr ▸ h⟩

theorem bfsInit_agree (g g1 : GridGraph) (ht : g1.total = g.total) (s : Int) :
    BufAgree g.total (bfsInit g s) (bfsInit g1 s) := by
  obtain ⟨q1, f1, r1⟩ := bfsReset_spec g
  obtain ⟨q2, f2, r2⟩ := bfsReset_spec g1
  rw [ht] at r2
  have hq1 : (bfsInit g s).queue = [s] := by simp [bfsInit, q1]
  have hq2 : (bfsInit g1 s).queue = [s] := by simp [bfsInit, q2]
  have hd1 : (bfsInit g s).dist = upd (bfsReset g).dist s 0 := rfl
  have hd2 : (bfsInit g1 s).dist = upd (bfsReset g1).dist s 0 := rfl
  have hp1 : (bfsInit g s).pred = (bfsReset g).pred := rfl
  have hp2 : (bfsInit g1 s).pred = (bfsReset g1).pred := rfl
  refine ⟨by rw [hq1, hq2], ?_, ?_, ?_⟩
  · show (bfsReset g).front = (bfsReset g1).front
    rw [f1, f2]
  · intro v hv0 hv1
    rw [hd1, hd2, hp1, hp2]
    constructor
    · by_cases e : v = s
      · rw [e, upd_same, upd_same]
      · rw [upd_other _ _ _ _ e, upd_other _ _ _ _ e, (r1 v hv0 hv1).1, (r2 v hv0 hv1).1]
    · rw [(r1 v hv0 hv1).2, (r2 v hv0 hv1).2]
  · intro v hv
    rw [hq1] at hv
    rw [List.mem_singleton.1 hv, hd1, hd2, upd_same, upd_same]

/-- Two runs of `bfs(s)` on graphs that differ only in their scratch buffers leave the same
`dist` and `pred` on the cells `0..total`. -/
theorem bfs_agree (g g1 : GridGraph) (ht : g1.total = g.total) (ha : g1.adj = g.adj)
    (s : Int) (r : GridGraph) (hr : bfs g s = some r) :
    ∃ r1, bfs g1 s = some r1 ∧
      ∀ v, 0 ≤ v → v ≤ g.total → r.dist v = r1.dist v ∧ r.pred v = r1.pred v := by
  unfold bfs at hr
  cases h : bfsLoop g (g.total.toNat + 1) (bfsInit g s) with
  | none => rw [h] at hr; exact absurd hr (by simp)
  | some st =>
    rw [h] at hr
    simp only [Option.some.injEq] at hr
    obtain ⟨st1, e1, hag⟩ := bfsLoop_agree g g1 ht ha _ _ _ st (bfsInit_agree g g1 ht s) h
    refine ⟨{ g1 with dist := st1.dist, pred := st1.pred }, ?_, ?_⟩
    · unfold bfs
      rw [ht, e1]
    · intro v hv0 hv1
      rw [← hr]
      exact hag.onRange v hv0 hv1

theorem predWalk_agree (n s : Int) (pred pred1 : Int → Int) (hps : pred s = -1)
    (hag : ∀ v, ValidNode (n * n) v → pred v = pred1 v)
    (hp : ∀ v, ValidNode (n * n) v → v ≠ s → ValidNode (n * n) (pred v)) :
    ∀ (fuel : Nat) (v : Int) (temp : List Int), ValidNode (n * n) v →
      predWalk pred fuel v temp = predWalk pred1 fuel v temp := by
  intro fuel
  induction fuel with
  | zero => intro v temp _; simp [predWalk]
  | succ f ih =>
    intro v temp hv
    have hne : v ≠ -1 := by have := hv.1; omega
    rw [predWalk, predWalk, if_neg hne, if_neg hne, ← hag v hv]
    by_cases e : v = s
    · rw [e, hps]
      cases f <;> simp [predWalk]
    · exact ih _ _ (hp v hv e)

/-- On the grid the path returned by `getPath(a, b)` between valid nodes is the same whatever
the scratch buffers held before the query. -/
theorem getPath_agree (n : Int) (hn : 1 ≤ n) (g g1 : GridGraph) (hg : IsGrid n g)
    (hg1 : IsGrid n g1) (a b : Int) (ha : ValidNode (n * n) a) (hb : ValidNode (n * n) b) :
    (getPath g a b).map Prod.fst = (getPath g1 a b).map Prod.fst := by
  unfold getPath
  by_cases e : a = b
  · simp [e]
  · rw [if_neg e, if_neg e]
    obtain ⟨r, er, hgr, _, hps, hp⟩ := bfs_grid n hn g hg a ha
    have ht : g1.total = g.total := by rw [hg1.2.1, hg.2.1]
    have hadj : g1.adj = g.adj := by rw [hg1.2.2, hg.2.2]
    obtain ⟨r1, er1, hag⟩ := bfs_agree g g1 ht hadj a r er
    have htr : r.total = n * n := hgr.2.1
    have htr1 : r1.total = n * n := by
      obtain ⟨r2, e2, _, h2, _⟩ := bfs_total g1 a
      rw [er1] at e2
      simp only [Option.some.injEq] at e2
      rw [e2, h2, hg1.2.1]
    have hw := predWalk_agree n a r.pred r1.pred hps
      (fun v hv => (hag v (by have := hv.1; omega) (by rw [hg.2.1]; exact hv.2)).2)
      (fun v hv hne => (hp v hv hne).1) (r.total.toNat + 1) b [] hb
    rw [er, er1]
    dsimp only
    rw [htr1, ← htr, hw]
    cases predWalk r1.pred (r.total.toNat + 1) b [] <;> rfl

theorem getDistance_keeps_graph (g : GridGraph) (x y r : Int) (g1 : GridGraph)
    (h : getDistance g x y = some (r, g1)) :
    g1.size = g.size ∧ g1.total = g.total ∧ g1.adj = g.adj := by
  obtain ⟨r2, g2, e2, h2⟩ := getDistance_total g x y
  rw [h] at e2
  simp only [Option.some.injEq, Prod.mk.injEq] at e2
  rw [e2.2]
  exact h2

theorem getPath_keeps_graph (g : GridGraph) (x y : Int) (p : List Int) (g1 : GridGraph)
    (h : getPath g x y = some (p, g1)) :
    g1.size = g.size ∧ g1.total = g.total ∧ g1.adj = g.adj := by
  unfold getPath at h
  by_cases e : x = y
  · rw [if_pos e] at h
    simp only [Option.some.injEq, Prod.mk.injEq] at h
    rw [← h.2]
    exact ⟨rfl, rfl, rfl⟩
  · rw [if_neg e] at h
    obtain ⟨g2, e2, h2⟩ := bfs_total g x
    rw [e2] at h
    dsimp only at h
    cases hw : predWalk g2.pred (g2.total.toNat + 1) y [] with
    | none => rw [hw] at h; exact absurd h (by simp)
    | some t =>
      rw [hw] at h
      simp only [Option.some.injEq, Prod.mk.injEq] at h
      rw [← h.2]
      exact h2

/-! ## Claims -/

/-- C1. For every grid size `n ≥ 1` and all nodes `a`, `b` in `[1, n*n]`, whatever the scratch
buffers hold, `getDistance(a, b)` returns the Manhattan distance
`|row a - row b| + |col a - col b|`; it returns `0` when `a = b` and never returns `-1`. -/
theorem getDistance_manhattan (n a b : Int) (d0 p0 : Int → Int) (hn : 1 ≤ n)
    (ha : ValidNode (n * n) a) (hb : ValidNode (n * n) b) :
    (getDistance (GridGraph.init n d0 p0) a b).map Prod.fst =
        some (|rowOf n a - rowOf n b| + |colOf n a - colOf n b|) ∧
      (a = b → (getDistance (GridGraph.init n d0 p0) a b).map Prod.fst = some 0) ∧
      (getDistance (GridGraph.init n d0 p0) a b).map Prod.fst ≠ some (-1) := by
  obtain ⟨g1, e, _⟩ := getDistance_grid n hn _ (isGrid_init n d0 p0) a b ha hb
  have hnn := manhattan_nonneg n a b
  rw [e]
  refine ⟨rfl, ?_, ?_⟩
  · intro hab
    rw [hab, manhattan_self]
    rfl
  · simp only [Option.map_some', ne_eq, Option.some.injEq]
    omega

theorem getDistance_manhattan_witness :
    (getDistance (GridGraph.init 3 (fun _ => 0) (fun _ => 0)) 5 9).map Prod.fst =
        some (|rowOf 3 5 - rowOf 3 9| + |colOf 3 5 - colOf 3 9|) ∧
      ((5 : Int) = 9 →
        (getDistance (GridGraph.init 3 (fun _ => 0) (fun _ => 0)) 5 9).map Prod.fst = some 0) ∧
      (getDistance (GridGraph.init 3 (fun _ => 0) (fun _ => 0)) 5 9).map Prod.fst ≠ some (-1) :=
  getDistance_manhattan 3 5 9 (fun _ => 0) (fun _ => 0) (by decide) (by decide) (by decide)

/-- C2. For every grid size `n ≥ 1` and all nodes `a`, `b` in `[1, n*n]`, `getPath(a, b)`
returns a sequence whose length is `getDistance(a, b) + 1`, whose first element is `a`, whose
last element is `b`, and whose consecutive elements are grid-adjacent. -/
theorem getPath_shortest_walk (n a b : Int) (d0 p0 : Int → Int) (hn : 1 ≤ n)
    (ha : ValidNode (n * n) a) (hb : ValidNode (n * n) b) :
    ∃ path d, (getPath (GridGraph.init n d0 p0) a b).map Prod.fst = some path ∧
      (getDistance (GridGraph.init n d0 p0) a b).map Prod.fst = some d ∧
      (path.length : Int) = d + 1 ∧ path.head? = some a ∧ path.getLast? = some b ∧
      path.Chain' (GridAdjacent n) := by
  obtain ⟨g1, e, _⟩ := getDistance_grid n hn _ (isGrid_init n d0 p0) a b ha hb
  obtain ⟨path, g2, e2, _, h⟩ := getPath_grid n hn _ (isGrid_init n d0 p0) a b ha hb
  exact ⟨path, manhattan n a b, by rw [e2]; rfl, by rw [e]; rfl, h⟩

theorem getPath_shortest_walk_witness :
    ∃ path d, (getPath (GridGraph.init 3 (fun _ => 0) (fun _ => 0)) 5 9).map Prod.fst
        = some path ∧
      (getDistance (GridGraph.init 3 (fun _ => 0) (fun _ => 0)) 5 9).map Prod.fst = some d ∧
      (path.length : Int) = d + 1 ∧ path.head? = some 5 ∧ path.getLast? = some 9 ∧
      path.Chain' (GridAdjacent 3) :=
  getPath_shortest_walk 3 5 9 (fun _ => 0) (fun _ => 0) (by decide) (by decide) (by decide)

/-- C5. The sort step of `optimize` turns the flattened order list into a permutation of
itself that is non-decreasing in `timeLimit`, and the sort is stable: the orders with any given
`timeLimit` appear in the same sequence as in the flattened list, so whenever `x` precedes `y`
in the flattened list and both have the same `timeLimit`, `x` still precedes `y` afterwards. -/
theorem bubbleSort_stable_sorted_perm (rests : List Restaurant) :
    (bubbleSort rests (flattenOrders rests)).Perm (flattenOrders rests) ∧
      (bubbleSort rests (flattenOrders rests)).Pairwise
        (fun x y => (derefOrder rests x.order).timeLimit ≤ (derefOrder rests y.order).timeLimit) ∧
      (∀ t : Int,
        (bubbleSort rests (flattenOrders rests)).filter
            (fun x => decide ((derefOrder rests x.order).timeLimit = t)) =
          (flattenOrders rests).filter
            (fun x => decide ((derefOrder rests x.order).timeLimit = t))) ∧
      (∀ x y, (derefOrder rests x.order).timeLimit = (derefOrder rests y.order).timeLimit →
        List.Sublist [x, y] (flattenOrders rests) →
        List.Sublist [x, y] (bubbleSort rests (flattenOrders rests))) := by
  obtain ⟨h1, h2, h3⟩ := bubbleSort_spec rests (flattenOrders rests)
  refine ⟨h1, h2, h3, ?_⟩
  intro x y hxy hsub
  have hf := hsub.filter (fun z => decide (ordKey rests z = ordKey rests x))
  rw [← h3 (ordKey rests x)] at hf
  have e : [x, y].filter (fun z => decide (ordKey rests z = ordKey rests x)) = [x, y] := by
    have : ordKey rests y = ordKey rests x := hxy.symm
    simp [List.filter_cons, this]
  rw [e] at hf
  exact hf.trans (List.filter_sublist _)

/-- C3. For every valid input with at least one rider, `optimize` returns, and afterwards an
order's `assigned` flag is true if and only if `getDistance(restaurant.location,
order.location) <= order.timeLimit`; an order whose distance exceeds its deadline keeps
`assigned = false` and is in no rider's pending list. -/
theorem assigned_iff_within_deadline (gridSz : Int) (numRid : Nat)
    (inp : List RestaurantInput) (d0 p0 : Int → Int) (hv : ValidInput gridSz numRid inp) :
    ∃ ro, runTestCase gridSz numRid inp d0 p0 = some ro ∧
      ∀ q, InRange (readRestaurants inp) q →
        ∃ d, (getDistance (GridGraph.init gridSz d0 p0)
            (derefRest (readRestaurants inp) q.rest).location
            (derefOrder (readRestaurants inp) q).location).map Prod.fst = some d ∧
          ((derefOrder ro.rests q).assigned = true ↔
            d ≤ (derefOrder (readRestaurants inp) q).timeLimit) ∧
          (d > (derefOrder (readRestaurants inp) q).timeLimit →
            (derefOrder ro.rests q).assigned = false ∧
              ∀ r, ∀ a ∈ ro.assignments r, a.order ≠ q) := by
  obtain ⟨ro, e, _, hflag, hasg, _⟩ := optimize_valid gridSz numRid inp d0 p0 hv
  refine ⟨ro, e, ?_⟩
  intro q hq
  obtain ⟨h1, h2⟩ := restsValid_deref gridSz _ (readRestaurants_valid gridSz numRid inp hv) q hq
  obtain ⟨g1, e1, _⟩ := getDistance_grid gridSz hv.1 _ (isGrid_init gridSz d0 p0) _ _ h1 h2
  refine ⟨_, by rw [e1]; rfl, ?_, ?_⟩
  · rw [hflag q]
    unfold Feasible
    exact ⟨fun h => h.2, fun h => ⟨hq, h⟩⟩
  · intro hd
    have hnf : ¬ Feasible gridSz (readRestaurants inp) ⟨q.rest, q⟩ := by
      unfold Feasible
      dsimp only
      omega
    constructor
    · have : ¬ (derefOrder ro.rests q).assigned = true := fun h => hnf ((hflag q).1 h).2
      simpa using this
    · intro r a ha haq
      rw [hasg] at ha
      by_cases hr : r = 0
      · rw [hr, updAt_same, List.mem_map] at ha
        obtain ⟨x, hx, rfl⟩ := ha
        obtain ⟨hx1, hx2⟩ := List.mem_filter.1 hx
        have hx3 := ((mem_flattenOrders _ x).1
          ((bubbleSort_spec _ _).1.mem_iff.1 hx1)).1
        have e2 : x = ⟨q.rest, q⟩ := by
          cases x
          simp only [toAssign] at haq
          simp only at hx3
          simp only [OrdInfo.mk.injEq]
          exact ⟨by rw [hx3, haq], haq⟩
        rw [e2] at hx2
        exact hnf (of_decide_eq_true hx2)
      · rw [updAt_other _ _ _ _ hr] at ha
        simp at ha

theorem assigned_iff_within_deadline_witness :
    ValidInput 3 1 [⟨"R1", 5, [⟨"O1", 9, 10⟩, ⟨"O2", 1, 1⟩]⟩] ∧
    ∃ ro, runTestCase 3 1 [⟨"R1", 5, [⟨"O1", 9, 10⟩, ⟨"O2", 1, 1⟩]⟩] (fun _ => 0) (fun _ => 0)
        = some ro ∧
      ∀ q, InRange (readRestaurants [⟨"R1", 5, [⟨"O1", 9, 10⟩, ⟨"O2", 1, 1⟩]⟩]) q →
        ∃ d, (getDistance (GridGraph.init 3 (fun _ => 0) (fun _ => 0))
            (derefRest (readRestaurants [⟨"R1", 5, [⟨"O1", 9, 10⟩, ⟨"O2", 1, 1⟩]⟩]) q.rest).location
            (derefOrder (readRestaurants [⟨"R1", 5, [⟨"O1", 9, 10⟩, ⟨"O2", 1, 1⟩]⟩]) q).location).map
              Prod.fst = some d ∧
          ((derefOrder ro.rests q).assigned = true ↔
            d ≤ (derefOrder (readRestaurants [⟨"R1", 5, [⟨"O1", 9, 10⟩, ⟨"O2", 1, 1⟩]⟩])
              q).timeLimit) ∧
          (d > (derefOrder (readRestaurants [⟨"R1", 5, [⟨"O1", 9, 10⟩, ⟨"O2", 1, 1⟩]⟩])
              q).timeLimit →
            (derefOrder ro.rests q).assigned = false ∧
              ∀ r, ∀ a ∈ ro.assignments r, a.order ≠ q) :=
  ⟨by decide, assigned_iff_within_deadline 3 1 _ (fun _ => 0) (fun _ => 0) (by decide)⟩

/-- C4. For every valid input with at least one rider, the assignment pass of `optimize`
appends every feasible order to the pending list of rider 0; every other rider's pending list
stays empty, and every other rider ends with an empty route and total time 0. -/
theorem feasible_orders_go_to_first_rider (gridSz : Int) (numRid : Nat)
    (inp : List RestaurantInput) (d0 p0 : Int → Int) (hv : ValidInput gridSz numRid inp) :
    ∃ ro, runTestCase gridSz numRid inp d0 p0 = some ro ∧
      (∀ q, InRange (readRestaurants inp) q →
        ∃ d, (getDistance (GridGraph.init gridSz d0 p0)
            (derefRest (readRestaurants inp) q.rest).location
            (derefOrder (readRestaurants inp) q).location).map Prod.fst = some d ∧
          (d ≤ (derefOrder (readRestaurants inp) q).timeLimit →
            (⟨q.rest, q⟩ : Assign) ∈ ro.assignments 0)) ∧
      (∀ r, r ≠ 0 → ro.assignments r = [] ∧ ro.routes r = [] ∧ ro.routeTimes r = 0) := by
  obtain ⟨ro, e, _, _, hasg, hempty⟩ := optimize_valid gridSz numRid inp d0 p0 hv
  refine ⟨ro, e, ?_, ?_⟩
  · intro q hq
    obtain ⟨h1, h2⟩ := restsValid_deref gridSz _ (readRestaurants_valid gridSz numRid inp hv)
      q hq
    obtain ⟨g1, e1, _⟩ := getDistance_grid gridSz hv.1 _ (isGrid_init gridSz d0 p0) _ _ h1 h2
    refine ⟨_, by rw [e1]; rfl, ?_⟩
    intro hd
    rw [hasg, updAt_same, List.mem_map]
    refine ⟨⟨q.rest, q⟩, ?_, rfl⟩
    rw [List.mem_filter]
    refine ⟨(bubbleSort_spec _ _).1.mem_iff.2 ((mem_flattenOrders _ _).2 ⟨rfl, hq⟩), ?_⟩
    exact decide_eq_true hd
  · intro r hr
    have h0 : ro.assignments r = [] := by rw [hasg, updAt_other _ _ _ _ hr]
    exact ⟨h0, hempty r h0⟩

theorem feasible_orders_go_to_first_rider_witness :
    ValidInput 3 2 [⟨"R1", 5, [⟨"O1", 9, 10⟩]⟩, ⟨"R2", 1, [⟨"P1", 3, 4⟩]⟩] ∧
    ∃ ro, runTestCase 3 2 [⟨"R1", 5, [⟨"O1", 9, 10⟩]⟩, ⟨"R2", 1, [⟨"P1", 3, 4⟩]⟩]
        (fun _ => 0) (fun _ => 0) = some ro ∧
      (∀ q, InRange (readRestaurants [⟨"R1", 5, [⟨"O1", 9, 10⟩]⟩, ⟨"R2", 1, [⟨"P1", 3, 4⟩]⟩]) q →
        ∃ d, (getDistance (GridGraph.init 3 (fun _ => 0) (fun _ => 0))
            (derefRest (readRestaurants
              [⟨"R1", 5, [⟨"O1", 9, 10⟩]⟩, ⟨"R2", 1, [⟨"P1", 3, 4⟩]⟩]) q.rest).location
            (derefOrder (readRestaurants
              [⟨"R1", 5, [⟨"O1", 9, 10⟩]⟩, ⟨"R2", 1, [⟨"P1", 3, 4⟩]⟩]) q).location).map
                Prod.fst = some d ∧
          (d ≤ (derefOrder (readRestaurants
              [⟨"R1", 5, [⟨"O1", 9, 10⟩]⟩, ⟨"R2", 1, [⟨"P1", 3, 4⟩]⟩]) q).timeLimit →
            (⟨q.rest, q⟩ : Assign) ∈ ro.assignments 0)) ∧
      (∀ r, r ≠ 0 → ro.assignments r = [] ∧ ro.routes r = [] ∧ ro.routeTimes r = 0) :=
  ⟨by decide, feasible_orders_go_to_first_rider 3 2 _ (fun _ => 0) (fun _ => 0) (by decide)⟩

/-- C7. For every input, the assignment pass returns, and afterwards each order occurs at most
once in the union of all riders' pending lists (never twice in one list, never in the lists of
two riders), and every pending entry pairs an existing order with the restaurant that owns
it. -/
theorem pending_entries_unique (g : GridGraph) (rests : List Restaurant) (numRid : Nat) :
    ∃ ro1, assignLoop (RouteOptimizer.new g rests numRid)
        (bubbleSort rests (flattenOrders rests)) = some ro1 ∧
      (∀ r, ((ro1.assignments r).map (fun a => a.order)).Nodup) ∧
      (∀ r1 r2, r1 ≠ r2 → ∀ a1 ∈ ro1.assignments r1, ∀ a2 ∈ ro1.assignments r2,
        a1.order ≠ a2.order) ∧
      (∀ r, ∀ a ∈ ro1.assignments r, a.rest = a.order.rest ∧ InRange rests a.order) := by
  obtain ⟨ro1, l1, e, hsub, _, _, _, hasg⟩ := assignLoop_general
    (bubbleSort rests (flattenOrders rests)) (RouteOptimizer.new g rests numRid)
  simp only [RouteOptimizer.new, List.nil_append] at hasg
  have hperm := (bubbleSort_spec rests (flattenOrders rests)).1
  have hnd : (l1.map (fun x => x.order)).Nodup :=
    List.Nodup.sublist (hsub.map _)
      ((hperm.map _).nodup_iff.2 (flattenOrders_nodup_order rests))
  have hmap : (l1.map toAssign).map (fun a => a.order) = l1.map (fun x => x.order) := by
    rw [List.map_map]; rfl
  refine ⟨ro1, e, ?_, ?_, ?_⟩
  · intro r
    rw [hasg]
    by_cases hr : r = selectRider numRid (fun _ => 0)
    · rw [hr, updAt_same, hmap]; exact hnd
    · rw [updAt_other _ _ _ _ hr]; exact List.nodup_nil
  · intro r1 r2 hne a1 ha1 a2 ha2
    rw [hasg] at ha1 ha2
    by_cases h1 : r1 = selectRider numRid (fun _ => 0)
    · have h2 : r2 ≠ selectRider numRid (fun _ => 0) := fun h2 => hne (h1.trans h2.symm)
      rw [updAt_other _ _ _ _ h2] at ha2
      simp at ha2
    · rw [updAt_other _ _ _ _ h1] at ha1
      simp at ha1
  · intro r a ha
    rw [hasg] at ha
    by_cases hr : r = selectRider numRid (fun _ => 0)
    · rw [hr, updAt_same, List.mem_map] at ha
      obtain ⟨x, hx, rfl⟩ := ha
      exact (mem_flattenOrders rests x).1 (hperm.mem_iff.1 (hsub.subset hx))
    · rw [updAt_other _ _ _ _ hr] at ha
      simp at ha

/-- C10. For every valid input in which every order's restaurant-to-order distance exceeds its
deadline, `optimize` returns and leaves every order unassigned, every rider's pending list and
route empty, and every rider's total time 0. -/
theorem all_infeasible_leaves_routes_empty (gridSz : Int) (numRid : Nat)
    (inp : List RestaurantInput) (d0 p0 : Int → Int) (hv : ValidInput gridSz numRid inp)
    (hinf : ∀ q, InRange (readRestaurants inp) q →
      ∃ d, (getDistance (GridGraph.init gridSz d0 p0)
          (derefRest (readRestaurants inp) q.rest).location
          (derefOrder (readRestaurants inp) q).location).map Prod.fst = some d ∧
        d > (derefOrder (readRestaurants inp) q).timeLimit) :
    ∃ ro, runTestCase gridSz numRid inp d0 p0 = some ro ∧
      (∀ q, (derefOrder ro.rests q).assigned = false) ∧
      (∀ r, ro.assignments r = [] ∧ (ro.routes r).length = 0 ∧ ro.routeTimes r = 0) := by
  obtain ⟨ro, e, _, hflag, hasg, hempty⟩ := optimize_valid gridSz numRid inp d0 p0 hv
  have hnf : ∀ q, InRange (readRestaurants inp) q →
      ¬ Feasible gridSz (readRestaurants inp) ⟨q.rest, q⟩ := by
    intro q hq hf
    obtain ⟨h1, h2⟩ := restsValid_deref gridSz _ (readRestaurants_valid gridSz numRid inp hv)
      q hq
    obtain ⟨g1, e1, _⟩ := getDistance_grid gridSz hv.1 _ (isGrid_init gridSz d0 p0) _ _ h1 h2
    obtain ⟨d, hd1, hd2⟩ := hinf q hq
    rw [e1] at hd1
    simp only [Option.map_some', Option.some.injEq] at hd1
    unfold Feasible at hf
    dsimp only at hf
    omega
  have hfilter : (bubbleSort (readRestaurants inp) (flattenOrders (readRestaurants inp))).filter
      (fun x => decide (Feasible gridSz (readRestaurants inp) x)) = [] := by
    rw [List.filter_eq_nil_iff]
    intro x hx hf
    obtain ⟨hx1, hx2⟩ := (mem_flattenOrders _ x).1 ((bubbleSort_spec _ _).1.mem_iff.1 hx)
    have e2 : x = ⟨x.order.rest, x.order⟩ := by
      cases x
      simp only at hx1
      simp only [OrdInfo.mk.injEq, and_true]
      exact hx1
    rw [e2] at hf
    exact hnf x.order hx2 (of_decide_eq_true hf)
  have hall : ∀ r, ro.assignments r = [] := by
    intro r
    rw [hasg, hfilter]
    by_cases hr : r = 0 <;> simp [updAt, hr]
  refine ⟨ro, e, ?_, ?_⟩
  · intro q
    have : ¬ (derefOrder ro.rests q).assigned = true := fun h =>
      hnf q ((hflag q).1 h).1 ((hflag q).1 h).2
    simpa using this
  · intro r
    obtain ⟨q1, q2⟩ := hempty r (hall r)
    exact ⟨hall r, by rw [q1]; rfl, q2⟩

theorem all_infeasible_leaves_routes_empty_witness :
    ValidInput 3 1 [⟨"R1", 5, [⟨"O1", 9, 1⟩]⟩] ∧
    (∀ q, InRange (readRestaurants [⟨"R1", 5, [⟨"O1", 9, 1⟩]⟩]) q →
      ∃ d, (getDistance (GridGraph.init 3 (fun _ => 0) (fun _ => 0))
          (derefRest (readRestaurants [⟨"R1", 5, [⟨"O1", 9, 1⟩]⟩]) q.rest).location
          (derefOrder (readRestaurants [⟨"R1", 5, [⟨"O1", 9, 1⟩]⟩]) q).location).map Prod.fst
            = some d ∧
        d > (derefOrder (readRestaurants [⟨"R1", 5, [⟨"O1", 9, 1⟩]⟩]) q).timeLimit) ∧
    ∃ ro, runTestCase 3 1 [⟨"R1", 5, [⟨"O1", 9, 1⟩]⟩] (fun _ => 0) (fun _ => 0) = some ro ∧
      (∀ q, (derefOrder ro.rests q).assigned = false) ∧
      (∀ r, ro.assignments r = [] ∧ (ro.routes r).length = 0 ∧ ro.routeTimes r = 0) :=
  have hinf : ∀ q, InRange (readRestaurants [⟨"R1", 5, [⟨"O1", 9, 1⟩]⟩]) q →
      ∃ d, (getDistance (GridGraph.init 3 (fun _ => 0) (fun _ => 0))
          (derefRest (readRestaurants [⟨"R1", 5, [⟨"O1", 9, 1⟩]⟩]) q.rest).location
          (derefOrder (readRestaurants [⟨"R1", 5, [⟨"O1", 9, 1⟩]⟩]) q).location).map Prod.fst
            = some d ∧
        d > (derefOrder (readRestaurants [⟨"R1", 5, [⟨"O1", 9, 1⟩]⟩]) q).timeLimit := by
    intro q hq
    obtain ⟨h1, h2⟩ := hq
    have e1 : q.rest = 0 := by
      simp only [readRestaurants, List.map_cons, List.map_nil, List.length_singleton] at h1
      omega
    obtain ⟨r, i⟩ := q
    simp only at e1
    subst e1
    have e2 : i = 0 := by
      simp [readRestaurants, derefRest] at h2
      exact h2
    subst e2
    exact ⟨2, by decide, by decide⟩
  ⟨by decide, hinf,
    all_infeasible_leaves_routes_empty 3 1 _ (fun _ => 0) (fun _ => 0) (by decide) hinf⟩

/-- C9. For every valid input with one rider, one restaurant `R` and a single order `O` with
`getDistance(R.location, O.location) <= O.timeLimit` and `O.location != R.location` (grid size
squared representable as an `int`, as the type of `GridGraph::total` requires), `optimize`
returns; the rider's route is a walk of grid-adjacent nodes from `R.location` to `O.location`
with `getDistance(R.location, O.location) + 1` stops, its first stop is labelled `R`'s name, its
last stop is labelled `O`'s name, the stops in between are unlabelled, and the rider's total
time is `getDistance(R.location, O.location)`. -/
theorem single_order_route (gridSz : Int) (rn : String) (rl : Int) (onm : String) (ol tl : Int)
    (d0 p0 : Int → Int) (hv : ValidInput gridSz 1 [⟨rn, rl, [⟨onm, ol, tl⟩]⟩])
    (hfit : gridSz * gridSz ≤ INT_MAX) (hne : ol ≠ rl)
    (hfeas : ∃ d, (getDistance (GridGraph.init gridSz d0 p0) rl ol).map Prod.fst = some d ∧
      d ≤ tl) :
    ∃ route d,
      (runTestCase gridSz 1 [⟨rn, rl, [⟨onm, ol, tl⟩]⟩] d0 p0).map
          (fun ro => (ro.routes 0, ro.routeTimes 0)) = some (route, d) ∧
      (getDistance (GridGraph.init gridSz d0 p0) rl ol).map Prod.fst = some d ∧
      (route.length : Int) = d + 1 ∧
      (route.map (fun s => s.location)).head? = some rl ∧
      (route.map (fun s => s.location)).getLast? = some ol ∧
      (route.map (fun s => s.location)).Chain' (GridAdjacent gridSz) ∧
      route.head? = some ⟨rl, rn, true⟩ ∧
      route.getLast? = some ⟨ol, onm, true⟩ ∧
      (∀ (i : Nat) (hi : i < route.length), 0 < i → i + 1 < route.length →
        (route[i]).isNamed = false) := by
  have hn := hv.1
  have hrl : ValidNode (gridSz * gridSz) rl :=
    (hv.2.2 ⟨rn, rl, [⟨onm, ol, tl⟩]⟩ (List.mem_singleton_self _)).1
  have hol : ValidNode (gridSz * gridSz) ol :=
    (hv.2.2 ⟨rn, rl, [⟨onm, ol, tl⟩]⟩ (List.mem_singleton_self _)).2 ⟨onm, ol, tl⟩
      (List.mem_singleton_self _)
  obtain ⟨g1, e1, hg1⟩ := getDistance_grid gridSz hn _ (isGrid_init gridSz d0 p0) rl ol hrl hol
  obtain ⟨g2, e2, hg2⟩ := getDistance_grid gridSz hn g1 hg1 rl ol hrl hol
  obtain ⟨path, g3, e3, _, p1, p2, p3, p4, p5⟩ :=
    getPath_grid_full gridSz hn g2 hg2 rl ol hrl hol
  have hm : manhattan gridSz rl ol ≤ tl := by
    obtain ⟨d, hd1, hd2⟩ := hfeas
    rw [e1] at hd1
    simp only [Option.map_some', Option.some.injEq] at hd1
    omega
  have hlt : manhattan gridSz rl ol < INT_MAX := by
    have := manhattan_le gridSz rl ol hn hrl hol
    omega
  have hnn := manhattan_nonneg gridSz rl ol
  have hlen : 2 ≤ path.length := by
    by_contra hc
    have h1 : path.length = 1 := by omega
    match path, h1, p2, p3 with
    | [x], _, p2, p3 =>
      simp only [List.head?_cons, Option.some.injEq] at p2
      simp only [List.getLast?_singleton, Option.some.injEq] at p3
      exact hne (p3.symm.trans p2)
  have hmid : ∀ (i : Nat) (hi : i < path.length), i + 1 < path.length → path[i] ≠ ol := by
    intro i hi hi2 hc
    have := p5 i hi
    rw [hc] at this
    omega
  obtain ⟨q1, q2, q3, q4, q5⟩ := route_of_leg path rl ol rn onm _ rfl p2 p3 hlen hmid
  refine ⟨_, _, run_single_order gridSz rn rl onm ol tl d0 p0 _ g1 g2 g3 path e1 e2 e3 hm hlt,
    by rw [e1]; rfl, ?_, ?_, ?_, ?_, q3, q4, q5⟩
  · rw [q1]; exact p1
  · rw [q2]; exact p2
  · rw [q2]; exact p3
  · rw [q2]; exact p4

theorem single_order_route_witness :
    ValidInput 3 1 [⟨"R1", 5, [⟨"O1", 9, 10⟩]⟩] ∧ (3 : Int) * 3 ≤ INT_MAX ∧ (9 : Int) ≠ 5 ∧
    (∃ d, (getDistance (GridGraph.init 3 (fun _ => 0) (fun _ => 0)) 5 9).map Prod.fst = some d ∧
      d ≤ 10) ∧
    ∃ route d,
      (runTestCase 3 1 [⟨"R1", 5, [⟨"O1", 9, 10⟩]⟩] (fun _ => 0) (fun _ => 0)).map
          (fun ro => (ro.routes 0, ro.routeTimes 0)) = some (route, d) ∧
      (getDistance (GridGraph.init 3 (fun _ => 0) (fun _ => 0)) 5 9).map Prod.fst = some d ∧
      (route.length : Int) = d + 1 ∧
      (route.map (fun s => s.location)).head? = some 5 ∧
      (route.map (fun s => s.location)).getLast? = some 9 ∧
      (route.map (fun s => s.location)).Chain' (GridAdjacent 3) ∧
      route.head? = some ⟨5, "R1", true⟩ ∧
      route.getLast? = some ⟨9, "O1", true⟩ ∧
      (∀ (i : Nat) (hi : i < route.length), 0 < i → i + 1 < route.length →
        (route[i]).isNamed = false) :=
  ⟨by decide, by decide, by decide, ⟨2, by decide, by decide⟩,
    single_order_route 3 "R1" 5 "O1" 9 10 (fun _ => 0) (fun _ => 0) (by decide) (by decide)
      (by decide) ⟨2, by decide, by decide⟩⟩

/-- C8. For every rider with a non-empty pending list `a :: as`: the first group built by
`buildRoute` is the restaurant of the first pending entry `a`; the restaurant loop, entered at
the depot, first appends the stop at that restaurant's location labelled with its name while
the total time stays `0`, whatever the restaurants' locations are, and then continues from that
state; hence whenever `buildRoute` returns, the rider's route starts with that stop; and on
valid data `buildRoute` does return. -/
theorem first_stop_is_first_restaurant (ro : RouteOptimizer) (rid : Nat) (a : Assign)
    (as : List Assign) (hpend : ro.assignments rid = a :: as) :
    (groupAssignments (ro.assignments rid)).uRests.head? = some a.rest ∧
      restLoop ro.rests (groupAssignments (ro.assignments rid))
          (groupAssignments (ro.assignments rid)).uRests.length (fun _ => false)
          { graph := ro.graph, curLoc := 0, route := [], time := 0 } =
        (deliverLoop ro.rests ((groupAssignments (ro.assignments rid)).rOrds.getD 0 [])
          ((groupAssignments (ro.assignments rid)).rOrds.getD 0 []).length (fun _ => false)
          { graph := ro.graph, curLoc := (derefRest ro.rests a.rest).location,
            route := [⟨(derefRest ro.rests a.rest).location,
              (derefRest ro.rests a.rest).name, true⟩],
            time := 0 }).bind
          (fun st2 => restLoop ro.rests (groupAssignments (ro.assignments rid))
            ((groupAssignments (ro.assignments rid)).uRests.length - 1)
            (updAt (fun _ => false) 0 true) st2) ∧
      (∀ ro1, buildRoute ro rid = some ro1 →
        (ro1.routes rid).head? = some ⟨(derefRest ro.rests a.rest).location,
          (derefRest ro.rests a.rest).name, true⟩) ∧
      (∀ n, 1 ≤ n → IsGrid n ro.graph → (∀ b ∈ ro.assignments rid, AssignOK n ro.rests b) →
        ∃ ro1, buildRoute ro rid = some ro1) := by
  obtain ⟨more, hu⟩ := groupAssignments_cons a as
  rw [← hpend] at hu
  have hlen : (groupAssignments (ro.assignments rid)).uRests.length = more.length + 1 := by
    rw [hu]; rfl
  have hget : (groupAssignments (ro.assignments rid)).uRests.getD 0 0 = a.rest := by
    rw [hu]; rfl
  have hloop := restLoop_depot ro.rests (groupAssignments (ro.assignments rid)) ro.graph
    more.length hlen
  rw [hget] at hloop
  have hloop2 : restLoop ro.rests (groupAssignments (ro.assignments rid))
      (groupAssignments (ro.assignments rid)).uRests.length (fun _ => false)
      { graph := ro.graph, curLoc := 0, route := [], time := 0 } =
      (deliverLoop ro.rests ((groupAssignments (ro.assignments rid)).rOrds.getD 0 [])
        ((groupAssignments (ro.assignments rid)).rOrds.getD 0 []).length (fun _ => false)
        { graph := ro.graph, curLoc := (derefRest ro.rests a.rest).location,
          route := [⟨(derefRest ro.rests a.rest).location,
            (derefRest ro.rests a.rest).name, true⟩],
          time := 0 }).bind
        (fun st2 => restLoop ro.rests (groupAssignments (ro.assignments rid))
          ((groupAssignments (ro.assignments rid)).uRests.length - 1)
          (updAt (fun _ => false) 0 true) st2) := by
    rw [hloop, hlen]; rfl
  refine ⟨by rw [hu]; rfl, hloop2, ?_, ?_⟩
  · intro ro1 h
    unfold buildRoute at h
    dsimp only at h
    rw [hloop2] at h
    cases hd : deliverLoop ro.rests ((groupAssignments (ro.assignments rid)).rOrds.getD 0 [])
        ((groupAssignments (ro.assignments rid)).rOrds.getD 0 []).length (fun _ => false)
        { graph := ro.graph, curLoc := (derefRest ro.rests a.rest).location,
          route := [⟨(derefRest ro.rests a.rest).location,
            (derefRest ro.rests a.rest).name, true⟩],
          time := 0 } with
    | none => rw [hd] at h; exact absurd h (by simp)
    | some st2 =>
      rw [hd] at h
      simp only [Option.some_bind] at h
      obtain ⟨l2, e2⟩ := deliverLoop_appends _ _ _ _ _ _ hd
      cases hr : restLoop ro.rests (groupAssignments (ro.assignments rid))
          ((groupAssignments (ro.assignments rid)).uRests.length - 1)
          (updAt (fun _ => false) 0 true) st2 with
      | none => rw [hr] at h; exact absurd h (by simp)
      | some st3 =>
        rw [hr] at h
        simp only [Option.some.injEq] at h
        obtain ⟨l3, e3⟩ := restLoop_appends _ _ _ _ _ _ hr
        rw [← h]
        simp only [updAt_same, e3, e2]
        rfl
  · intro n hn hg hok
    obtain ⟨st, e, _⟩ := buildRoute_total n hn ro rid hg hok
    exact ⟨_, e⟩

theorem first_stop_is_first_restaurant_witness :
    sampleOptimizer.assignments 0 = [⟨0, ⟨0, 0⟩⟩] ∧
    ((groupAssignments (sampleOptimizer.assignments 0)).uRests.head? = some 0 ∧
      restLoop sampleOptimizer.rests (groupAssignments (sampleOptimizer.assignments 0))
          (groupAssignments (sampleOptimizer.assignments 0)).uRests.length (fun _ => false)
          { graph := sampleOptimizer.graph, curLoc := 0, route := [], time := 0 } =
        (deliverLoop sampleOptimizer.rests
          ((groupAssignments (sampleOptimizer.assignments 0)).rOrds.getD 0 [])
          ((groupAssignments (sampleOptimizer.assignments 0)).rOrds.getD 0 []).length
          (fun _ => false)
          { graph := sampleOptimizer.graph,
            curLoc := (derefRest sampleOptimizer.rests 0).location,
            route := [⟨(derefRest sampleOptimizer.rests 0).location,
              (derefRest sampleOptimizer.rests 0).name, true⟩],
            time := 0 }).bind
          (fun st2 => restLoop sampleOptimizer.rests
            (groupAssignments (sampleOptimizer.assignments 0))
            ((groupAssignments (sampleOptimizer.assignments 0)).uRests.length - 1)
            (updAt (fun _ => false) 0 true) st2) ∧
      (∀ ro1, buildRoute sampleOptimizer 0 = some ro1 →
        (ro1.routes 0).head? = some ⟨(derefRest sampleOptimizer.rests 0).location,
          (derefRest sampleOptimizer.rests 0).name, true⟩) ∧
      (∀ n, 1 ≤ n → IsGrid n sampleOptimizer.graph →
        (∀ b ∈ sampleOptimizer.assignments 0, AssignOK n sampleOptimizer.rests b) →
        ∃ ro1, buildRoute sampleOptimizer 0 = some ro1)) :=
  ⟨rfl, first_stop_is_first_restaurant sampleOptimizer 0 ⟨0, ⟨0, 0⟩⟩ [] rfl⟩

/-- C6 (failing input). On the valid input `3 × 3` grid, one rider, restaurant `R1` at node 5
with the single order `O1` at node 5 and deadline 0, `optimize` marks the order assigned, yet
the only route is the single stop `5 (R1)`: no stop carries the order's name. -/
theorem colocated_order_assigned_but_not_on_route :
    (runTestCase 3 1 [⟨"R1", 5, [⟨"O1", 5, 0⟩]⟩] (fun _ => 0) (fun _ => 0)).map
        (fun ro => ((derefOrder ro.rests ⟨0, 0⟩).assigned, ro.routes 0, ro.routeTimes 0,
          ro.assignments 0)) =
      some (true, [⟨5, "R1", true⟩], 0, [⟨0, ⟨0, 0⟩⟩]) := by
  decide!

/-! ## Lemmas: the canonical query results `gridDist` and `gridPath` -/

theorem getDistance_gridDist (n : Int) (hn : 1 ≤ n) (g : GridGraph) (hg : IsGrid n g)
    (a b : Int) (ha : ValidNode (n * n) a) (hb : ValidNode (n * n) b) :
    gridDist n a b = manhattan n a b ∧
      ∃ g1, getDistance g a b = some (gridDist n a b, g1) ∧ IsGrid n g1 := by
  obtain ⟨g0, e0, _⟩ := getDistance_grid n hn (GridGraph.new n)
    (isGrid_init n (fun _ => 0) (fun _ => 0)) a b ha hb
  have e : gridDist n a b = manhattan n a b := by
    unfold gridDist
    rw [e0]
  obtain ⟨g1, e1, h1⟩ := getDistance_grid n hn g hg a b ha hb
  exact ⟨e, g1, by rw [e, e1], h1⟩

theorem predWalk_valid (n s : Int) (pred : Int → Int) (hps : pred s = -1)
    (hp : ∀ v, ValidNode (n * n) v → v ≠ s → ValidNode (n * n) (pred v)) :
    ∀ (fuel : Nat) (v : Int) (temp r : List Int), (v = -1 ∨ ValidNode (n * n) v) →
      (∀ x ∈ temp, ValidNode (n * n) x) → predWalk pred fuel v temp = some r →
      ∀ x ∈ r, ValidNode (n * n) x := by
  intro fuel
  induction fuel with
  | zero =>
    intro v temp r _ ht h
    unfold predWalk at h
    by_cases e : v = -1
    · rw [if_pos e] at h
      simp only [Option.some.injEq] at h
      rw [← h]; exact ht
    · rw [if_neg e] at h; exact absurd h (by simp)
  | succ f ih =>
    intro v temp r hv ht h
    unfold predWalk at h
    by_cases e : v = -1
    · rw [if_pos e] at h
      simp only [Option.some.injEq] at h
      rw [← h]; exact ht
    · rw [if_neg e] at h
      have hvv : ValidNode (n * n) v := by
        rcases hv with hv | hv
        · exact absurd hv e
        · exact hv
      refine ih (pred v) (temp ++ [v]) r ?_ ?_ h
      · by_cases es : v = s
        · exact Or.inl (by rw [es, hps])
        · exact Or.inr (hp v hvv es)
      · intro x hx
        rcases List.mem_append.1 hx with hx | hx
        · exact ht x hx
        · rw [List.mem_singleton.1 hx]; exact hvv

theorem getPath_valid_nodes (n : Int) (hn : 1 ≤ n) (g : GridGraph) (hg : IsGrid n g)
    (a b : Int) (ha : ValidNode (n * n) a) (hb : ValidNode (n * n) b) (p : List Int)
    (g1 : GridGraph) (h : getPath g a b = some (p, g1)) : ∀ x ∈ p, ValidNode (n * n) x := by
  unfold getPath at h
  by_cases e : a = b
  · rw [if_pos e] at h
    simp only [Option.some.injEq, Prod.mk.injEq] at h
    rw [← h.1]
    intro x hx
    rw [List.mem_singleton.1 hx]; exact ha
  · rw [if_neg e] at h
    obtain ⟨r, er, _, _, hps, hp⟩ := bfs_grid n hn g hg a ha
    rw [er] at h
    dsimp only at h
    cases hw : predWalk r.pred (r.total.toNat + 1) b [] with
    | none => rw [hw] at h; exact absurd h (by simp)
    | some t =>
      rw [hw] at h
      simp only [Option.some.injEq, Prod.mk.injEq] at h
      rw [← h.1, reverseCopy_eq_reverse]
      intro x hx
      rw [List.mem_reverse] at hx
      exact predWalk_valid n a r.pred hps (fun v hv hne => (hp v hv hne).1) _ b [] t
        (Or.inr hb) (by simp) hw x hx

/-- In every scratch state `getPath(a, b)` returns `gridPath n a b`; it has
`gridDist n a b + 1` valid nodes, starts at `a`, ends at `b`, its consecutive nodes are
grid-adjacent, and its `i`-th node is at distance `i` from `a`. -/
theorem getPath_gridPath (n : Int) (hn : 1 ≤ n) (g : GridGraph) (hg : IsGrid n g)
    (a b : Int) (ha : ValidNode (n * n) a) (hb : ValidNode (n * n) b) :
    (∃ g1, getPath g a b = some (gridPath n a b, g1) ∧ IsGrid n g1) ∧
      ((gridPath n a b).length : Int) = gridDist n a b + 1 ∧
      (gridPath n a b).head? = some a ∧ (gridPath n a b).getLast? = some b ∧
      (gridPath n a b).Chain' (GridAdjacent n) ∧
      (∀ (i : Nat) (hi : i < (gridPath n a b).length),
        manhattan n a (gridPath n a b)[i] = i) ∧
      (∀ x ∈ gridPath n a b, ValidNode (n * n) x) := by
  have hg0 := isGrid_init n (fun _ => 0) (fun _ => 0)
  obtain ⟨p0, g0, e0, _, q1, q2, q3, q4, q5⟩ :=
    getPath_grid_full n hn (GridGraph.new n) hg0 a b ha hb
  have hv0 := getPath_valid_nodes n hn _ hg0 a b ha hb p0 g0 e0
  have e : gridPath n a b = p0 := by
    unfold gridPath
    rw [e0]
  obtain ⟨p1, g1, e1, h1, _⟩ := getPath_grid_full n hn g hg a b ha hb
  have hag := getPath_agree n hn g (GridGraph.new n) hg hg0 a b ha hb
  rw [e1, e0] at hag
  simp only [Option.map_some', Option.some.injEq] at hag
  rw [e]
  refine ⟨⟨g1, by rw [e1, hag], h1⟩, ?_, q2, q3, q4, q5, hv0⟩
  rw [q1, (getDistance_gridDist n hn _ hg0 a b ha hb).1]

theorem isWalk_append (n : Int) (a b c : Int) (l1 l2 : List Int) (h1 : IsWalk n a l1 b)
    (h2 : IsWalk n b l2 c) : IsWalk n a (l1 ++ l2) c := by
  induction l1 generalizing a with
  | nil =>
    simp only [IsWalk] at h1
    rw [h1]; exact h2
  | cons x xs ih =>
    simp only [IsWalk] at h1
    simp only [List.cons_append, IsWalk]
    exact ⟨h1.1, h1.2.1, ih x h1.2.2⟩

theorem isWalk_of_chain (n : Int) (a b : Int) (l : List Int)
    (hc : (a :: l).Chain' (GridAdjacent n)) (hl : (a :: l).getLast? = some b)
    (hv : ∀ x ∈ l, ValidNode (n * n) x) : IsWalk n a l b := by
  induction l generalizing a with
  | nil =>
    simp only [List.getLast?_singleton, Option.some.injEq] at hl
    exact hl
  | cons x xs ih =>
    rw [List.chain'_cons] at hc
    rw [List.getLast?_cons_cons] at hl
    exact ⟨hc.1, hv x (by simp), ih x hc.2 hl (fun y hy => hv y (List.mem_cons_of_mem _ hy))⟩

theorem isWalk_chain (n : Int) (a b : Int) (l : List Int) (h : IsWalk n a l b) :
    (a :: l).Chain' (GridAdjacent n) ∧ (a :: l).getLast? = some b ∧
      ∀ x ∈ l, ValidNode (n * n) x := by
  induction l generalizing a with
  | nil =>
    simp only [IsWalk] at h
    exact ⟨List.chain'_singleton a, by rw [h]; rfl, by simp⟩
  | cons x xs ih =>
    simp only [IsWalk] at h
    obtain ⟨h1, h2, h3⟩ := ih x h.2.2
    refine ⟨List.chain'_cons.2 ⟨h.1, h1⟩, by rw [List.getLast?_cons_cons]; exact h2, ?_⟩
    intro y hy
    rcases List.mem_cons.1 hy with hy | hy
    · rw [hy]; exact h.2.1
    · exact h3 y hy

theorem legStops_locations (path : List Int) (target : Int) (name : String) :
    (legStops path target name).map (fun s => s.location) = path.drop 1 := by
  unfold legStops
  rw [List.map_map]
  conv_rhs => rw [← List.map_id (path.drop 1)]
  apply List.map_congr_left
  intro p _
  by_cases h : p = target <;> simp [h]

/-- The leg appended for a move from `a` to `b` on the grid: `gridDist n a b` stops forming a
walk from `a` to `b`. -/
theorem leg_walk (n : Int) (hn : 1 ≤ n) (a b : Int) (ha : ValidNode (n * n) a)
    (hb : ValidNode (n * n) b) (name : String) :
    ((legStops (gridPath n a b) b name).length : Int) = gridDist n a b ∧
      IsWalk n a ((legStops (gridPath n a b) b name).map (fun s => s.location)) b := by
  obtain ⟨_, q1, q2, q3, q4, _, q6⟩ := getPath_gridPath n hn _
    (isGrid_init n (fun _ => 0) (fun _ => 0)) a b ha hb
  rw [legStops_locations]
  have hlen : (legStops (gridPath n a b) b name).length = (gridPath n a b).length - 1 := by
    simp [legStops]
  cases hp : gridPath n a b with
  | nil => rw [hp] at q2; exact absurd q2 (by simp)
  | cons x xs =>
    rw [hp] at q1 q2 q3 q4 q6 hlen
    simp only [List.head?_cons, Option.some.injEq] at q2
    subst q2
    constructor
    · rw [hlen]
      simp only [List.length_cons, Nat.add_sub_cancel] at q1 ⊢
      push_cast at q1
      omega
    · simp only [List.drop_one, List.tail_cons]
      exact isWalk_of_chain n x b xs q4 q3 (fun y hy => q6 y (List.mem_cons_of_mem _ hy))

/-! ## Lemmas: the nearest-candidate scans -/

theorem foldlOpt_append {σ α : Type} (f : σ → α → Option σ) (s : σ) (l1 l2 : List α) :
    foldlOpt f s (l1 ++ l2) = (foldlOpt f s l1).bind (fun s1 => foldlOpt f s1 l2) := by
  induction l1 generalizing s with
  | nil => rfl
  | cons x xs ih =>
    rw [List.cons_append, foldlOpt_cons, foldlOpt_cons]
    cases f s x with
    | none => rfl
    | some s1 => exact ih s1

/-- A scan whose step keeps the first candidate with the least value of `d` below the current
minimum computes the nearest not-yet-done index with ties to the lowest index, or nothing when
every candidate is at distance `INT_MAX` or more. -/
theorem scan_spec (n : Int) (f : Sel → Nat → Option Sel) (d : Nat → Int) (done : Nat → Bool)
    (len : Nat)
    (hstep : ∀ (acc : Sel) (j : Nat), j < len → IsGrid n acc.graph →
      ∃ g1, IsGrid n g1 ∧ f acc j = some
        (if done j = true then acc
         else if d j < acc.minDist then ⟨some j, d j, g1⟩ else { acc with graph := g1 }))
    (g : GridGraph) (hg : IsGrid n g) :
    ∀ m, m ≤ len →
      ∃ acc, foldlOpt f ⟨none, INT_MAX, g⟩ (List.range m) = some acc ∧ IsGrid n acc.graph ∧
        ((acc.nearIdx = none ∧ acc.minDist = INT_MAX ∧
            ∀ j, j < m → done j = false → INT_MAX ≤ d j) ∨
          (∃ k, acc.nearIdx = some k ∧ acc.minDist = d k ∧ d k < INT_MAX ∧
            NearestFirst d done m k)) := by
  intro m
  induction m with
  | zero =>
    intro _
    exact ⟨_, rfl, hg, Or.inl ⟨rfl, rfl, fun j hj => absurd hj (by omega)⟩⟩
  | succ m ih =>
    intro hm
    obtain ⟨acc, e, hga, hacc⟩ := ih (by omega)
    obtain ⟨g1, hg1, es⟩ := hstep acc m (by omega) hga
    rw [List.range_succ, foldlOpt_append, e, Option.some_bind, foldlOpt_cons, es,
      Option.some_bind]
    by_cases hd : done m = true
    · rw [if_pos hd]
      refine ⟨acc, rfl, hga, ?_⟩
      rcases hacc with ⟨a1, a2, a3⟩ | ⟨k, a1, a2, a3, b1, b2, b3, b4⟩
      · refine Or.inl ⟨a1, a2, ?_⟩
        intro j hj hdj
        by_cases ej : j = m
        · rw [ej, hd] at hdj; exact absurd hdj (by simp)
        · exact a3 j (by omega) hdj
      · refine Or.inr ⟨k, a1, a2, a3, by omega, b2, ?_, b4⟩
        intro j hj hdj
        by_cases ej : j = m
        · rw [ej, hd] at hdj; exact absurd hdj (by simp)
        · exact b3 j (by omega) hdj
    · rw [if_neg hd]
      have hdm : done m = false := by simpa using hd
      by_cases hlt : d m < acc.minDist
      · rw [if_pos hlt]
        refine ⟨_, rfl, hg1, Or.inr ⟨m, rfl, rfl, ?_, by omega, hdm, ?_, ?_⟩⟩
        · rcases hacc with ⟨_, a2, _⟩ | ⟨k, _, a2, a3, _⟩
          · rw [a2] at hlt; exact hlt
          · rw [a2] at hlt; omega
        · intro j hj hdj
          by_cases ej : j = m
          · rw [ej]
          · rcases hacc with ⟨_, a2, a3⟩ | ⟨k, _, a2, _, _, _, b3, _⟩
            · have := a3 j (by omega) hdj
              rw [a2] at hlt; omega
            · have := b3 j (by omega) hdj
              rw [a2] at hlt; omega
        · intro j hj hdj
          rcases hacc with ⟨_, a2, a3⟩ | ⟨k, _, a2, _, _, _, b3, _⟩
          · have := a3 j hj hdj
            rw [a2] at hlt; omega
          · have := b3 j hj hdj
            rw [a2] at hlt; omega
      · rw [if_neg hlt]
        refine ⟨_, rfl, hg1, ?_⟩
        rcases hacc with ⟨a1, a2, a3⟩ | ⟨k, a1, a2, a3, b1, b2, b3, b4⟩
        · refine Or.inl ⟨a1, a2, ?_⟩
          intro j hj hdj
          by_cases ej : j = m
          · rw [ej]; rw [a2] at hlt; omega
          · exact a3 j (by omega) hdj
        · refine Or.inr ⟨k, a1, a2, a3, by omega, b2, ?_, b4⟩
          intro j hj hdj
          by_cases ej : j = m
          · rw [ej]; rw [a2] at hlt; omega
          · exact b3 j (by omega) hdj

/-- The order scan of `buildRoute` on valid data. -/
theorem selectOrder_spec (n : Int) (hn : 1 ≤ n) (rests : List Restaurant)
    (ords : List OrderRef)
    (hords : ∀ p ∈ ords, ValidNode (n * n) (derefOrder rests p).location)
    (deliv : Nat → Bool) (curLoc : Int) (hc : ValidNode (n * n) curLoc) (g : GridGraph)
    (hg : IsGrid n g) :
    ∃ sel, foldlOpt (selectOrderStep rests ords deliv curLoc) ⟨none, INT_MAX, g⟩
        (List.range ords.length) = some sel ∧ IsGrid n sel.graph ∧
      ((sel.nearIdx = none ∧ ∀ j, j < ords.length → deliv j = false →
          INT_MAX ≤ gridDist n curLoc (ordLocOf rests ords j)) ∨
        (∃ k, sel.nearIdx = some k ∧ sel.minDist = gridDist n curLoc (ordLocOf rests ords k) ∧
          NearestFirst (fun j => gridDist n curLoc (ordLocOf rests ords j)) deliv
            ords.length k)) := by
  obtain ⟨acc, e, h1, h2⟩ := scan_spec n (selectOrderStep rests ords deliv curLoc)
    (fun j => gridDist n curLoc (ordLocOf rests ords j)) deliv ords.length (by
      intro acc j hj hga
      have hv : ValidNode (n * n) (ordLocOf rests ords j) :=
        hords _ (getD_valid_of_mem ords default j hj)
      obtain ⟨_, g1, e1, hg1⟩ := getDistance_gridDist n hn acc.graph hga curLoc _ hc hv
      refine ⟨g1, hg1, ?_⟩
      unfold selectOrderStep
      by_cases hd : deliv j = true
      · rw [if_pos hd, if_pos hd]
      · rw [if_neg hd, if_neg hd]
        unfold ordLocOf at e1
        rw [e1]
        dsimp only [ordLocOf]
        split_ifs <;> rfl) g hg ords.length (le_refl _)
  refine ⟨acc, e, h1, ?_⟩
  rcases h2 with ⟨a1, _, a3⟩ | ⟨k, a1, a2, _, a4⟩
  · exact Or.inl ⟨a1, a3⟩
  · exact Or.inr ⟨k, a1, a2, a4⟩

/-- The restaurant scan of `buildRoute` on valid data, after the first stop. -/
theorem selectRest_spec (n : Int) (hn : 1 ≤ n) (rests : List Restaurant) (gs : Groups)
    (hgs : GroupsOK n rests gs) (visited : Nat → Bool) (curLoc : Int)
    (hc : ValidNode (n * n) curLoc) (g : GridGraph) (hg : IsGrid n g) :
    ∃ sel, foldlOpt (selectRestStep rests gs.uRests visited curLoc) ⟨none, INT_MAX, g⟩
        (List.range gs.uRests.length) = some sel ∧ IsGrid n sel.graph ∧
      ((sel.nearIdx = none ∧ ∀ j, j < gs.uRests.length → visited j = false →
          INT_MAX ≤ gridDist n curLoc (restLocOf rests gs j)) ∨
        (∃ k, sel.nearIdx = some k ∧ sel.minDist = gridDist n curLoc (restLocOf rests gs k) ∧
          NearestFirst (fun j => gridDist n curLoc (restLocOf rests gs j)) visited
            gs.uRests.length k)) := by
  have hc0 : curLoc ≠ 0 := by have := hc.1; omega
  obtain ⟨acc, e, h1, h2⟩ := scan_spec n (selectRestStep rests gs.uRests visited curLoc)
    (fun j => gridDist n curLoc (restLocOf rests gs j)) visited gs.uRests.length (by
      intro acc j hj hga
      have hv : ValidNode (n * n) (restLocOf rests gs j) :=
        hgs.1 _ (getD_valid_of_mem gs.uRests 0 j hj)
      obtain ⟨_, g1, e1, hg1⟩ := getDistance_gridDist n hn acc.graph hga curLoc _ hc hv
      refine ⟨g1, hg1, ?_⟩
      unfold selectRestStep
      by_cases hd : visited j = true
      · rw [if_pos hd, if_pos hd]
      · rw [if_neg hd, if_neg hd, if_neg hc0]
        unfold restLocOf at e1
        rw [e1]
        dsimp only [restLocOf]
        split_ifs <;> rfl) g hg gs.uRests.length (le_refl _)
  refine ⟨acc, e, h1, ?_⟩
  rcases h2 with ⟨a1, _, a3⟩ | ⟨k, a1, a2, _, a4⟩
  · exact Or.inl ⟨a1, a3⟩
  · exact Or.inr ⟨k, a1, a2, a4⟩

theorem gridDist_lt_intMax (n : Int) (hn : 1 ≤ n) (hfit : n * n ≤ INT_MAX) (a b : Int)
    (ha : ValidNode (n * n) a) (hb : ValidNode (n * n) b) : gridDist n a b < INT_MAX := by
  rw [(getDistance_gridDist n hn _ (isGrid_init n (fun _ => 0) (fun _ => 0)) a b ha hb).1]
  have := manhattan_le n a b hn ha hb
  omega

/-! ## Lemmas: the loops of `buildRoute` follow the nearest-neighbour tour -/

theorem pendingIdx_mem (done : Nat → Bool) (len k : Nat) :
    k ∈ pendingIdx done len ↔ k < len ∧ done k = false := by
  unfold pendingIdx
  simp [List.mem_filter]

theorem pendingIdx_none (len : Nat) : pendingIdx (fun _ => false) len = List.range len := by
  unfold pendingIdx
  simp

theorem pendingIdx_updAt (done : Nat → Bool) (len k : Nat) (hk : k < len)
    (hd : done k = false) :
    (pendingIdx done len).Perm (k :: pendingIdx (updAt done k true) len) ∧
      (pendingIdx done len).length = (pendingIdx (updAt done k true) len).length + 1 := by
  have hmem : k ∈ pendingIdx done len := (pendingIdx_mem done len k).2 ⟨hk, hd⟩
  have hnd : (pendingIdx done len).Nodup := List.Nodup.filter _ (List.nodup_range len)
  have he : pendingIdx (updAt done k true) len = (pendingIdx done len).erase k := by
    rw [List.Nodup.erase_eq_filter hnd]
    unfold pendingIdx
    rw [List.filter_filter]
    apply List.filter_congr
    intro x _
    by_cases e : x = k
    · simp [updAt, e]
    · simp [updAt, e]
  rw [he]
  refine ⟨List.perm_cons_erase hmem, ?_⟩
  rw [List.length_erase_of_mem hmem]
  have : 0 < (pendingIdx done len).length := List.length_pos_of_mem hmem
  omega

/-- The delivery loop at one restaurant follows a nearest-first sequence of the pending orders
of that restaurant: it appends the legs of that sequence, adds their distances to the time and
ends at the last order; with `n * n ≤ INT_MAX` and enough iterations the sequence contains
every undelivered order exactly once. -/
theorem deliverLoop_spec (n : Int) (hn : 1 ≤ n) (rests : List Restaurant)
    (ords : List OrderRef)
    (hords : ∀ p ∈ ords, ValidNode (n * n) (derefOrder rests p).location) :
    ∀ (j : Nat) (deliv : Nat → Bool) (st : BuildState), IsGrid n st.graph →
      ValidNode (n * n) st.curLoc →
      ∃ order st1, deliverLoop rests ords j deliv st = some st1 ∧ IsGrid n st1.graph ∧
        ValidNode (n * n) st1.curLoc ∧
        st1.route = st.route ++ orderLegs n rests ords st.curLoc order ∧
        st1.time = st.time + orderTime n rests ords st.curLoc order ∧
        st1.curLoc = orderEnd rests ords st.curLoc order ∧
        GreedyOrders n rests ords deliv st.curLoc order ∧
        (∀ k ∈ order, k < ords.length) ∧
        (n * n ≤ INT_MAX → (pendingIdx deliv ords.length).length ≤ j →
          order.Perm (pendingIdx deliv ords.length)) := by
  intro j
  induction j with
  | zero =>
    intro deliv st hg hc
    refine ⟨[], st, rfl, hg, hc, by simp [orderLegs], by simp [orderTime], rfl, trivial,
      by simp, ?_⟩
    intro _ hlen
    have : pendingIdx deliv ords.length = [] := List.length_eq_zero.1 (by omega)
    rw [this]
  | succ j ih =>
    intro deliv st hg hc
    obtain ⟨sel, e, hgs, hsel⟩ := selectOrder_spec n hn rests ords hords deliv st.curLoc hc
      st.graph hg
    rw [deliverLoop, e]
    dsimp only
    rcases hsel with ⟨hnone, hall⟩ | ⟨k, hsome, hmin, hnf⟩
    · rw [hnone]
      refine ⟨[], { st with graph := sel.graph }, rfl, hgs, hc, by simp [orderLegs],
        by simp [orderTime], rfl, trivial, by simp, ?_⟩
      intro hfit _
      have : pendingIdx deliv ords.length = [] := by
        unfold pendingIdx
        rw [List.filter_eq_nil_iff]
        intro a ha hda
        have ha2 : a < ords.length := List.mem_range.1 ha
        have hda2 : deliv a = false := by simpa using hda
        have h1 := hall a ha2 hda2
        have h2 := gridDist_lt_intMax n hn hfit st.curLoc (ordLocOf rests ords a) hc
          (hords _ (getD_valid_of_mem ords default a ha2))
        omega
      rw [this]
    · rw [hsome]
      dsimp only
      have hk : k < ords.length := hnf.1
      have hv : ValidNode (n * n) (ordLocOf rests ords k) :=
        hords _ (getD_valid_of_mem ords default k hk)
      obtain ⟨⟨g2, e2, hg2⟩, _⟩ := getPath_gridPath n hn sel.graph hgs st.curLoc
        (ordLocOf rests ords k) hc hv
      unfold ordLocOf at e2
      rw [e2]
      dsimp only
      obtain ⟨order, st1, r1, r2, r3, r4, r5, r6, r7, r8, r9⟩ := ih (updAt deliv k true)
        { graph := g2, curLoc := (derefOrder rests (ords.getD k default)).location,
          route := st.route ++ legStops
            (gridPath n st.curLoc (derefOrder rests (ords.getD k default)).location)
            (derefOrder rests (ords.getD k default)).location
            (derefOrder rests (ords.getD k default)).name,
          time := st.time + sel.minDist } hg2 hv
      dsimp only at r4 r5 r6 r7
      refine ⟨k :: order, st1, r1, r2, r3, ?_, ?_, r6, ⟨hnf, r7⟩, ?_, ?_⟩
      · rw [r4, List.append_assoc]; rfl
      · rw [r5, hmin, add_assoc]; rfl
      · intro x hx
        rcases List.mem_cons.1 hx with hx | hx
        · rw [hx]; exact hk
        · exact r8 x hx
      · intro hfit hlen
        obtain ⟨p1, p2⟩ := pendingIdx_updAt deliv ords.length k hk hnf.2.1
        exact ((r9 hfit (by omega)).cons k).trans p1.symm

theorem restLeg_valid (n : Int) (hn : 1 ≤ n) (rest : Restaurant) (sel : Sel) (st : BuildState)
    (hg : IsGrid n sel.graph) (hc : ValidNode (n * n) st.curLoc)
    (hr : ValidNode (n * n) rest.location) :
    ∃ g2, IsGrid n g2 ∧ restLeg rest sel st = some
      { graph := g2, curLoc := st.curLoc,
        route := st.route ++ legStops (gridPath n st.curLoc rest.location) rest.location
          rest.name,
        time := st.time + sel.minDist } := by
  have hc0 : st.curLoc ≠ 0 := by have := hc.1; omega
  obtain ⟨⟨g2, e2, hg2⟩, _⟩ := getPath_gridPath n hn sel.graph hg st.curLoc rest.location hc hr
  refine ⟨g2, hg2, ?_⟩
  unfold restLeg
  rw [if_pos hc0, e2]

theorem groupsOK_orders (n : Int) (rests : List Restaurant) (gs : Groups)
    (hgs : GroupsOK n rests gs) (r : Nat) :
    ∀ p ∈ gs.rOrds.getD r [], ValidNode (n * n) (derefOrder rests p).location := by
  intro p hp
  by_cases hi : r < gs.rOrds.length
  · exact hgs.2 _ (getD_valid_of_mem gs.rOrds [] r hi) p hp
  · rw [List.getD_eq_default _ _ (not_lt.1 hi)] at hp
    simp at hp

/-- After the first stop, the restaurant loop follows a tour whose groups are chosen
nearest-first from the current location; it appends the legs of that tour and adds their
distances to the time; with `n * n ≤ INT_MAX` and enough iterations the tour contains every
unvisited group exactly once. -/
theorem restLoop_spec (n : Int) (hn : 1 ≤ n) (rests : List Restaurant) (gs : Groups)
    (hgs : GroupsOK n rests gs) :
    ∀ (i : Nat) (visited : Nat → Bool) (st : BuildState), IsGrid n st.graph →
      ValidNode (n * n) st.curLoc →
      ∃ tour st1, restLoop rests gs i visited st = some st1 ∧ IsGrid n st1.graph ∧
        st1.route = st.route ++ tourFromStops n rests gs st.curLoc tour ∧
        st1.time = st.time + tourFromTime n rests gs st.curLoc tour ∧
        GreedyRests n rests gs visited st.curLoc tour ∧
        (∀ p ∈ tour, GroupVisit n rests gs p) ∧
        (n * n ≤ INT_MAX → (pendingIdx visited gs.uRests.length).length ≤ i →
          (tour.map Prod.fst).Perm (pendingIdx visited gs.uRests.length)) := by
  intro i
  induction i with
  | zero =>
    intro visited st hg hc
    refine ⟨[], st, rfl, hg, by simp [tourFromStops], by simp [tourFromTime], trivial,
      by simp, ?_⟩
    intro _ hlen
    have : pendingIdx visited gs.uRests.length = [] := List.length_eq_zero.1 (by omega)
    rw [this]
    exact List.Perm.refl _
  | succ i ih =>
    intro visited st hg hc
    obtain ⟨sel, e, hgsel, hsel⟩ := selectRest_spec n hn rests gs hgs visited st.curLoc hc
      st.graph hg
    rw [restLoop, e]
    dsimp only
    rcases hsel with ⟨hnone, hall⟩ | ⟨k, hsome, hmin, hnf⟩
    · rw [hnone]
      refine ⟨[], { st with graph := sel.graph }, rfl, hgsel, by simp [tourFromStops],
        by simp [tourFromTime], trivial, by simp, ?_⟩
      intro hfit _
      have : pendingIdx visited gs.uRests.length = [] := by
        unfold pendingIdx
        rw [List.filter_eq_nil_iff]
        intro a ha hda
        have ha2 : a < gs.uRests.length := List.mem_range.1 ha
        have hda2 : visited a = false := by simpa using hda
        have h1 := hall a ha2 hda2
        have h2 := gridDist_lt_intMax n hn hfit st.curLoc (restLocOf rests gs a) hc
          (hgs.1 _ (getD_valid_of_mem gs.uRests 0 a ha2))
        omega
      rw [this]
      exact List.Perm.refl _
    · rw [hsome]
      dsimp only
      have hk : k < gs.uRests.length := hnf.1
      have hv : ValidNode (n * n) (restLocOf rests gs k) :=
        hgs.1 _ (getD_valid_of_mem gs.uRests 0 k hk)
      obtain ⟨g2, hg2, eleg⟩ := restLeg_valid n hn (derefRest rests (gs.uRests.getD k 0)) sel st
        hgsel hc hv
      rw [eleg]
      dsimp only
      obtain ⟨order, st2, d1, d2, d3, d4, d5, d6, d7, d8, d9⟩ := deliverLoop_spec n hn rests
        (gs.rOrds.getD k []) (groupsOK_orders n rests gs hgs k) (gs.rOrds.getD k []).length
        (fun _ => false)
        { graph := g2, curLoc := (derefRest rests (gs.uRests.getD k 0)).location,
          route := st.route ++ legStops
            (gridPath n st.curLoc (derefRest rests (gs.uRests.getD k 0)).location)
            (derefRest rests (gs.uRests.getD k 0)).location
            (derefRest rests (gs.uRests.getD k 0)).name,
          time := st.time + sel.minDist } hg2 hv
      rw [d1]
      dsimp only at d4 d5 d6 d7 ⊢
      obtain ⟨tour, st3, r1, r2, r3, r4, r5, r6, r7⟩ := ih (updAt visited k true) st2 d2 d3
      have hvisit : GroupVisit n rests gs (k, order) := by
        refine ⟨hk, d8, d7, ?_⟩
        intro hfit
        have := d9 hfit (by rw [pendingIdx_none, List.length_range])
        rw [pendingIdx_none] at this
        exact this
      refine ⟨(k, order) :: tour, st3, r1, r2, ?_, ?_, ⟨hnf, ?_⟩, ?_, ?_⟩
      · rw [r3, d4, List.append_assoc, List.append_assoc, d6]
        rfl
      · rw [r4, d5, hmin, d6, add_assoc, add_assoc]
        rfl
      · rw [d6] at r5
        exact r5
      · intro p hp
        rcases List.mem_cons.1 hp with hp | hp
        · rw [hp]; exact hvisit
        · exact r6 p hp
      · intro hfit hlen
        obtain ⟨p1, p2⟩ := pendingIdx_updAt visited gs.uRests.length k hk hnf.2.1
        rw [List.map_cons]
        exact ((r7 hfit (by omega)).cons k).trans p1.symm

/-- The restaurant loop entered at the depot: group 0 first at no cost, then the tour of
`restLoop_spec`. -/
theorem restLoop_from_depot (n : Int) (hn : 1 ≤ n) (rests : List Restaurant) (gs : Groups)
    (hgs : GroupsOK n rests gs) (g : GridGraph) (hg : IsGrid n g) :
    ∃ tour st1, restLoop rests gs gs.uRests.length (fun _ => false)
        { graph := g, curLoc := 0, route := [], time := 0 } = some st1 ∧
      IsGrid n st1.graph ∧
      st1.route = tourStops n rests gs tour ∧ st1.time = tourTime n rests gs tour ∧
      (∀ p ∈ tour, GroupVisit n rests gs p) ∧
      ((tour = [] ∧ gs.uRests = []) ∨
        ∃ os t, tour = (0, os) :: t ∧
          GreedyRests n rests gs (updAt (fun _ => false) 0 true)
            (orderEnd rests (gs.rOrds.getD 0 []) (restLocOf rests gs 0) os) t) ∧
      (n * n ≤ INT_MAX → (tour.map Prod.fst).Perm (List.range gs.uRests.length)) := by
  cases hlen : gs.uRests with
  | nil =>
    refine ⟨[], _, rfl, hg, rfl, rfl, by simp, Or.inl ⟨rfl, rfl⟩, ?_⟩
    intro _
    exact List.Perm.refl _
  | cons u us =>
    have hk : gs.uRests.length = us.length + 1 := by rw [hlen]; rfl
    have h0 : 0 < gs.uRests.length := by omega
    have hv : ValidNode (n * n) (restLocOf rests gs 0) :=
      hgs.1 _ (getD_valid_of_mem gs.uRests 0 0 h0)
    rw [← hlen, restLoop_depot rests gs g us.length hk]
    obtain ⟨order, st2, d1, d2, d3, d4, d5, d6, d7, d8, d9⟩ := deliverLoop_spec n hn rests
      (gs.rOrds.getD 0 []) (groupsOK_orders n rests gs hgs 0) (gs.rOrds.getD 0 []).length
      (fun _ => false)
      { graph := g, curLoc := (derefRest rests (gs.uRests.getD 0 0)).location,
        route := [⟨(derefRest rests (gs.uRests.getD 0 0)).location,
          (derefRest rests (gs.uRests.getD 0 0)).name, true⟩],
        time := 0 } hg hv
    rw [d1, Option.some_bind]
    dsimp only at d4 d5 d6 d7
    obtain ⟨tour, st3, r1, r2, r3, r4, r5, r6, r7⟩ := restLoop_spec n hn rests gs hgs us.length
      (updAt (fun _ => false) 0 true) st2 d2 d3
    have hvisit : GroupVisit n rests gs (0, order) := by
      refine ⟨h0, d8, d7, ?_⟩
      intro hfit
      have := d9 hfit (by rw [pendingIdx_none, List.length_range])
      rw [pendingIdx_none] at this
      exact this
    obtain ⟨p1, p2⟩ := pendingIdx_updAt (fun _ => false) gs.uRests.length 0 h0 rfl
    rw [pendingIdx_none, List.length_range] at p2
    rw [pendingIdx_none] at p1
    refine ⟨(0, order) :: tour, st3, r1, r2, ?_, ?_, ?_, Or.inr ⟨order, tour, rfl, ?_⟩, ?_⟩
    · rw [r3, d4, d6]
      rfl
    · rw [r4, d5, d6, zero_add]
      rfl
    · intro p hp
      rcases List.mem_cons.1 hp with hp | hp
      · rw [hp]; exact hvisit
      · exact r6 p hp
    · rw [d6] at r5
      exact r5
    · intro hfit
      rw [List.map_cons]
      exact ((r7 hfit (by omega)).cons 0).trans p1.symm

/-- On valid data `buildRoute(rid)` returns the route and the total time of a tour of the
rider's groups: group 0 first, then nearest-first from the current location, each group's
pending orders delivered nearest-first; with `n * n ≤ INT_MAX` every group is in the tour
exactly once. -/
theorem buildRoute_spec (n : Int) (hn : 1 ≤ n) (ro : RouteOptimizer) (rid : Nat)
    (hg : IsGrid n ro.graph) (ha : ∀ a ∈ ro.assignments rid, AssignOK n ro.rests a) :
    ∃ tour ro1, buildRoute ro rid = some ro1 ∧ IsGrid n ro1.graph ∧
      ro1.rests = ro.rests ∧ ro1.assignments = ro.assignments ∧
      ro1.numRiders = ro.numRiders ∧
      (∀ r, r ≠ rid → ro1.routes r = ro.routes r ∧ ro1.routeTimes r = ro.routeTimes r) ∧
      ro1.routes rid = tourStops n ro.rests (groupAssignments (ro.assignments rid)) tour ∧
      ro1.routeTimes rid = tourTime n ro.rests (groupAssignments (ro.assignments rid)) tour ∧
      (∀ p ∈ tour, GroupVisit n ro.rests (groupAssignments (ro.assignments rid)) p) ∧
      ((tour = [] ∧ (groupAssignments (ro.assignments rid)).uRests = []) ∨
        ∃ os t, tour = (0, os) :: t ∧
          GreedyRests n ro.rests (groupAssignments (ro.assignments rid))
            (updAt (fun _ => false) 0 true)
            (orderEnd ro.rests ((groupAssignments (ro.assignments rid)).rOrds.getD 0 [])
              (restLocOf ro.rests (groupAssignments (ro.assignments rid)) 0) os) t) ∧
      (n * n ≤ INT_MAX → (tour.map Prod.fst).Perm
        (List.range (groupAssignments (ro.assignments rid)).uRests.length)) := by
  have hgs := groupAssignments_ok n ro.rests (ro.assignments rid) ha
  obtain ⟨tour, st1, e, h1, h2, h3, h4, h5, h6⟩ := restLoop_from_depot n hn ro.rests
    (groupAssignments (ro.assignments rid)) hgs ro.graph hg
  refine ⟨tour,
    { ro with
      graph := st1.graph
      routes := updAt ro.routes rid st1.route
      routeTimes := updAt ro.routeTimes rid st1.time },
    by simp only [buildRoute, e], h1, rfl, rfl, rfl, ?_, ?_, ?_, h4, h5, h6⟩
  · intro r hr
    exact ⟨updAt_other _ _ _ _ hr, updAt_other _ _ _ _ hr⟩
  · dsimp only
    rw [updAt_same, h2]
  · dsimp only
    rw [updAt_same, h3]

/-! ## Lemmas: routes of tours are walks, and the optimizer's routes are tours -/

theorem orderLegs_walk (n : Int) (hn : 1 ≤ n) (rests : List Restaurant) (ords : List OrderRef)
    (hords : ∀ p ∈ ords, ValidNode (n * n) (derefOrder rests p).location) :
    ∀ (order : List Nat) (cur : Int), ValidNode (n * n) cur →
      (∀ k ∈ order, k < ords.length) →
      ((orderLegs n rests ords cur order).length : Int) = orderTime n rests ords cur order ∧
        IsWalk n cur ((orderLegs n rests ords cur order).map (fun s => s.location))
          (orderEnd rests ords cur order) ∧
        ValidNode (n * n) (orderEnd rests ords cur order) := by
  intro order
  induction order with
  | nil =>
    intro cur hc _
    exact ⟨rfl, rfl, hc⟩
  | cons k ks ih =>
    intro cur hc hk
    have hv : ValidNode (n * n) (ordLocOf rests ords k) :=
      hords _ (getD_valid_of_mem ords default k (hk k (by simp)))
    obtain ⟨l1, l2⟩ := leg_walk n hn cur (ordLocOf rests ords k) hc hv (ordNameOf rests ords k)
    obtain ⟨i1, i2, i3⟩ := ih (ordLocOf rests ords k) hv
      (fun x hx => hk x (List.mem_cons_of_mem _ hx))
    simp only [orderLegs, orderTime, orderEnd, List.length_append, List.map_append]
    refine ⟨by push_cast; omega, isWalk_append n _ _ _ _ _ l2 i2, i3⟩

theorem tourFrom_walk (n : Int) (hn : 1 ≤ n) (rests : List Restaurant) (gs : Groups)
    (hgs : GroupsOK n rests gs) :
    ∀ (tour : List (Nat × List Nat)) (cur : Int), ValidNode (n * n) cur →
      (∀ p ∈ tour, GroupVisit n rests gs p) →
      ((tourFromStops n rests gs cur tour).length : Int) = tourFromTime n rests gs cur tour ∧
        ∃ e, IsWalk n cur ((tourFromStops n rests gs cur tour).map (fun s => s.location)) e := by
  intro tour
  induction tour with
  | nil =>
    intro cur _ _
    exact ⟨rfl, cur, rfl⟩
  | cons p t ih =>
    intro cur hc hp
    have hp1 := hp p (by simp)
    have hv : ValidNode (n * n) (restLocOf rests gs p.1) :=
      hgs.1 _ (getD_valid_of_mem gs.uRests 0 p.1 hp1.1)
    obtain ⟨l1, l2⟩ := leg_walk n hn cur (restLocOf rests gs p.1) hc hv (restNameOf rests gs p.1)
    obtain ⟨o1, o2, o3⟩ := orderLegs_walk n hn rests (gs.rOrds.getD p.1 [])
      (groupsOK_orders n rests gs hgs p.1) p.2 (restLocOf rests gs p.1) hv hp1.2.1
    obtain ⟨i1, e, i2⟩ := ih _ o3 (fun q hq => hp q (List.mem_cons_of_mem _ hq))
    simp only [tourFromStops, tourFromTime, List.length_append, List.map_append]
    refine ⟨by push_cast; omega, e, ?_⟩
    exact isWalk_append n _ _ _ _ _ l2 (isWalk_append n _ _ _ _ _ o2 i2)

/-- The route of a non-empty tour has one stop more than its total time, all its stops are
valid nodes and consecutive stops are grid-adjacent. -/
theorem tourStops_walk (n : Int) (hn : 1 ≤ n) (rests : List Restaurant) (gs : Groups)
    (hgs : GroupsOK n rests gs) (tour : List (Nat × List Nat))
    (hp : ∀ p ∈ tour, GroupVisit n rests gs p) :
    (tour ≠ [] → ((tourStops n rests gs tour).length : Int) = tourTime n rests gs tour + 1) ∧
      (tour = [] → tourStops n rests gs tour = []) ∧
      (∀ s ∈ tourStops n rests gs tour, ValidNode (n * n) s.location) ∧
      ((tourStops n rests gs tour).map (fun s => s.location)).Chain' (GridAdjacent n) := by
  cases tour with
  | nil =>
    refine ⟨fun h => absurd rfl h, fun _ => rfl, ?_, ?_⟩
    · intro s hs
      simp [tourStops] at hs
    · simp [tourStops]
  | cons p t =>
    have hp1 := hp p (by simp)
    have hv : ValidNode (n * n) (restLocOf rests gs p.1) :=
      hgs.1 _ (getD_valid_of_mem gs.uRests 0 p.1 hp1.1)
    obtain ⟨o1, o2, o3⟩ := orderLegs_walk n hn rests (gs.rOrds.getD p.1 [])
      (groupsOK_orders n rests gs hgs p.1) p.2 (restLocOf rests gs p.1) hv hp1.2.1
    obtain ⟨i1, e, i2⟩ := tourFrom_walk n hn rests gs hgs t _ o3
      (fun q hq => hp q (List.mem_cons_of_mem _ hq))
    have hw := isWalk_append n _ _ _ _ _ o2 i2
    obtain ⟨c1, c2, c3⟩ := isWalk_chain n _ _ _ hw
    refine ⟨?_, fun h => absurd h (by simp), ?_, ?_⟩
    · intro _
      simp only [tourStops, tourTime, List.length_cons, List.length_append]
      push_cast
      omega
    · intro s hs
      simp only [tourStops, List.mem_cons] at hs
      rcases hs with hs | hs
      · rw [hs]; exact hv
      · apply c3
        rw [← List.map_append]
        exact List.mem_map_of_mem _ hs
    · simp only [tourStops, List.map_cons, List.map_append]
      exact c1

/-- On valid data the route-building loop of `optimize` returns, and afterwards every rider
either has the route and time it had before, or the route and time of a tour of its groups. -/
theorem buildLoop_spec (n : Int) (hn : 1 ≤ n) :
    ∀ (l : List Nat) (ro : RouteOptimizer), IsGrid n ro.graph →
      (∀ r, ∀ a ∈ ro.assignments r, AssignOK n ro.rests a) →
      ∃ ro1, foldlOpt buildStep ro l = some ro1 ∧ ro1.rests = ro.rests ∧
        ro1.assignments = ro.assignments ∧
        ∀ r, (ro1.routes r = ro.routes r ∧ ro1.routeTimes r = ro.routeTimes r) ∨
          ∃ tour, (∀ p ∈ tour, GroupVisit n ro.rests (groupAssignments (ro.assignments r)) p) ∧
            ro1.routes r = tourStops n ro.rests (groupAssignments (ro.assignments r)) tour ∧
            ro1.routeTimes r =
              tourTime n ro.rests (groupAssignments (ro.assignments r)) tour := by
  intro l
  induction l with
  | nil => intro ro _ _; exact ⟨ro, rfl, rfl, rfl, fun _ => Or.inl ⟨rfl, rfl⟩⟩
  | cons x xs ih =>
    intro ro hg ha
    rw [foldlOpt_cons]
    unfold buildStep
    by_cases hx : (ro.assignments x).length > 0
    · rw [if_pos hx]
      obtain ⟨tour, ro2, e, b1, b2, b3, _, b5, b6, b7, b8, _⟩ :=
        buildRoute_spec n hn ro x hg (ha x)
      rw [e, Option.some_bind]
      obtain ⟨ro1, r1, r2, r3, r4⟩ := ih ro2 b1 (by
        intro r a har
        rw [b3] at har
        rw [b2]
        exact ha r a har)
      refine ⟨ro1, r1, by rw [r2, b2], by rw [r3, b3], ?_⟩
      intro r
      rcases r4 r with ⟨q1, q2⟩ | ⟨t, q1, q2, q3⟩
      · by_cases hr : r = x
        · refine Or.inr ⟨tour, ?_, ?_, ?_⟩
          · rw [hr]; exact b8
          · rw [q1, hr]; exact b6
          · rw [q2, hr]; exact b7
        · exact Or.inl ⟨by rw [q1, (b5 r hr).1], by rw [q2, (b5 r hr).2]⟩
      · rw [b2, b3] at q1 q2 q3
        exact Or.inr ⟨t, q1, q2, q3⟩
    · rw [if_neg hx, Option.some_bind]
      exact ih ro hg ha

/-- The state after the assignment pass of `optimize` on a valid test case. -/
theorem assignPass_valid (gridSz : Int) (numRid : Nat) (inp : List RestaurantInput)
    (d0 p0 : Int → Int) (hv : ValidInput gridSz numRid inp) :
    ∃ ro1, assignLoop
        (RouteOptimizer.new (GridGraph.init gridSz d0 p0) (readRestaurants inp) numRid)
        (bubbleSort (readRestaurants inp) (flattenOrders (readRestaurants inp))) = some ro1 ∧
      IsGrid gridSz ro1.graph ∧ ro1.numRiders = numRid ∧
      (∀ r, ro1.routes r = [] ∧ ro1.routeTimes r = 0) ∧
      (∀ r, ∀ a ∈ ro1.assignments r, AssignOK gridSz ro1.rests a) := by
  have hn := hv.1
  have hrv : RestsValid gridSz (readRestaurants inp) :=
    readRestaurants_valid gridSz numRid inp hv
  obtain ⟨hperm, _, _⟩ := bubbleSort_spec (readRestaurants inp)
    (flattenOrders (readRestaurants inp))
  have hok : ∀ x ∈ bubbleSort (readRestaurants inp) (flattenOrders (readRestaurants inp)),
      EntryOK gridSz (readRestaurants inp) x := fun x hx =>
    restsValid_entryOK gridSz _ hrv x (hperm.mem_iff.1 hx)
  obtain ⟨ro1, r1, r2, r3, r4, r5, r6, r7, r8⟩ := assignLoop_valid gridSz hn _
    (RouteOptimizer.new (GridGraph.init gridSz d0 p0) (readRestaurants inp) numRid)
    (isGrid_init gridSz d0 p0) hok
  simp only [RouteOptimizer.new] at r3 r4 r5 r6 r7 r8
  refine ⟨ro1, r1, r2, r3, fun r => ⟨by rw [r5], by rw [r4]⟩, ?_⟩
  intro r a ha
  rw [r8] at ha
  by_cases hr : r = selectRider numRid (fun _ => (0 : Int))
  · rw [hr, updAt_same, List.nil_append, List.mem_map] at ha
    obtain ⟨x, hx, rfl⟩ := ha
    have hx2 := hok x (List.mem_filter.1 hx).1
    unfold AssignOK toAssign
    rw [r6.restLoc, r6.ordLoc]
    exact ⟨hx2.2.2.1, hx2.2.2.2⟩
  · rw [updAt_other _ _ _ _ hr] at ha
    simp at ha

/-- On a valid test case `optimize` returns, and every rider's final route is empty with time
`0` or is the route of a tour of the rider's groups, with that tour's time. -/
theorem optimize_routes_spec (gridSz : Int) (numRid : Nat) (inp : List RestaurantInput)
    (d0 p0 : Int → Int) (hv : ValidInput gridSz numRid inp) :
    ∃ ro, runTestCase gridSz numRid inp d0 p0 = some ro ∧
      ∀ r, (ro.routes r = [] ∧ ro.routeTimes r = 0) ∨
        ∃ tour, GroupsOK gridSz ro.rests (groupAssignments (ro.assignments r)) ∧
          (∀ p ∈ tour, GroupVisit gridSz ro.rests (groupAssignments (ro.assignments r)) p) ∧
          ro.routes r = tourStops gridSz ro.rests (groupAssignments (ro.assignments r)) tour ∧
          ro.routeTimes r =
            tourTime gridSz ro.rests (groupAssignments (ro.assignments r)) tour := by
  obtain ⟨ro1, a1, a2, a3, a4, a5⟩ := assignPass_valid gridSz numRid inp d0 p0 hv
  obtain ⟨ro2, b1, b2, b3, b4⟩ := buildLoop_spec gridSz hv.1 (List.range ro1.numRiders) ro1
    a2 a5
  refine ⟨ro2, ?_, ?_⟩
  · unfold runTestCase optimize
    simp only [RouteOptimizer.new]
    simp only [RouteOptimizer.new] at a1
    rw [a1]
    exact b1
  · intro r
    rcases b4 r with ⟨q1, q2⟩ | ⟨tour, q1, q2, q3⟩
    · exact Or.inl ⟨by rw [q1, (a4 r).1], by rw [q2, (a4 r).2]⟩
    · refine Or.inr ⟨tour, ?_, ?_, ?_, ?_⟩
      · rw [b2, b3]
        exact groupAssignments_ok gridSz ro1.rests _ (a5 r)
      · rw [b2, b3]; exact q1
      · rw [b2, b3]; exact q2
      · rw [b2, b3]; exact q3

/-! ## Lemmas: the legs of a route -/

theorem orderLegs_legs (n : Int) (rests : List Restaurant) (ords : List OrderRef) :
    ∀ (order : List Nat) (cur : Int),
      orderLegs n rests ords cur order =
        ((orderLegList rests ords cur order).map (legRoute n)).flatten := by
  intro order
  induction order with
  | nil => intro cur; rfl
  | cons k ks ih =>
    intro cur
    simp only [orderLegs, orderLegList, List.map_cons, List.flatten_cons, ih]
    rfl

theorem tourFrom_legs (n : Int) (rests : List Restaurant) (gs : Groups) :
    ∀ (tour : List (Nat × List Nat)) (cur : Int),
      tourFromStops n rests gs cur tour =
        ((tourFromLegList rests gs cur tour).map (legRoute n)).flatten := by
  intro tour
  induction tour with
  | nil => intro cur; rfl
  | cons p t ih =>
    intro cur
    simp only [tourFromStops, tourFromLegList, List.map_cons, List.flatten_cons, List.map_append,
      List.flatten_append, ih, orderLegs_legs]
    rfl

theorem tourStops_legs (n : Int) (rests : List Restaurant) (gs : Groups)
    (tour : List (Nat × List Nat)) :
    tourStops n rests gs tour =
      (tourStops n rests gs tour).take 1 ++
        ((tourLegList rests gs tour).map (legRoute n)).flatten := by
  cases tour with
  | nil => rfl
  | cons p t =>
    simp only [tourStops, tourLegList, List.map_append, List.flatten_append, tourFrom_legs,
      orderLegs_legs]
    rfl

theorem orderLegList_valid (n : Int) (rests : List Restaurant)
    (ords : List OrderRef)
    (hords : ∀ p ∈ ords, ValidNode (n * n) (derefOrder rests p).location) :
    ∀ (order : List Nat) (cur : Int), ValidNode (n * n) cur →
      (∀ k ∈ order, k < ords.length) →
      ∀ l ∈ orderLegList rests ords cur order,
        ValidNode (n * n) l.src ∧ ValidNode (n * n) l.dst := by
  intro order
  induction order with
  | nil =>
    intro cur _ _ l hl
    simp [orderLegList] at hl
  | cons k ks ih =>
    intro cur hc hk l hl
    have hv : ValidNode (n * n) (ordLocOf rests ords k) :=
      hords _ (getD_valid_of_mem ords default k (hk k (by simp)))
    simp only [orderLegList, List.mem_cons] at hl
    rcases hl with hl | hl
    · rw [hl]; exact ⟨hc, hv⟩
    · exact ih _ hv (fun x hx => hk x (List.mem_cons_of_mem _ hx)) l hl

theorem tourFromLegList_valid (n : Int) (hn : 1 ≤ n) (rests : List Restaurant) (gs : Groups)
    (hgs : GroupsOK n rests gs) :
    ∀ (tour : List (Nat × List Nat)) (cur : Int), ValidNode (n * n) cur →
      (∀ p ∈ tour, GroupVisit n rests gs p) →
      ∀ l ∈ tourFromLegList rests gs cur tour,
        ValidNode (n * n) l.src ∧ ValidNode (n * n) l.dst := by
  intro tour
  induction tour with
  | nil =>
    intro cur _ _ l hl
    simp [tourFromLegList] at hl
  | cons p t ih =>
    intro cur hc hp l hl
    have hp1 := hp p (by simp)
    have hv : ValidNode (n * n) (restLocOf rests gs p.1) :=
      hgs.1 _ (getD_valid_of_mem gs.uRests 0 p.1 hp1.1)
    obtain ⟨_, _, o3⟩ := orderLegs_walk n hn rests (gs.rOrds.getD p.1 [])
      (groupsOK_orders n rests gs hgs p.1) p.2 (restLocOf rests gs p.1) hv hp1.2.1
    simp only [tourFromLegList, List.mem_cons, List.mem_append] at hl
    rcases hl with hl | hl | hl
    · rw [hl]; exact ⟨hc, hv⟩
    · exact orderLegList_valid n rests _ (groupsOK_orders n rests gs hgs p.1) p.2 _ hv
        hp1.2.1 l hl
    · exact ih _ o3 (fun q hq => hp q (List.mem_cons_of_mem _ hq)) l hl

theorem tourLegList_valid (n : Int) (hn : 1 ≤ n) (rests : List Restaurant) (gs : Groups)
    (hgs : GroupsOK n rests gs) (tour : List (Nat × List Nat))
    (hp : ∀ p ∈ tour, GroupVisit n rests gs p) :
    ∀ l ∈ tourLegList rests gs tour, ValidNode (n * n) l.src ∧ ValidNode (n * n) l.dst := by
  cases tour with
  | nil =>
    intro l hl
    simp [tourLegList] at hl
  | cons p t =>
    intro l hl
    have hp1 := hp p (by simp)
    have hv : ValidNode (n * n) (restLocOf rests gs p.1) :=
      hgs.1 _ (getD_valid_of_mem gs.uRests 0 p.1 hp1.1)
    obtain ⟨_, _, o3⟩ := orderLegs_walk n hn rests (gs.rOrds.getD p.1 [])
      (groupsOK_orders n rests gs hgs p.1) p.2 (restLocOf rests gs p.1) hv hp1.2.1
    simp only [tourLegList, List.mem_append] at hl
    rcases hl with hl | hl
    · exact orderLegList_valid n rests _ (groupsOK_orders n rests gs hgs p.1) p.2 _ hv
        hp1.2.1 l hl
    · exact tourFromLegList_valid n hn rests gs hgs t _ o3
        (fun q hq => hp q (List.mem_cons_of_mem _ hq)) l hl

/-- Labels of the stops of a leg: a stop is named exactly when its location is the
destination, it then carries the destination's name and otherwise the empty name. -/
theorem legStops_labels (path : List Int) (target : Int) (name : String) :
    ∀ s ∈ legStops path target name,
      (s.isNamed = true ↔ s.location = target) ∧
        s.name = if s.location = target then name else "" := by
  intro s hs
  unfold legStops at hs
  rw [List.mem_map] at hs
  obtain ⟨p, _, rfl⟩ := hs
  by_cases h : p = target <;> simp [h]

/-- On the grid, only the last stop of a leg between valid nodes is at the destination. -/
theorem leg_last_only (n : Int) (hn : 1 ≤ n) (a b : Int) (ha : ValidNode (n * n) a)
    (hb : ValidNode (n * n) b) (name : String) (i : Nat)
    (hi : i < (legStops (gridPath n a b) b name).length) :
    ((legStops (gridPath n a b) b name)[i]).location = b ↔
      i + 1 = (legStops (gridPath n a b) b name).length := by
  obtain ⟨_, q1, _, q3, _, q5, _⟩ := getPath_gridPath n hn _
    (isGrid_init n (fun _ => 0) (fun _ => 0)) a b ha hb
  have hd := (getDistance_gridDist n hn _ (isGrid_init n (fun _ => 0) (fun _ => 0)) a b
    ha hb).1
  have hlen : (legStops (gridPath n a b) b name).length = (gridPath n a b).length - 1 := by
    simp [legStops]
  have hi2 : i + 1 < (gridPath n a b).length := by omega
  have hloc : ((legStops (gridPath n a b) b name)[i]).location = (gridPath n a b)[i + 1] := by
    have h1 : ((legStops (gridPath n a b) b name).map (fun s => s.location))[i]? =
        ((gridPath n a b).drop 1)[i]? := by rw [legStops_locations]
    rw [List.getElem?_map, List.getElem?_eq_getElem hi, List.getElem?_drop,
      List.getElem?_eq_getElem (by omega)] at h1
    simp only [Option.map_some', Option.some.injEq] at h1
    rw [h1]
    congr 1
    omega
  rw [hloc]
  constructor
  · intro h
    have h5 := q5 (i + 1) hi2
    rw [h, ← hd] at h5
    push_cast at h5
    omega
  · intro h
    rw [List.getLast?_eq_getElem?] at q3
    have h2 : (gridPath n a b).length - 1 = i + 1 := by omega
    rw [h2, List.getElem?_eq_getElem hi2] at q3
    exact Option.some.inj q3

/-! ## The sample state with four restaurants -/

/-- The pending list of `tourOptimizer` is the one the assignment pass of `optimize` leaves
for rider 0 on the input `tourInput`. -/
theorem tourOptimizer_pending :
    (runTestCase 3 1 tourInput (fun _ => 0) (fun _ => 0)).map
      (fun ro => ro.assignments 0) = some (tourOptimizer.assignments 0) := by
  decide!

/-- The route and total time `buildRoute` computes on `tourOptimizer`: from `R1` the tied
orders `A`, `B` in this sequence, then the nearest restaurant `R4` (the highest group index),
then of the tied restaurants `R2`, `R3` first `R2`, and last `R3`. -/
theorem tourOptimizer_route :
    (buildRoute tourOptimizer 0).map (fun ro => (ro.routes 0, ro.routeTimes 0)) =
      some ([⟨1, "R1", true⟩, ⟨2, "A", true⟩, ⟨1, "", false⟩, ⟨4, "B", true⟩,
        ⟨5, "R4", true⟩, ⟨6, "E", true⟩, ⟨9, "R2", true⟩, ⟨8, "", false⟩, ⟨7, "C", true⟩,
        ⟨4, "", false⟩, ⟨1, "", false⟩, ⟨2, "", false⟩, ⟨3, "R3", true⟩, ⟨2, "D", true⟩],
        13) := by
  decide!

/-- The named stops of the route of `tourOptimizer`, in the sequence they are visited. -/
theorem tourOptimizer_named :
    (buildRoute tourOptimizer 0).map (fun ro => (ro.routes 0).filter (fun s => s.isNamed)) =
      some [⟨1, "R1", true⟩, ⟨2, "A", true⟩, ⟨4, "B", true⟩, ⟨5, "R4", true⟩,
        ⟨6, "E", true⟩, ⟨9, "R2", true⟩, ⟨7, "C", true⟩, ⟨3, "R3", true⟩, ⟨2, "D", true⟩] := by
  decide!

/-- The stop locations of the route of `tourOptimizer`. -/
theorem tourOptimizer_locations :
    (buildRoute tourOptimizer 0).map (fun ro => (ro.routes 0).map (fun s => s.location)) =
      some [1, 2, 1, 4, 5, 6, 9, 8, 7, 4, 1, 2, 3, 2] := by
  decide!

/-- C16. For every grid size `n ≥ 1`, the matrix built by `createGraph` is symmetric, has no
self-loops, holds no `1` in row or column 0, and for all nodes `u`, `v` in `[1, n*n]` has
`adj[u][v] = 1` if and only if `u` and `v` are 4-neighbours on the grid. -/
theorem createGraph_four_neighbour_lattice (n : Int) (hn : 1 ≤ n) :
    (∀ u v, createGraph n (n * n) (fun _ _ => 0) u v =
        createGraph n (n * n) (fun _ _ => 0) v u) ∧
      (∀ u, createGraph n (n * n) (fun _ _ => 0) u u = 0) ∧
      (∀ v, createGraph n (n * n) (fun _ _ => 0) 0 v = 0 ∧
        createGraph n (n * n) (fun _ _ => 0) v 0 = 0) ∧
      (∀ u v, ValidNode (n * n) u → ValidNode (n * n) v →
        (createGraph n (n * n) (fun _ _ => 0) u v = 1 ↔ GridAdjacent n u v)) := by
  have hg := isGrid_init n (fun _ => 0) (fun _ => 0)
  have hiff : ∀ u v, createGraph n (n * n) (fun _ _ => 0) u v = 1 ↔
      ValidNode (n * n) u ∧ ValidNode (n * n) v ∧ GridAdjacent n u v :=
    fun u v => isGrid_adj_iff n hn _ hg u v
  have hzero : ∀ u v, ¬ createGraph n (n * n) (fun _ _ => 0) u v = 1 →
      createGraph n (n * n) (fun _ _ => 0) u v = 0 := by
    intro u v h
    rcases createGraph_values n (n * n) u v with e | e
    · exact e
    · exact absurd e h
  refine ⟨?_, ?_, ?_, ?_⟩
  · intro u v
    by_cases h : createGraph n (n * n) (fun _ _ => 0) u v = 1
    · obtain ⟨h1, h2, h3⟩ := (hiff u v).1 h
      rw [h, (hiff v u).2 ⟨h2, h1, gridAdjacent_symm n u v h3⟩]
    · have h2 : ¬ createGraph n (n * n) (fun _ _ => 0) v u = 1 := by
        intro hc
        obtain ⟨h1, h2, h3⟩ := (hiff v u).1 hc
        exact h ((hiff u v).2 ⟨h2, h1, gridAdjacent_symm n v u h3⟩)
      rw [hzero u v h, hzero v u h2]
  · intro u
    apply hzero
    intro hc
    exact gridAdjacent_irrefl n u ((hiff u u).1 hc).2.2
  · intro v
    constructor
    · apply hzero
      intro hc
      have := ((hiff 0 v).1 hc).1.1
      omega
    · apply hzero
      intro hc
      have := ((hiff v 0).1 hc).2.1.1
      omega
  · intro u v hu hv
    rw [hiff u v]
    exact ⟨fun h => h.2.2, fun h => ⟨hu, hv, h⟩⟩

theorem createGraph_four_neighbour_lattice_witness :
    (1 : Int) ≤ 3 ∧
    ((∀ u v, createGraph 3 (3 * 3) (fun _ _ => 0) u v =
        createGraph 3 (3 * 3) (fun _ _ => 0) v u) ∧
      (∀ u, createGraph 3 (3 * 3) (fun _ _ => 0) u u = 0) ∧
      (∀ v, createGraph 3 (3 * 3) (fun _ _ => 0) 0 v = 0 ∧
        createGraph 3 (3 * 3) (fun _ _ => 0) v 0 = 0) ∧
      (∀ u v, ValidNode (3 * 3) u → ValidNode (3 * 3) v →
        (createGraph 3 (3 * 3) (fun _ _ => 0) u v = 1 ↔ GridAdjacent 3 u v))) :=
  ⟨by decide, createGraph_four_neighbour_lattice 3 (by decide)⟩

/-- C12 (counterexample). On the 3 × 3 grid the query with source and destination 10, outside
`[1, 9]`, does not fail: `getDistance(10, 10)` returns `0` and `getPath(10, 10)` returns the
one-node path `[10]`. -/
theorem out_of_range_query_returns :
    (getDistance (GridGraph.new 3) 10 10).map Prod.fst = some 0 ∧
      (getPath (GridGraph.new 3) 10 10).map Prod.fst = some [10] ∧
      ¬ ValidNode (GridGraph.new 3).total 10 := by
  refine ⟨rfl, rfl, ?_⟩
  decide

/-- C12 (amended). `getDistance` and `getPath` make no range check: when source and
destination are equal they return `0` and the one-node path `[s]` for every value of `s`,
inside or outside `[1, gridSize * gridSize]`, and leave the graph untouched. -/
theorem equal_endpoints_query_unchecked (g : GridGraph) (s : Int) :
    getDistance g s s = some (0, g) ∧ getPath g s s = some ([s], g) := by
  constructor
  · simp [getDistance]
  · simp [getPath]

/-- C20. Feasibility is checked only against the direct restaurant-to-order distance: on the
valid input 3 × 3 grid, one rider, restaurant `R1` at node 1 with orders `O1` at node 3 and `O2`
at node 7, both with deadline 2, the order `O2` is marked assigned and its stop is the stop
number 6 of the rider's route (counting the restaurant stop as number 0), so it is reached
after 6 steps, more than its deadline 2. -/
theorem assigned_order_reached_after_deadline :
    ValidInput 3 1 lateInput ∧
      ∃ ro, runTestCase 3 1 lateInput (fun _ => 0) (fun _ => 0) = some ro ∧
        (derefOrder ro.rests ⟨0, 1⟩).assigned = true ∧
        (derefOrder ro.rests ⟨0, 1⟩).name = "O2" ∧
        (derefOrder ro.rests ⟨0, 1⟩).location = 7 ∧
        (derefOrder ro.rests ⟨0, 1⟩).timeLimit = 2 ∧
        ro.routes 0 = [⟨1, "R1", true⟩, ⟨2, "", false⟩, ⟨3, "O1", true⟩, ⟨2, "", false⟩,
          ⟨1, "", false⟩, ⟨4, "", false⟩, ⟨7, "O2", true⟩] ∧
        (ro.routes 0)[6]? = some ⟨7, "O2", true⟩ ∧
        ((6 : Nat) : Int) > (derefOrder ro.rests ⟨0, 1⟩).timeLimit := by
  have key : (runTestCase 3 1 lateInput (fun _ => 0) (fun _ => 0)).map
      (fun ro => (derefOrder ro.rests ⟨0, 1⟩, ro.routes 0)) =
      some (⟨"O2", 7, 2, true⟩, [⟨1, "R1", true⟩, ⟨2, "", false⟩, ⟨3, "O1", true⟩,
        ⟨2, "", false⟩, ⟨1, "", false⟩, ⟨4, "", false⟩, ⟨7, "O2", true⟩]) := by
    decide!
  refine ⟨by decide, ?_⟩
  cases h : runTestCase 3 1 lateInput (fun _ => 0) (fun _ => 0) with
  | none => rw [h] at key; exact absurd key (by simp)
  | some ro =>
    rw [h] at key
    simp only [Option.map_some', Option.some.injEq, Prod.mk.injEq] at key
    obtain ⟨k1, k2⟩ := key
    refine ⟨ro, rfl, ?_, ?_, ?_, ?_, k2, ?_, ?_⟩
    · rw [k1]
    · rw [k1]
    · rw [k1]
    · rw [k1]
    · rw [k2]; rfl
    · rw [k1]; decide

/-- C19 (failing input). The input `overflowInput` respects the declared capacities (2 ≤
`MAX_REST` restaurants, at most `MAX_ORD` orders each, one rider, all locations valid on the
1 × 1 grid), yet the assignment pass writes 101 entries to rider 0's pending list, one more than
the `MAX_ORD = 100` cells allocated for it. -/
theorem pending_list_exceeds_capacity :
    ValidInput 1 1 overflowInput ∧ (overflowInput.length : Int) ≤ MAX_REST ∧
      (∀ r ∈ overflowInput, (r.orders.length : Int) ≤ MAX_ORD) ∧
      (runTestCase 1 1 overflowInput (fun _ => 0) (fun _ => 0)).map
          (fun ro => (ro.assignments 0).length) = some 101 ∧
      (101 : Int) > MAX_ORD := by
  have hv : ValidInput 1 1 overflowInput := by decide
  refine ⟨hv, by decide, by decide, ?_, by decide⟩
  obtain ⟨ro, e, _, _, hasg, _⟩ := optimize_valid 1 1 overflowInput (fun _ => 0) (fun _ => 0) hv
  have hperm := (bubbleSort_spec (readRestaurants overflowInput)
    (flattenOrders (readRestaurants overflowInput))).1
  have hlen : ((flattenOrders (readRestaurants overflowInput)).filter
      (fun x => decide (Feasible 1 (readRestaurants overflowInput) x))).length = 101 := by
    decide!
  rw [e, Option.map_some', hasg, updAt_same, List.length_map,
    (hperm.filter _).length_eq, hlen]

/-- C11. On the `n × n` grid graph (`n ≥ 1`), `getDistance(a, b)` and `getPath(a, b)` between
nodes `a`, `b` of the graph return the same result whatever the scratch buffers `dist`/`pred`
hold when the query starts, hence whatever queries were made before; and every query, with any
arguments, leaves `size`, `total` and the adjacency matrix as they were. -/
theorem query_result_independent_of_history (n a b : Int) (d0 p0 d1 p1 : Int → Int)
    (hn : 1 ≤ n) (ha : ValidNode (n * n) a) (hb : ValidNode (n * n) b) :
    (getDistance (GridGraph.init n d0 p0) a b).map Prod.fst =
        (getDistance (GridGraph.init n d1 p1) a b).map Prod.fst ∧
      (getPath (GridGraph.init n d0 p0) a b).map Prod.fst =
        (getPath (GridGraph.init n d1 p1) a b).map Prod.fst ∧
      (∃ r g1, getDistance (GridGraph.init n d0 p0) a b = some (r, g1)) ∧
      (∃ p g1, getPath (GridGraph.init n d0 p0) a b = some (p, g1)) ∧
      (∀ x y r g1, getDistance (GridGraph.init n d0 p0) x y = some (r, g1) →
        g1 = GridGraph.init n g1.dist g1.pred) ∧
      (∀ x y p g1, getPath (GridGraph.init n d0 p0) x y = some (p, g1) →
        g1 = GridGraph.init n g1.dist g1.pred) := by
  obtain ⟨g1, e1, _⟩ := getDistance_grid n hn _ (isGrid_init n d0 p0) a b ha hb
  obtain ⟨g2, e2, _⟩ := getDistance_grid n hn _ (isGrid_init n d1 p1) a b ha hb
  obtain ⟨p, g3, e3, _⟩ := getPath_grid n hn _ (isGrid_init n d0 p0) a b ha hb
  refine ⟨by rw [e1, e2]; rfl,
    getPath_agree n hn _ _ (isGrid_init n d0 p0) (isGrid_init n d1 p1) a b ha hb,
    ⟨_, _, e1⟩, ⟨_, _, e3⟩, ?_, ?_⟩
  · intro x y r g4 h
    obtain ⟨h1, h2, h3⟩ := getDistance_keeps_graph _ x y r g4 h
    cases g4
    simp only [GridGraph.init] at h1 h2 h3 ⊢
    rw [h1, h2, h3]
  · intro x y q g4 h
    obtain ⟨h1, h2, h3⟩ := getPath_keeps_graph _ x y q g4 h
    cases g4
    simp only [GridGraph.init] at h1 h2 h3 ⊢
    rw [h1, h2, h3]

theorem query_result_independent_of_history_witness :
    (1 : Int) ≤ 3 ∧ ValidNode (3 * 3) 5 ∧ ValidNode (3 * 3) 9 ∧
    ((getDistance (GridGraph.init 3 (fun _ => 0) (fun _ => 0)) 5 9).map Prod.fst =
        (getDistance (GridGraph.init 3 (fun _ => 7) (fun _ => 4)) 5 9).map Prod.fst ∧
      (getPath (GridGraph.init 3 (fun _ => 0) (fun _ => 0)) 5 9).map Prod.fst =
        (getPath (GridGraph.init 3 (fun _ => 7) (fun _ => 4)) 5 9).map Prod.fst ∧
      (∃ r g1, getDistance (GridGraph.init 3 (fun _ => 0) (fun _ => 0)) 5 9 = some (r, g1)) ∧
      (∃ p g1, getPath (GridGraph.init 3 (fun _ => 0) (fun _ => 0)) 5 9 = some (p, g1)) ∧
      (∀ x y r g1, getDistance (GridGraph.init 3 (fun _ => 0) (fun _ => 0)) x y = some (r, g1) →
        g1 = GridGraph.init 3 g1.dist g1.pred) ∧
      (∀ x y p g1, getPath (GridGraph.init 3 (fun _ => 0) (fun _ => 0)) x y = some (p, g1) →
        g1 = GridGraph.init 3 g1.dist g1.pred)) :=
  ⟨by decide, by decide, by decide,
    query_result_independent_of_history 3 5 9 (fun _ => 0) (fun _ => 0) (fun _ => 7)
      (fun _ => 4) (by decide) (by decide) (by decide)⟩


/-- C13. On valid data (`n × n` grid with `n * n` representable as an `int`, all pending
entries of the rider with valid locations) `buildRoute` returns and the rider's route is the
route of a tour of its restaurant groups: the tour starts with group 0, every later group of
the tour is, at its turn, a not-yet-visited group whose restaurant has the minimum
`getDistance` from the current location among the not-yet-visited groups, and the one with
the lowest group index among those at minimum distance; and every group of the rider occurs
in the tour exactly once. -/
theorem restaurants_visited_nearest_first (n : Int) (hn : 1 ≤ n) (hfit : n * n ≤ INT_MAX)
    (ro : RouteOptimizer) (rid : Nat) (hg : IsGrid n ro.graph)
    (ha : ∀ a ∈ ro.assignments rid, AssignOK n ro.rests a) :
    ∃ tour ro1, buildRoute ro rid = some ro1 ∧
      ro1.routes rid = tourStops n ro.rests (groupAssignments (ro.assignments rid)) tour ∧
      ((tour = [] ∧ (groupAssignments (ro.assignments rid)).uRests = []) ∨
        ∃ os t, tour = (0, os) :: t ∧
          GreedyRests n ro.rests (groupAssignments (ro.assignments rid))
            (updAt (fun _ => false) 0 true)
            (orderEnd ro.rests ((groupAssignments (ro.assignments rid)).rOrds.getD 0 [])
              (restLocOf ro.rests (groupAssignments (ro.assignments rid)) 0) os) t) ∧
      (tour.map Prod.fst).Perm
        (List.range (groupAssignments (ro.assignments rid)).uRests.length) := by
  obtain ⟨tour, ro1, e, _, _, _, _, _, b6, _, _, b9, b10⟩ :=
    buildRoute_spec n hn ro rid hg ha
  exact ⟨tour, ro1, e, b6, b9, b10 hfit⟩

theorem restaurants_visited_nearest_first_witness :
    (1 : Int) ≤ 3 ∧ (3 : Int) * 3 ≤ INT_MAX ∧ IsGrid 3 tourOptimizer.graph ∧
    (∀ a ∈ tourOptimizer.assignments 0, AssignOK 3 tourOptimizer.rests a) ∧
    (groupAssignments (tourOptimizer.assignments 0)).uRests = [0, 1, 2, 3] ∧
    (buildRoute tourOptimizer 0).map (fun ro => (ro.routes 0).filter (fun s => s.isNamed)) =
      some [⟨1, "R1", true⟩, ⟨2, "A", true⟩, ⟨4, "B", true⟩, ⟨5, "R4", true⟩,
        ⟨6, "E", true⟩, ⟨9, "R2", true⟩, ⟨7, "C", true⟩, ⟨3, "R3", true⟩, ⟨2, "D", true⟩] ∧
    ∃ tour ro1, buildRoute tourOptimizer 0 = some ro1 ∧
      ro1.routes 0 =
        tourStops 3 tourOptimizer.rests (groupAssignments (tourOptimizer.assignments 0))
          tour ∧
      ((tour = [] ∧ (groupAssignments (tourOptimizer.assignments 0)).uRests = []) ∨
        ∃ os t, tour = (0, os) :: t ∧
          GreedyRests 3 tourOptimizer.rests (groupAssignments (tourOptimizer.assignments 0))
            (updAt (fun _ => false) 0 true)
            (orderEnd tourOptimizer.rests
              ((groupAssignments (tourOptimizer.assignments 0)).rOrds.getD 0 [])
              (restLocOf tourOptimizer.rests
                (groupAssignments (tourOptimizer.assignments 0)) 0) os) t) ∧
      (tour.map Prod.fst).Perm
        (List.range (groupAssignments (tourOptimizer.assignments 0)).uRests.length) :=
  ⟨by decide, by decide, isGrid_init 3 _ _, by decide, by decide,
    tourOptimizer_named,
    restaurants_visited_nearest_first 3 (by decide) (by decide) tourOptimizer 0
      (isGrid_init 3 _ _) (by decide)⟩

/-- C14. On valid data (as in C13) `buildRoute` returns, the rider's route and total time are
those of a tour of its restaurant groups in which every group of the rider occurs exactly
once, and for every group visited the orders delivered at that restaurant, before the tour
goes on to the next restaurant, are chosen so that each is, at its turn, a not-yet-delivered
pending order of the group with the minimum `getDistance` from the current location, the
first such in the group; the total time is the sum of the chosen distances, each leg starts
where the previous order was delivered, and every pending order of the group is delivered
exactly once. -/
theorem orders_delivered_nearest_first (n : Int) (hn : 1 ≤ n) (hfit : n * n ≤ INT_MAX)
    (ro : RouteOptimizer) (rid : Nat) (hg : IsGrid n ro.graph)
    (ha : ∀ a ∈ ro.assignments rid, AssignOK n ro.rests a) :
    ∃ tour ro1, buildRoute ro rid = some ro1 ∧
      ro1.routes rid = tourStops n ro.rests (groupAssignments (ro.assignments rid)) tour ∧
      ro1.routeTimes rid = tourTime n ro.rests (groupAssignments (ro.assignments rid)) tour ∧
      (tour.map Prod.fst).Perm
        (List.range (groupAssignments (ro.assignments rid)).uRests.length) ∧
      ∀ p ∈ tour, p.1 < (groupAssignments (ro.assignments rid)).uRests.length ∧
        GreedyOrders n ro.rests ((groupAssignments (ro.assignments rid)).rOrds.getD p.1 [])
          (fun _ => false) (restLocOf ro.rests (groupAssignments (ro.assignments rid)) p.1)
          p.2 ∧
        p.2.Perm
          (List.range ((groupAssignments (ro.assignments rid)).rOrds.getD p.1 []).length) := by
  obtain ⟨tour, ro1, e, _, _, _, _, _, b6, b7, b8, _, b10⟩ :=
    buildRoute_spec n hn ro rid hg ha
  exact ⟨tour, ro1, e, b6, b7, b10 hfit,
    fun p hp => ⟨(b8 p hp).1, (b8 p hp).2.2.1, (b8 p hp).2.2.2 hfit⟩⟩

theorem orders_delivered_nearest_first_witness :
    (1 : Int) ≤ 3 ∧ (3 : Int) * 3 ≤ INT_MAX ∧ IsGrid 3 tourOptimizer.graph ∧
    (∀ a ∈ tourOptimizer.assignments 0, AssignOK 3 tourOptimizer.rests a) ∧
    (groupAssignments (tourOptimizer.assignments 0)).rOrds =
      [[⟨0, 0⟩, ⟨0, 1⟩], [⟨1, 0⟩], [⟨2, 0⟩], [⟨3, 0⟩]] ∧
    (buildRoute tourOptimizer 0).map (fun ro => (ro.routes 0, ro.routeTimes 0)) =
      some ([⟨1, "R1", true⟩, ⟨2, "A", true⟩, ⟨1, "", false⟩, ⟨4, "B", true⟩,
        ⟨5, "R4", true⟩, ⟨6, "E", true⟩, ⟨9, "R2", true⟩, ⟨8, "", false⟩, ⟨7, "C", true⟩,
        ⟨4, "", false⟩, ⟨1, "", false⟩, ⟨2, "", false⟩, ⟨3, "R3", true⟩, ⟨2, "D", true⟩],
        13) ∧
    ∃ tour ro1, buildRoute tourOptimizer 0 = some ro1 ∧
      ro1.routes 0 =
        tourStops 3 tourOptimizer.rests (groupAssignments (tourOptimizer.assignments 0))
          tour ∧
      ro1.routeTimes 0 =
        tourTime 3 tourOptimizer.rests (groupAssignments (tourOptimizer.assignments 0))
          tour ∧
      (tour.map Prod.fst).Perm
        (List.range (groupAssignments (tourOptimizer.assignments 0)).uRests.length) ∧
      ∀ p ∈ tour, p.1 < (groupAssignments (tourOptimizer.assignments 0)).uRests.length ∧
        GreedyOrders 3 tourOptimizer.rests
          ((groupAssignments (tourOptimizer.assignments 0)).rOrds.getD p.1 [])
          (fun _ => false)
          (restLocOf tourOptimizer.rests (groupAssignments (tourOptimizer.assignments 0))
            p.1) p.2 ∧
        p.2.Perm
          (List.range
            ((groupAssignments (tourOptimizer.assignments 0)).rOrds.getD p.1 []).length) :=
  ⟨by decide, by decide, isGrid_init 3 _ _, by decide, by decide, tourOptimizer_route,
    orders_delivered_nearest_first 3 (by decide) (by decide) tourOptimizer 0
      (isGrid_init 3 _ _) (by decide)⟩

/-- C15. On valid data (as in C13) `buildRoute` returns and the rider's route is its first
stop followed by the stops of the legs of a tour in which every group of the rider occurs
exactly once and, with each group, every pending order of the group exactly once: one leg
toward every restaurant of the tour after the first and one toward every order. For every
such leg from `src` toward the destination `dst`: `getPath(src, dst)` returns the same path
in every state of the grid graph, the locations of the leg's stops are that path without its
first node, a stop of the leg is named exactly when its location is `dst`, it then carries
the destination's name and otherwise the empty name, and only the last stop of the leg is
named. -/
theorem leg_is_path_with_destination_label (n : Int) (hn : 1 ≤ n) (hfit : n * n ≤ INT_MAX)
    (ro : RouteOptimizer) (rid : Nat) (hg : IsGrid n ro.graph)
    (ha : ∀ a ∈ ro.assignments rid, AssignOK n ro.rests a) :
    ∃ tour ro1, buildRoute ro rid = some ro1 ∧
      (tour.map Prod.fst).Perm
        (List.range (groupAssignments (ro.assignments rid)).uRests.length) ∧
      (∀ p ∈ tour, p.2.Perm
        (List.range ((groupAssignments (ro.assignments rid)).rOrds.getD p.1 []).length)) ∧
      ro1.routes rid = tourStops n ro.rests (groupAssignments (ro.assignments rid)) tour ∧
      ro1.routes rid = (ro1.routes rid).take 1 ++
        ((tourLegList ro.rests (groupAssignments (ro.assignments rid)) tour).map
          (legRoute n)).flatten ∧
      ∀ l ∈ tourLegList ro.rests (groupAssignments (ro.assignments rid)) tour,
        (∀ g, IsGrid n g → ∃ g1, getPath g l.src l.dst = some (gridPath n l.src l.dst, g1)) ∧
        (legRoute n l).map (fun s => s.location) = (gridPath n l.src l.dst).drop 1 ∧
        (∀ s ∈ legRoute n l, (s.isNamed = true ↔ s.location = l.dst) ∧
          s.name = if s.location = l.dst then l.name else "") ∧
        (∀ (i : Nat) (hi : i < (legRoute n l).length),
          ((legRoute n l)[i]).isNamed = true ↔ i + 1 = (legRoute n l).length) := by
  obtain ⟨tour, ro1, e, _, _, _, _, _, b6, _, b8, _, b10⟩ :=
    buildRoute_spec n hn ro rid hg ha
  have hgs := groupAssignments_ok n ro.rests _ ha
  refine ⟨tour, ro1, e, b10 hfit, fun p hp => (b8 p hp).2.2.2 hfit, b6, ?_, ?_⟩
  · rw [b6]
    exact tourStops_legs n ro.rests _ tour
  · intro l hl
    obtain ⟨v1, v2⟩ := tourLegList_valid n hn ro.rests _ hgs tour b8 l hl
    refine ⟨?_, legStops_locations _ _ _, legStops_labels _ _ _, ?_⟩
    · intro g hg1
      obtain ⟨⟨g1, e1, _⟩, _⟩ := getPath_gridPath n hn g hg1 l.src l.dst v1 v2
      exact ⟨g1, e1⟩
    · intro i hi
      have hmem : (legRoute n l)[i] ∈ legRoute n l := List.getElem_mem _
      rw [(legStops_labels _ _ _ _ hmem).1]
      exact leg_last_only n hn l.src l.dst v1 v2 l.name i hi

theorem leg_is_path_with_destination_label_witness :
    (1 : Int) ≤ 3 ∧ (3 : Int) * 3 ≤ INT_MAX ∧ IsGrid 3 tourOptimizer.graph ∧
    (∀ a ∈ tourOptimizer.assignments 0, AssignOK 3 tourOptimizer.rests a) ∧
    (buildRoute tourOptimizer 0).map (fun ro => (ro.routes 0).map (fun s => s.location)) =
      some [1, 2, 1, 4, 5, 6, 9, 8, 7, 4, 1, 2, 3, 2] ∧
    ∃ tour ro1, buildRoute tourOptimizer 0 = some ro1 ∧
      (tour.map Prod.fst).Perm
        (List.range (groupAssignments (tourOptimizer.assignments 0)).uRests.length) ∧
      (∀ p ∈ tour, p.2.Perm
        (List.range
          ((groupAssignments (tourOptimizer.assignments 0)).rOrds.getD p.1 []).length)) ∧
      ro1.routes 0 =
        tourStops 3 tourOptimizer.rests (groupAssignments (tourOptimizer.assignments 0))
          tour ∧
      ro1.routes 0 = (ro1.routes 0).take 1 ++
        ((tourLegList tourOptimizer.rests (groupAssignments (tourOptimizer.assignments 0))
          tour).map (legRoute 3)).flatten ∧
      ∀ l ∈ tourLegList tourOptimizer.rests
          (groupAssignments (tourOptimizer.assignments 0)) tour,
        (∀ g, IsGrid 3 g → ∃ g1, getPath g l.src l.dst = some (gridPath 3 l.src l.dst, g1)) ∧
        (legRoute 3 l).map (fun s => s.location) = (gridPath 3 l.src l.dst).drop 1 ∧
        (∀ s ∈ legRoute 3 l, (s.isNamed = true ↔ s.location = l.dst) ∧
          s.name = if s.location = l.dst then l.name else "") ∧
        (∀ (i : Nat) (hi : i < (legRoute 3 l).length),
          ((legRoute 3 l)[i]).isNamed = true ↔ i + 1 = (legRoute 3 l).length) :=
  ⟨by decide, by decide, isGrid_init 3 _ _, by decide,
    tourOptimizer_locations,
    leg_is_path_with_destination_label 3 (by decide) (by decide) tourOptimizer 0
      (isGrid_init 3 _ _) (by decide)⟩

/-- C17. For every valid input `optimize` returns, and for every rider whose route is then
non-empty the rider's total time equals the number of stops of the route minus one. -/
theorem route_time_is_stops_minus_one (gridSz : Int) (numRid : Nat)
    (inp : List RestaurantInput) (d0 p0 : Int → Int) (hv : ValidInput gridSz numRid inp) :
    ∃ ro, runTestCase gridSz numRid inp d0 p0 = some ro ∧
      ∀ r, ro.routes r ≠ [] → ro.routeTimes r = ((ro.routes r).length : Int) - 1 := by
  obtain ⟨ro, e, h⟩ := optimize_routes_spec gridSz numRid inp d0 p0 hv
  refine ⟨ro, e, ?_⟩
  intro r hne
  rcases h r with ⟨q1, _⟩ | ⟨tour, hgs, q1, q2, q3⟩
  · exact absurd q1 hne
  · obtain ⟨w1, w2, _, _⟩ := tourStops_walk gridSz hv.1 ro.rests _ hgs tour q1
    have ht : tour ≠ [] := by
      intro h0
      exact hne (by rw [q2]; exact w2 h0)
    rw [q3, q2, w1 ht]
    omega

theorem route_time_is_stops_minus_one_witness :
    ValidInput 3 1 [⟨"R1", 5, [⟨"O1", 9, 10⟩]⟩, ⟨"R2", 1, [⟨"O2", 3, 10⟩]⟩] ∧
    ∃ ro, runTestCase 3 1 [⟨"R1", 5, [⟨"O1", 9, 10⟩]⟩, ⟨"R2", 1, [⟨"O2", 3, 10⟩]⟩]
        (fun _ => 0) (fun _ => 0) = some ro ∧
      ∀ r, ro.routes r ≠ [] → ro.routeTimes r = ((ro.routes r).length : Int) - 1 :=
  ⟨by decide, route_time_is_stops_minus_one 3 1 _ (fun _ => 0) (fun _ => 0) (by decide)⟩

/-- C18. For every valid input `optimize` returns, and for every rider every stop of the
rider's route is a node in `[1, gridSz * gridSz]` and every two consecutive stops of the route
are grid-adjacent. -/
theorem route_is_connected_walk (gridSz : Int) (numRid : Nat) (inp : List RestaurantInput)
    (d0 p0 : Int → Int) (hv : ValidInput gridSz numRid inp) :
    ∃ ro, runTestCase gridSz numRid inp d0 p0 = some ro ∧
      ∀ r, (∀ s ∈ ro.routes r, ValidNode (gridSz * gridSz) s.location) ∧
        ((ro.routes r).map (fun s => s.location)).Chain' (GridAdjacent gridSz) := by
  obtain ⟨ro, e, h⟩ := optimize_routes_spec gridSz numRid inp d0 p0 hv
  refine ⟨ro, e, ?_⟩
  intro r
  rcases h r with ⟨q1, _⟩ | ⟨tour, hgs, q1, q2, _⟩
  · rw [q1]
    exact ⟨fun s hs => absurd hs (List.not_mem_nil s), List.chain'_nil⟩
  · obtain ⟨_, _, w3, w4⟩ := tourStops_walk gridSz hv.1 ro.rests _ hgs tour q1
    rw [q2]
    exact ⟨w3, w4⟩

theorem route_is_connected_walk_witness :
    ValidInput 3 2 [⟨"R1", 2, [⟨"O1", 8, 10⟩]⟩, ⟨"R2", 7, [⟨"O2", 3, 10⟩]⟩] ∧
    ∃ ro, runTestCase 3 2 [⟨"R1", 2, [⟨"O1", 8, 10⟩]⟩, ⟨"R2", 7, [⟨"O2", 3, 10⟩]⟩]
        (fun _ => 0) (fun _ => 0) = some ro ∧
      ∀ r, (∀ s ∈ ro.routes r, ValidNode (3 * 3) s.location) ∧
        ((ro.routes r).map (fun s => s.location)).Chain' (GridAdjacent 3) :=
  ⟨by decide, route_is_connected_walk 3 2 _ (fun _ => 0) (fun _ => 0) (by decide)⟩
end FoodDelivery
